/-
Verification of the CBOR/COSE structural codec (`src/cbor.ts`, `src/cose.ts`).

The TypeScript source is shallowly embedded: byte buffers are `List Nat`
(each element < 256 by construction), JavaScript numbers are modelled by
`JSNum` (integral doubles as unbounded `Int`, non-integral doubles by their
64-bit IEEE-754 bit pattern), fallible code returns `Except String`, and the
thrown `Error` messages are carried verbatim.  All definitions are executable.
-/
import Mathlib

set_option maxRecDepth 10000
set_option linter.unusedVariables false
set_option linter.unreachableTactic false
set_option linter.unusedTactic false
set_option linter.unnecessarySeqFocus false

namespace CborCose

/-! ## IEEE-754 double-precision bit-level model

JavaScript numbers are IEEE-754 binary64 values.  We represent a double by
its 64-bit pattern (a `Nat < 2^64`) and implement the handful of exact
operations the codec needs: classification (finite / integral), the exact
integer value of an integral double, correctly-rounded conversion from
decimal and from unsigned 64-bit integers, and widening of binary32. -/

/-- Sign bit of a binary64 pattern. -/
def signBit (b : Nat) : Nat := b / 2 ^ 63

/-- Biased exponent field of a binary64 pattern. -/
def expoBits (b : Nat) : Nat := b / 2 ^ 52 % 2 ^ 11

/-- Mantissa field of a binary64 pattern. -/
def mantBits (b : Nat) : Nat := b % 2 ^ 52

/-- The pattern denotes a finite double (not an infinity and not a NaN). -/
def isFiniteBits (b : Nat) : Bool := expoBits b < 2047

/-- The pattern denotes a finite double whose value is an integer
(`Number.isInteger` on the denoted value).  A normal double with biased
exponent `e` has value `±(2^52 + mant) * 2^(e - 1075)`; it is integral iff
`e ≥ 1075` or `2^(1075-e)` divides the significand.  Subnormals are integral
only at zero. -/
def isIntegralBits (b : Nat) : Bool :=
  let e := expoBits b
  if e = 2047 then false
  else if e = 0 then mantBits b = 0
  else if 1075 ≤ e then true
  else (2 ^ 52 + mantBits b) % 2 ^ (1075 - e) = 0

/-- Exact integer value of an integral finite double pattern (`-0` maps to 0). -/
def intOfBits (b : Nat) : Int :=
  let e := expoBits b
  let mag : Nat :=
    if e = 0 then 0
    else if 1075 ≤ e then (2 ^ 52 + mantBits b) * 2 ^ (e - 1075)
    else (2 ^ 52 + mantBits b) / 2 ^ (1075 - e)
  if signBit b = 1 then -(mag : Int) else (mag : Int)

/-- Round `n / d` to the nearest integer, ties to even (`d > 0`). -/
def roundNearestEven (n d : Nat) : Nat :=
  let q := n / d
  let r := n % d
  if 2 * r < d then q
  else if d < 2 * r then q + 1
  else if q % 2 = 0 then q else q + 1

/-- Fuelled floor-log₂ (the fuel only serves structural recursion; the
argument halves each step, so fuel `n` suffices for every `n`). -/
def natLog2F : Nat → Nat → Nat
  | 0, _ => 0
  | fuel + 1, n => if 2 ≤ n then natLog2F fuel (n / 2) + 1 else 0

/-- `floor (log2 n)` (0 at 0 and 1). -/
def natLog2 (n : Nat) : Nat := natLog2F n n

/-- Fuelled floor-log₁₀. -/
def natLog10F : Nat → Nat → Nat
  | 0, _ => 0
  | fuel + 1, n => if 10 ≤ n then natLog10F fuel (n / 10) + 1 else 0

/-- `floor (log10 n)` (0 at 0 and 1). -/
def natLog10 (n : Nat) : Nat := natLog10F n n

/-- `2 ^ e ≤ a / b` for an integer exponent `e` (with `a, b > 0`). -/
def twoPowLe (e : Int) (a b : Nat) : Bool :=
  if 0 ≤ e then b * 2 ^ e.toNat ≤ a else b ≤ a * 2 ^ (-e).toNat

/-- `floor (log2 (a / b))` for positive naturals, via a guess from bit
lengths corrected by one comparison. -/
def floorLog2Rat (a b : Nat) : Int :=
  let g : Int := (natLog2 a : Int) - (natLog2 b : Int)
  if twoPowLe g a b then g else g - 1

/-- Round the positive rational `a / b` to the nearest binary64, ties to
even; returns the bit pattern of a non-negative double (`+∞` on overflow,
subnormals and zero below the normal range). -/
def roundPosRatToBits (a b : Nat) : Nat :=
  let e2 := floorLog2Rat a b
  if e2 < -1022 then
    -- subnormal range: value * 2^1074 rounded to an integer mantissa
    let m := roundNearestEven (a * 2 ^ 1074) b
    if m ≥ 2 ^ 52 then 1 * 2 ^ 52 else m
  else
    let k : Int := 52 - e2
    let m :=
      if 0 ≤ k then roundNearestEven (a * 2 ^ k.toNat) b
      else roundNearestEven a (b * 2 ^ (-k).toNat)
    let (m, e2) := if m = 2 ^ 53 then (2 ^ 52, e2 + 1) else (m, e2)
    if 1023 < e2 then 2047 * 2 ^ 52
    else ((e2 + 1023).toNat) * 2 ^ 52 + (m - 2 ^ 52)

/-- Bit pattern of the nearest double to the signed rational
`(if neg then -1 else 1) * a / b`. -/
def ratToBits (neg : Bool) (a b : Nat) : Nat :=
  if a = 0 then (if neg then 2 ^ 63 else 0)
  else (if neg then 2 ^ 63 else 0) + roundPosRatToBits a b

/-- Bit pattern of the nearest double to `(if neg then -1 else 1) * D * 10^e10`
(conversion of an exact decimal literal, as performed by `Number(string)`). -/
def decimalToBits (neg : Bool) (D : Nat) (e10 : Int) : Nat :=
  if 0 ≤ e10 then ratToBits neg (D * 10 ^ e10.toNat) 1
  else ratToBits neg D (10 ^ (-e10).toNat)

/-- Nearest double to a natural number, returned as a natural number
(doubles at or above `2^53` are integral, so the rounding stays integral).
Models the exact-below-`2^53`, rounded-above behaviour of converting a
64-bit unsigned integer to a JavaScript number. -/
def roundNatToDoubleNat (n : Nat) : Nat :=
  if n < 2 ^ 53 then n else (intOfBits (roundPosRatToBits n 1)).toNat

/-- `Number(v)` for an unsigned 64-bit `v` (used for 8-byte CBOR arguments). -/
def jsU64 (v : Nat) : Nat := roundNatToDoubleNat v

/-- Exact widening of a binary32 bit pattern to a binary64 bit pattern
(the value of `DataView.getFloat32` re-stored as a double). -/
def f32ToF64Bits (b32 : Nat) : Nat :=
  let s := b32 / 2 ^ 31
  let e8 := b32 / 2 ^ 23 % 2 ^ 8
  let m23 := b32 % 2 ^ 23
  if e8 = 255 then s * 2 ^ 63 + 2047 * 2 ^ 52 + m23 * 2 ^ 29
  else if e8 = 0 then
    if m23 = 0 then s * 2 ^ 63
    else s * 2 ^ 63 + roundPosRatToBits m23 (2 ^ 149)
  else s * 2 ^ 63 + (e8 + 896) * 2 ^ 52 + m23 * 2 ^ 29

/-! ## JavaScript numbers

A JavaScript number is an IEEE-754 double.  Integral doubles are carried as
unbounded `Int` (exact for `|n| ≤ 2^53 - 1`, and the rounded results of
wider reads are still integral); non-integral doubles (including `NaN` and
the infinities) are carried by bit pattern.  The constructors partition the
doubles: a `flt` pattern is never integral in any value built by the
embedding. -/
inductive JSNum where
  | int : Int → JSNum
  | flt : Nat → JSNum
deriving DecidableEq, Repr

/-- Classify a binary64 pattern as a JavaScript number. -/
def classifyBits (b : Nat) : JSNum :=
  if isIntegralBits b then .int (intOfBits b) else .flt b

/-! ## Decimal digit strings -/

/-- The ASCII digit character for `d < 10`. -/
def digitChar (d : Nat) : Char := Char.ofNat (48 + d)

/-- Decimal digits, fuelled for structural recursion (the fuel argument
only serves Lean's termination checker; `n + 1` steps always suffice since
the argument shrinks by a factor of ten each step). -/
def natDigitsF : Nat → Nat → List Char
  | 0, _ => []
  | fuel + 1, n =>
      if n < 10 then [digitChar n]
      else natDigitsF fuel (n / 10) ++ [digitChar (n % 10)]

/-- Decimal digits of a natural number, most significant first. -/
def natDigits (n : Nat) : List Char := natDigitsF (n + 1) n

/-- Canonical decimal representation of an integer, as produced by
JavaScript `String(n)` for integral doubles of magnitude below `2^53`
(shortest-round-trip printing coincides with the exact decimal there). -/
def decRepr (n : Int) : String :=
  if n < 0 then ⟨'-' :: natDigits n.natAbs⟩ else ⟨natDigits n.natAbs⟩

/-- Numeric value of a list of ASCII digits (must all be digits). -/
def digitsVal (cs : List Char) : Nat :=
  cs.foldl (fun acc c => acc * 10 + (c.toNat - 48)) 0

/-- Is the character an ASCII decimal digit? -/
def isDigitChar (c : Char) : Bool := 48 ≤ c.toNat ∧ c.toNat ≤ 57

/-- Parse a canonical decimal integer string (optional minus, no leading
zeros, no `-0`): the exact inverse of `decRepr`. -/
def canonIntParse (s : String) : Option Int :=
  let ds (cs : List Char) : Bool :=
    cs ≠ [] ∧ cs.all isDigitChar ∧ (cs.head? = some '0' → cs = ['0'])
  match s.data with
  | '-' :: rest =>
      if ds rest ∧ rest ≠ ['0'] then some (-(digitsVal rest : Int)) else none
  | cs => if ds cs then some (digitsVal cs : Nat) else none

/-! ## `Number(string)`: the string-to-number conversion

JavaScript `Number(s)` (ECMAScript `StringToNumber`) trims whitespace and
parses a `StringNumericLiteral`: an optionally signed decimal literal with
optional fraction and exponent, `Infinity`, or an unsigned binary / octal /
hexadecimal literal.  Unparsable strings give `NaN` (`none` here); the
numeric value is the exact literal value correctly rounded to a double. -/

/-- ECMAScript `WhiteSpace` or `LineTerminator` code points (trimmed by
`StringToNumber`). -/
def isJsWhitespace (c : Char) : Bool :=
  let n := c.toNat
  n = 9 ∨ n = 10 ∨ n = 11 ∨ n = 12 ∨ n = 13 ∨ n = 32 ∨ n = 0xA0 ∨
  n = 0x1680 ∨ (0x2000 ≤ n ∧ n ≤ 0x200A) ∨ n = 0x2028 ∨ n = 0x2029 ∨
  n = 0x202F ∨ n = 0x205F ∨ n = 0x3000 ∨ n = 0xFEFF

/-- Exact value of a parsed numeric literal: a finite signed decimal
`±D × 10^e10`, or a signed infinity. -/
inductive NumParse where
  | fin (neg : Bool) (D : Nat) (e10 : Int) : NumParse
  | inf (neg : Bool) : NumParse
deriving DecidableEq, Repr

/-- Value of a hex digit, if it is one. -/
def hexDigitVal (c : Char) : Option Nat :=
  let n := c.toNat
  if 48 ≤ n ∧ n ≤ 57 then some (n - 48)
  else if 97 ≤ n ∧ n ≤ 102 then some (n - 87)
  else if 65 ≤ n ∧ n ≤ 70 then some (n - 55)
  else none

/-- Value of a string of base-`r` digits drawn from the hex digit set,
`none` if empty or containing an invalid digit. -/
def radixVal (r : Nat) (cs : List Char) : Option Nat :=
  if cs = [] then none
  else cs.foldl (fun acc c =>
    match acc, hexDigitVal c with
    | some a, some d => if d < r then some (a * r + d) else none
    | _, _ => none) (some 0)

/-- Parse the unsigned decimal part `digits [. digits] [e [sign] digits]`
into `(D, e10)`.  Requires at least one digit overall and digits after a
present exponent marker. -/
def parseUnsignedDecimal (cs : List Char) : Option (Nat × Int) :=
  let intPart := cs.takeWhile isDigitChar
  let rest1 := cs.dropWhile isDigitChar
  let (fracPart, rest2) :=
    match rest1 with
    | '.' :: r => (r.takeWhile isDigitChar, r.dropWhile isDigitChar)
    | _ => ([], rest1)
  if intPart = [] ∧ fracPart = [] then none
  else
    let D := digitsVal (intPart ++ fracPart)
    let fracLen : Int := fracPart.length
    match rest2 with
    | [] => some (D, -fracLen)
    | e :: r =>
        if e = 'e' ∨ e = 'E' then
          let (negExp, digits) :=
            match r with
            | '+' :: d => (false, d)
            | '-' :: d => (true, d)
            | d => (false, d)
          if digits ≠ [] ∧ digits.all isDigitChar then
            let ex : Int := digitsVal digits
            some (D, (if negExp then -ex else ex) - fracLen)
          else none
        else none

/-- Parse a trimmed `StrNumericLiteral`. -/
def parseNumericLiteral (cs : List Char) : Option NumParse :=
  match cs with
  | [] => some (.fin false 0 0)
  | '0' :: x :: r =>
      if x = 'x' ∨ x = 'X' then (radixVal 16 r).map (NumParse.fin false · 0)
      else if x = 'o' ∨ x = 'O' then (radixVal 8 r).map (NumParse.fin false · 0)
      else if x = 'b' ∨ x = 'B' then (radixVal 2 r).map (NumParse.fin false · 0)
      else (parseUnsignedDecimal cs).map (fun (D, e) => .fin false D e)
  | _ =>
      let (neg, body) :=
        match cs with
        | '+' :: r => (false, r)
        | '-' :: r => (true, r)
        | r => (false, r)
      if body = ['I', 'n', 'f', 'i', 'n', 'i', 't', 'y'] then some (.inf neg)
      else (parseUnsignedDecimal body).map (fun (D, e) => .fin neg D e)

/-- `Number(s)` for a string: `none` denotes `NaN`.  Small exact integers
are returned as `int` directly (they are exactly representable); all other
finite literals go through correctly-rounded conversion and are classified.
-/
def jsStringToNumber (s : String) : Option JSNum :=
  let cs := (s.data.dropWhile isJsWhitespace).reverse.dropWhile isJsWhitespace
    |>.reverse
  match parseNumericLiteral cs with
  | none => none
  | some (.inf neg) =>
      some (.flt (if neg then 0xFFF0000000000000 else 0x7FF0000000000000))
  | some (.fin neg D e10) =>
      if e10 = 0 ∧ D ≤ 2 ^ 53 - 1 then
        some (.int (if neg then -(D : Int) else (D : Int)))
      else some (classifyBits (decimalToBits neg D e10))

/-! ## `String(number)`: the number-to-string conversion

ECMAScript `Number::toString` picks the decimal `s × 10^(n-k)` with the
fewest digits `k` whose nearest double is the number, among those the one
closest to the number (ties to an even `s`), and then lays the digits out
in fixed or exponential notation depending on `n`. -/

/-- `floor (log10 (p / q))` for positive naturals. -/
def floorLog10Rat (p q : Nat) : Int :=
  let g : Int := (natLog10 p : Int) - (natLog10 q : Int)
  let le10 (e : Int) : Bool :=
    if 0 ≤ e then q * 10 ^ e.toNat ≤ p else q ≤ p * 10 ^ (-e).toNat
  if le10 g then g else g - 1

/-- Exact value of a positive finite double pattern as a fraction `p / q`. -/
def bitsToRat (b : Nat) : Nat × Nat :=
  let e := expoBits b
  if e = 0 then (mantBits b, 2 ^ 1074)
  else if 1075 ≤ e then ((2 ^ 52 + mantBits b) * 2 ^ (e - 1075), 1)
  else (2 ^ 52 + mantBits b, 2 ^ (1075 - e))

/-- `floor ((p / q) / 10^t)` for an integer `t`. -/
def floorDivPow10 (p q : Nat) (t : Int) : Nat :=
  if 0 ≤ t then p / (q * 10 ^ t.toNat) else p * 10 ^ (-t).toNat / q

/-- Does the `k`-digit candidate `s` at decimal position `t = n - k` read
back (as an exact decimal) to the double pattern `b`? -/
def candidateMatches (b : Nat) (s : Nat) (t : Int) : Bool :=
  decimalToBits false s t = b

/-- Compare `|s₀·10^t - x|` with `|s₁·10^t - x|` for `x = p/q`,
`s₀·10^t ≤ x ≤ s₁·10^t`: `true` iff the first distance is strictly
smaller.  Exact integer arithmetic on cross-multiplied forms. -/
def lowerIsCloser (p q s₀ s₁ : Nat) (t : Int) : Ordering :=
  -- compare (x - s₀·10^t) with (s₁·10^t - x), i.e. 2x with (s₀+s₁)·10^t
  let lhs := 2 * p
  let rhs :=
    if 0 ≤ t then (s₀ + s₁) * 10 ^ t.toNat * q
    else (s₀ + s₁) * q
  let lhs := if 0 ≤ t then lhs else lhs * 10 ^ (-t).toNat
  compare lhs rhs

/-- Try digit count `k` for the shortest representation of the positive
double `b` with exact value `p/q` and decimal exponent `n`: returns a
matching `(significand, decimal exponent)`, if any.  The upper candidate
`s₀ + 1` may carry into the next decade (`s₀ + 1 = 10^k`), in which case it
is the one-digit-significand representation `1 × 10^n` reported at
exponent `n + 1`. -/
def tryDigitCount (b : Nat) (p q : Nat) (n : Int) (k : Nat) : Option (Nat × Int) :=
  let t := n - k
  let s₀ := floorDivPow10 p q t
  let s₁ := s₀ + 1
  let lo := 10 ^ (k - 1)
  let hi := 10 ^ k
  let norm (s : Nat) : Nat × Int := if s = hi then (lo, n + 1) else (s, n)
  let ok₀ := lo ≤ s₀ ∧ s₀ < hi ∧ candidateMatches b s₀ t
  let ok₁ := lo ≤ s₁ ∧ s₁ ≤ hi ∧ candidateMatches b s₁ t
  if ok₀ ∧ ok₁ then
    match lowerIsCloser p q s₀ s₁ t with
    | .lt => some (norm s₀)
    | .gt => some (norm s₁)
    | .eq => some (norm (if s₀ % 2 = 0 then s₀ else s₁))
  else if ok₀ then some (norm s₀)
  else if ok₁ then some (norm s₁)
  else none

/-- Exact (non-shortest) decimal representation of the positive double
pattern `b`: a pair `(s, t)` with value exactly `s × 10^t` and `s` not
divisible by 10.  Fallback for `shortestDecimal`; every binary fraction has
a finite decimal expansion. -/
def exactDecimal (b : Nat) : Nat × Int :=
  let e := expoBits b
  let (raw, t) : Nat × Int :=
    if e = 0 then (mantBits b * 5 ^ 1074, -1074)
    else if 1075 ≤ e then ((2 ^ 52 + mantBits b) * 2 ^ (e - 1075), 0)
    else ((2 ^ 52 + mantBits b) * 5 ^ (1075 - e), -(1075 - e : Nat))
  -- strip trailing zeros
  let rec strip (s : Nat) (t : Int) (fuel : Nat) : Nat × Int :=
    match fuel with
    | 0 => (s, t)
    | fuel + 1 => if s % 10 = 0 ∧ s ≠ 0 then strip (s / 10) (t + 1) fuel else (s, t)
  strip raw t 1200

/-- Shortest-round-trip decimal `(s, n)` of a positive finite double
pattern `b`: value is `s × 10^(n - digits s)` with `10^(n-1) ≤ value < 10^n`.
Searches digit counts 1..17 (always sufficient for binary64), with the
exact expansion as a defensive fallback. -/
def shortestDecimal (b : Nat) : Nat × Int :=
  let (p, q) := bitsToRat b
  let n := floorLog10Rat p q + 1
  match (List.range 17).findSome? (fun i => tryDigitCount b p q n (i + 1)) with
  | some r => r
  | none =>
      let (s, t) := exactDecimal b
      (s, t + (natDigits s).length)

/-- Lay out digits `s` with decimal exponent `n` per ECMAScript
`Number::toString` (fixed notation for `-6 < n ≤ 21`, exponential
otherwise). -/
def layoutDecimal (s : Nat) (n : Int) : String :=
  let ds := natDigits s
  let k : Int := ds.length
  if k ≤ n ∧ n ≤ 21 then
    ⟨ds ++ List.replicate (n - k).toNat '0'⟩
  else if 0 < n ∧ n ≤ 21 then
    ⟨ds.take n.toNat ++ '.' :: ds.drop n.toNat⟩
  else if -6 < n ∧ n ≤ 0 then
    ⟨'0' :: '.' :: List.replicate (-n).toNat '0' ++ ds⟩
  else
    let mantissa : List Char :=
      match ds with
      | [d] => [d]
      | d :: rest => d :: '.' :: rest
      | [] => ['0']
    let e := n - 1
    ⟨mantissa ++ 'e' :: (if 0 ≤ e then '+' :: natDigits e.toNat
                         else '-' :: natDigits (-e).toNat)⟩

/-- `String(x)` for a double given by its bit pattern. -/
def fltToString (b : Nat) : String :=
  if expoBits b = 2047 then
    if mantBits b ≠ 0 then "NaN"
    else if signBit b = 1 then "-Infinity" else "Infinity"
  else if b % 2 ^ 63 = 0 then "0"
  else
    let mag := b % 2 ^ 63
    let (s, n) := shortestDecimal mag
    let body := layoutDecimal s n
    if signBit b = 1 then ⟨'-' :: body.data⟩ else body

/-- `String(x)` for a JavaScript number.  For integral doubles of magnitude
below `2^53` the shortest round-trip representation is the exact decimal,
so `decRepr` is used directly; larger integral doubles and non-integral
doubles go through the shortest-decimal search. -/
def jsNumToString (j : JSNum) : String :=
  match j with
  | .int n =>
      if n.natAbs ≤ 2 ^ 53 - 1 then decRepr n
      else fltToString ((if n < 0 then 2 ^ 63 else 0) + roundPosRatToBits n.natAbs 1)
  | .flt b => fltToString b

/-! ## UTF-8 (TextEncoder / strict TextDecoder)

Strings are Lean `String`s: sequences of Unicode scalar values (lone
surrogates are unrepresentable, matching well-formed text).  `TextEncoder`
emits standard UTF-8; `TextDecoder("utf-8", {fatal: true})` rejects every
malformed sequence (truncation, stray or missing continuation bytes,
overlong forms, surrogates, out-of-range values). -/

/-- UTF-8 bytes of one scalar value. -/
def utf8EncodeChar (c : Char) : List Nat :=
  let v := c.toNat
  if v < 0x80 then [v]
  else if v < 0x800 then [0xC0 + v / 64, 0x80 + v % 64]
  else if v < 0x10000 then
    [0xE0 + v / 4096, 0x80 + v / 64 % 64, 0x80 + v % 64]
  else
    [0xF0 + v / 262144, 0x80 + v / 4096 % 64, 0x80 + v / 64 % 64, 0x80 + v % 64]

/-- UTF-8 encoding of a string (`TextEncoder.encode`). -/
def utf8Encode (s : String) : List Nat :=
  s.data.foldr (fun c acc => utf8EncodeChar c ++ acc) []

/-- Is the byte a UTF-8 continuation byte? -/
def isCont (b : Nat) : Bool := 0x80 ≤ b ∧ b < 0xC0

/-- Decode one scalar value from the head of a byte list; `none` on any
malformed sequence (strict decoding). -/
def utf8DecodeOne : List Nat → Option (Char × List Nat)
  | [] => none
  | b :: rest =>
    if b < 0x80 then some (Char.ofNat b, rest)
    else if b < 0xC2 then none
    else if b < 0xE0 then
      match rest with
      | b1 :: r =>
          if isCont b1 then some (Char.ofNat ((b - 0xC0) * 64 + (b1 - 0x80)), r)
          else none
      | _ => none
    else if b < 0xF0 then
      match rest with
      | b1 :: b2 :: r =>
          if isCont b1 ∧ isCont b2 then
            let v := (b - 0xE0) * 4096 + (b1 - 0x80) * 64 + (b2 - 0x80)
            if v < 0x800 ∨ (0xD800 ≤ v ∧ v < 0xE000) then none
            else some (Char.ofNat v, r)
          else none
      | _ => none
    else if b < 0xF5 then
      match rest with
      | b1 :: b2 :: b3 :: r =>
          if isCont b1 ∧ isCont b2 ∧ isCont b3 then
            let v := (b - 0xF0) * 262144 + (b1 - 0x80) * 4096 +
                     (b2 - 0x80) * 64 + (b3 - 0x80)
            if v < 0x10000 ∨ 0x110000 ≤ v then none
            else some (Char.ofNat v, r)
          else none
      | _ => none
    else none

theorem utf8DecodeOne_shrinks : ∀ {bs : List Nat} {c : Char} {r : List Nat},
    utf8DecodeOne bs = some (c, r) → r.length < bs.length := by
  intro bs c r h
  match bs with
  | [] => simp [utf8DecodeOne] at h
  | b :: rest =>
    simp only [utf8DecodeOne] at h
    split at h
    · simp only [Option.some.injEq, Prod.mk.injEq] at h
      simp [← h.2]
    · split at h
      · exact absurd h (by simp)
      · split at h
        · match rest with
          | [] => simp at h
          | b1 :: r1 =>
            simp only at h
            split at h
            · simp only [Option.some.injEq, Prod.mk.injEq] at h
              simp [← h.2]; omega
            · simp at h
        · split at h
          · match rest with
            | [] => simp at h
            | [b1] => simp at h
            | b1 :: b2 :: r2 =>
              simp only at h
              split at h
              · split at h
                · simp at h
                · simp only [Option.some.injEq, Prod.mk.injEq] at h
                  simp [← h.2]; omega
              · simp at h
          · split at h
            · match rest with
              | [] => simp at h
              | [b1] => simp at h
              | [b1, b2] => simp at h
              | b1 :: b2 :: b3 :: r3 =>
                simp only at h
                split at h
                · split at h
                  · simp at h
                  · simp only [Option.some.injEq, Prod.mk.injEq] at h
                    simp [← h.2]; omega
                · simp at h
            · simp at h

/-- Strict UTF-8 decoding, fuelled for structural recursion (every step
consumes at least one byte, so `length + 1` steps suffice). -/
def utf8DecodeCharsF : Nat → List Nat → Option (List Char)
  | 0, _ => none
  | fuel + 1, bs =>
      if bs = [] then some []
      else
        match utf8DecodeOne bs with
        | none => none
        | some (c, r) =>
            match utf8DecodeCharsF fuel r with
            | none => none
            | some cs => some (c :: cs)

/-- Strict UTF-8 decoding of a whole byte list (`TextDecoder` with
`fatal: true`): `none` on any malformed input. -/
def utf8DecodeChars (bs : List Nat) : Option (List Char) :=
  utf8DecodeCharsF (bs.length + 1) bs

/-- Strict UTF-8 decoding to a string. -/
def utf8Decode (bs : List Nat) : Option String :=
  (utf8DecodeChars bs).map fun cs => ⟨cs⟩

/-! ## UTF-16 code-unit order (JavaScript string comparison) -/

/-- UTF-16 code units of a scalar value (surrogate pair above the BMP). -/
def utf16UnitsChar (c : Char) : List Nat :=
  let v := c.toNat
  if v < 0x10000 then [v]
  else [0xD800 + (v - 0x10000) / 0x400, 0xDC00 + (v - 0x10000) % 0x400]

/-- UTF-16 code units of a string. -/
def utf16Units (s : String) : List Nat :=
  s.data.foldr (fun c acc => utf16UnitsChar c ++ acc) []

/-- Strict lexicographic order on lists of naturals. -/
def lexLt : List Nat → List Nat → Bool
  | [], [] => false
  | [], _ :: _ => true
  | _ :: _, [] => false
  | a :: as, b :: bs => if a < b then true else if b < a then false else lexLt as bs

/-- JavaScript `a < b` on strings: lexicographic on UTF-16 code units. -/
def jsStrLt (a b : String) : Bool := lexLt (utf16Units a) (utf16Units b)

/-! ## The CBOR value model

`CBORValue` from the source: numbers, byte strings (`ArrayBuffer`, by
content), text strings, arrays, maps (JavaScript objects: association
lists of string keys, where numeric keys appear as their canonical decimal
strings), tagged values (objects `{tag, value}` with a non-negative
integral tag), booleans, `null`, `undefined`. -/
inductive Val where
  | num : JSNum → Val
  | bytes : List Nat → Val
  | text : String → Val
  | arr : List Val → Val
  | map : List (String × Val) → Val
  | tag : Nat → Val → Val
  | bool : Bool → Val
  | null : Val
  | undef : Val
deriving Repr

compile_inductive% Val

/-- First value bound to key `k` in an association list. -/
def lookupStr (l : List (String × Val)) (k : String) : Option Val :=
  match l.find? (fun p => p.1 = k) with
  | some p => some p.2
  | none => none

/-- Does the object have the key (`k in obj`)? -/
def hasKeyStr (l : List (String × Val)) (k : String) : Bool :=
  l.any (fun p => p.1 = k)

/-- Property write `obj[k] = v` on a JavaScript object: overwrite in place
if the key exists, else append. -/
def jsObjSet (l : List (String × Val)) (k : String) (v : Val) :
    List (String × Val) :=
  if hasKeyStr l k then l.map (fun p => if p.1 = k then (k, v) else p)
  else l ++ [(k, v)]

/-- Canonical array-index strings (`"0"` … up to `2^32 - 2`), which
`Object.entries` lists first in numeric order. -/
def isArrayIndexStr (s : String) : Option Nat :=
  match canonIntParse s with
  | some n => if 0 ≤ n ∧ n < 2 ^ 32 - 1 then some n.toNat else none
  | none => none

/-- Stable insertion into a list sorted by array-index value. -/
def insertIdx (e : String × Val) : List (String × Val) → List (String × Val)
  | [] => [e]
  | x :: xs =>
      if (isArrayIndexStr e.1).getD 0 < (isArrayIndexStr x.1).getD 0 then
        e :: x :: xs
      else x :: insertIdx e xs

/-- Sort entries by array-index value (stable). -/
def sortIdx : List (String × Val) → List (String × Val)
  | [] => []
  | x :: xs => insertIdx x (sortIdx xs)

/-- `Object.entries` enumeration order: array-index keys first in ascending
numeric order, then the remaining keys in insertion order. -/
def jsEntriesOrder (l : List (String × Val)) : List (String × Val) :=
  sortIdx (l.filter (fun p => (isArrayIndexStr p.1).isSome)) ++
    l.filter (fun p => !(isArrayIndexStr p.1).isSome)

/-- Stable insertion into a list sorted by `jsStrLt` on keys. -/
def insertEntry (e : String × Val) : List (String × Val) → List (String × Val)
  | [] => [e]
  | x :: xs => if jsStrLt e.1 x.1 then e :: x :: xs else x :: insertEntry e xs

/-- Stable sort of map entries by the JavaScript string order of their keys:
the outcome of `entries.sort(([a], [b]) => (a < b ? -1 : a > b ? 1 : 0))`
(a stable sort; with the distinct keys of an object the result is the
unique key-sorted permutation). -/
def sortEntries : List (String × Val) → List (String × Val)
  | [] => []
  | x :: xs => insertEntry x (sortEntries xs)

theorem insertEntry_perm (e : String × Val) (l : List (String × Val)) :
    List.Perm (insertEntry e l) (e :: l) := by
  induction l with
  | nil => simp [insertEntry]
  | cons x xs ih =>
      simp only [insertEntry]
      split
      · exact List.Perm.refl _
      · exact ((ih.cons x).trans (List.Perm.swap e x xs))

theorem sortEntries_perm (l : List (String × Val)) : List.Perm (sortEntries l) l := by
  induction l with
  | nil => simp [sortEntries]
  | cons x xs ih => exact (insertEntry_perm x (sortEntries xs)).trans (ih.cons x)

theorem insertIdx_perm (e : String × Val) (l : List (String × Val)) :
    List.Perm (insertIdx e l) (e :: l) := by
  induction l with
  | nil => simp [insertIdx]
  | cons x xs ih =>
      simp only [insertIdx]
      split
      · exact List.Perm.refl _
      · exact ((ih.cons x).trans (List.Perm.swap e x xs))

theorem sortIdx_perm (l : List (String × Val)) : List.Perm (sortIdx l) l := by
  induction l with
  | nil => simp [sortIdx]
  | cons x xs ih => exact (insertIdx_perm x (sortIdx xs)).trans (ih.cons x)

theorem jsEntriesOrder_perm (l : List (String × Val)) : List.Perm (jsEntriesOrder l) l := by
  unfold jsEntriesOrder
  exact List.Perm.trans (List.Perm.append_right _ (sortIdx_perm _))
    (List.filter_append_perm (fun p => (isArrayIndexStr p.1).isSome) l)

/-- Permutations preserve `sizeOf` (needed for termination through sorts). -/
theorem perm_sizeOf {α : Type} [SizeOf α] {l₁ l₂ : List α} (h : List.Perm l₁ l₂) :
    sizeOf l₁ = sizeOf l₂ := by
  induction h with
  | nil => rfl
  | cons x _ ih => simp [ih]
  | swap x y l => simp; omega
  | trans _ _ ih₁ ih₂ => omega

theorem lookupStr_sizeOf {l : List (String × Val)} {k : String} {v : Val}
    (h : lookupStr l k = some v) : sizeOf v < sizeOf l := by
  induction l with
  | nil => simp [lookupStr] at h
  | cons p rest ih =>
      simp only [lookupStr, List.find?] at h
      by_cases hp : (p.1 = k : Bool)
      · rw [hp] at h
        simp only [Option.some.injEq] at h
        subst h
        cases p with
        | mk a b => simp; omega
      · rw [Bool.not_eq_true] at hp
        rw [hp] at h
        have := ih (by simpa [lookupStr] using h)
        simp
        omega

/-- A successful lookup exhibits its entry. -/
theorem lookupStr_mem {l : List (String × Val)} {k : String} {v : Val}
    (h : lookupStr l k = some v) : (k, v) ∈ l := by
  simp only [lookupStr] at h
  cases hf : l.find? (fun p => p.1 = k) with
  | none => rw [hf] at h; cases h
  | some p =>
      rw [hf] at h
      simp only [Option.some.injEq] at h
      have hpmem : p ∈ l := List.mem_of_find?_eq_some hf
      have hpk : p.1 = k := by
        have hs := List.find?_some hf
        simpa using hs
      obtain ⟨p1, p2⟩ := p
      simp only at hpk h
      subst hpk
      subst h
      exact hpmem

/-- Every value has positive size. -/
theorem val_sizeOf_pos (v : Val) : 1 ≤ sizeOf v := by
  cases v <;> simp <;> try omega

/-- Every list has positive size. -/
theorem sizeOf_list_pos {α : Type} [SizeOf α] (l : List α) : 1 ≤ sizeOf l := by
  cases l <;> simp <;> try omega

/-! ## Structural equality

The deep-equality notion used to compare decoded values with inputs
(`toEqual` in the source's tests): arrays elementwise, maps by sorted key
comparison (insertion-order-insensitive, matching JavaScript object
equality), everything else by value.  A tagged value is, at runtime, the
plain object `{tag, value}`, so deep equality relates it to a two-entry
map holding an equal numeric `tag` and a deeply equal `value`.  The
functions are fuelled for structural recursion; `sizeOf` bounds always
suffice. -/
mutual

def structEqbF : Nat → Val → Val → Bool
  | 0, _, _ => false
  | fuel + 1, v, w =>
      match v, w with
      | .num a, .num b => a == b
      | .bytes a, .bytes b => a == b
      | .text a, .text b => a == b
      | .bool a, .bool b => a == b
      | .null, .null => true
      | .undef, .undef => true
      | .tag n v, .tag m w => n == m && structEqbF fuel v w
      | .arr xs, .arr ys => structEqbListF fuel xs ys
      | .map l, .map l' => structEqbEntriesF fuel (sortEntries l) (sortEntries l')
      | .tag n v, .map l =>
          (match lookupStr l "tag", lookupStr l "value" with
           | some (.num (.int m)), some inner =>
               ((n : Int) == m) && structEqbF fuel v inner && (l.length == 2)
           | _, _ => false)
      | .map l, .tag n v =>
          (match lookupStr l "tag", lookupStr l "value" with
           | some (.num (.int m)), some inner =>
               ((n : Int) == m) && structEqbF fuel inner v && (l.length == 2)
           | _, _ => false)
      | _, _ => false

def structEqbListF : Nat → List Val → List Val → Bool
  | 0, _, _ => false
  | _ + 1, [], [] => true
  | fuel + 1, x :: xs, y :: ys => structEqbF fuel x y && structEqbListF fuel xs ys
  | _ + 1, _, _ => false

def structEqbEntriesF : Nat → List (String × Val) → List (String × Val) → Bool
  | 0, _, _ => false
  | _ + 1, [], [] => true
  | fuel + 1, (k, v) :: r, (k', v') :: r' =>
      k == k' && structEqbF fuel v v' && structEqbEntriesF fuel r r'
  | _ + 1, _, _ => false

end

/-- Structural equality at canonical (always-sufficient) fuel. -/
def structEqb (v w : Val) : Bool := structEqbF (2 * sizeOf v + 1) v w

/-! ## The canonical round-trip image

The value a faithful decode of an encoded value yields: every map is
rebuilt in the order the encoder emitted its entries (`Object.entries`
enumeration, then the deterministic key sort) and every `{tag, value}`
shaped object is rebuilt as a tagged value.  Fuelled for structural
recursion exactly like the encoder; the canonical wrappers supply
always-sufficient fuel. -/

mutual

/-- Round-trip image of a value. -/
def canonF : Nat → Val → Val
  | 0, v => v
  | fuel + 1, v =>
      match v with
      | .arr xs => .arr (canonListF fuel xs)
      | .map l =>
          (match lookupStr l "tag", lookupStr l "value" with
           | some (.num (.int n)), some inner =>
               if 0 ≤ n then .tag n.toNat (canonF fuel inner) else .map l
           | some (.num (.flt _)), some _ => .map l
           | _, _ => .map (canonEntriesF fuel (sortEntries (jsEntriesOrder l))))
      | .tag t w => .tag t (canonF fuel w)
      | w => w

/-- Round-trip image of a map entry list, entrywise. -/
def canonEntriesF : Nat → List (String × Val) → List (String × Val)
  | 0, l => l
  | _ + 1, [] => []
  | fuel + 1, (k, v) :: r => (k, canonF fuel v) :: canonEntriesF fuel r

/-- Round-trip image of array elements, elementwise. -/
def canonListF : Nat → List Val → List Val
  | 0, xs => xs
  | _ + 1, [] => []
  | fuel + 1, x :: xs => canonF fuel x :: canonListF fuel xs

end

/-- The round-trip image at canonical (always-sufficient) fuel. -/
def canon (v : Val) : Val := canonF (2 * sizeOf v) v

/-- Entry lists of the round-trip image at canonical fuel. -/
def canonEntryList (l : List (String × Val)) : List (String × Val) :=
  canonEntriesF (2 * sizeOf l) l

/-- Array elements of the round-trip image at canonical fuel. -/
def canonValueList (xs : List Val) : List Val := canonListF (2 * sizeOf xs) xs

/-- All sufficient fuels compute the same round-trip image. -/
theorem canon_fuel_agree :
    ∀ n : Nat,
    (∀ v : Val, sizeOf v ≤ n → ∀ f₁ f₂ : Nat,
      2 * sizeOf v ≤ f₁ → 2 * sizeOf v ≤ f₂ → canonF f₁ v = canonF f₂ v) ∧
    (∀ l : List (String × Val), sizeOf l ≤ n → ∀ f₁ f₂ : Nat,
      2 * sizeOf l ≤ f₁ → 2 * sizeOf l ≤ f₂ →
      canonEntriesF f₁ l = canonEntriesF f₂ l) ∧
    (∀ xs : List Val, sizeOf xs ≤ n → ∀ f₁ f₂ : Nat,
      2 * sizeOf xs ≤ f₁ → 2 * sizeOf xs ≤ f₂ →
      canonListF f₁ xs = canonListF f₂ xs) := by
  intro n
  induction n using Nat.strong_induction_on with
  | _ n ih =>
    refine ⟨?_, ?_, ?_⟩
    · intro v hn f₁ f₂ h₁ h₂
      have hv1 : 1 ≤ sizeOf v := val_sizeOf_pos v
      obtain ⟨a, rfl⟩ : ∃ a, f₁ = a + 1 := ⟨f₁ - 1, by omega⟩
      obtain ⟨b, rfl⟩ : ∃ b, f₂ = b + 1 := ⟨f₂ - 1, by omega⟩
      cases v with
      | num j => simp only [canonF]
      | bytes bs => simp only [canonF]
      | text s => simp only [canonF]
      | bool bb => simp only [canonF]
      | null => simp only [canonF]
      | undef => simp only [canonF]
      | arr xs =>
          have hs : sizeOf (Val.arr xs) = 1 + sizeOf xs := by simp
          have hlist := (ih (sizeOf xs) (by omega)).2.2 xs le_rfl a b
            (by omega) (by omega)
          simp only [canonF, hlist]
      | tag t v' =>
          have hs : sizeOf (Val.tag t v') = 1 + sizeOf t + sizeOf v' := by simp
          have hst : sizeOf t = t := rfl
          have hval := (ih (sizeOf v') (by omega)).1 v' le_rfl a b
            (by omega) (by omega)
          simp only [canonF, hval]
      | map l =>
          have hs : sizeOf (Val.map l) = 1 + sizeOf l := by simp
          have hperm : sizeOf (sortEntries (jsEntriesOrder l)) = sizeOf l := by
            rw [perm_sizeOf (sortEntries_perm _),
                perm_sizeOf (jsEntriesOrder_perm _)]
          have hent := (ih (sizeOf l) (by omega)).2.1
            (sortEntries (jsEntriesOrder l)) (by omega) a b (by omega) (by omega)
          simp only [canonF]
          cases hltag : lookupStr l "tag" with
          | none => simp only [hent]
          | some tv =>
              cases hlval : lookupStr l "value" with
              | none =>
                  cases tv with
                  | num j => cases j <;> simp only [hent]
                  | bytes bb => simp only [hent]
                  | text ss => simp only [hent]
                  | arr aa => simp only [hent]
                  | map mm => simp only [hent]
                  | tag tt vv => simp only [hent]
                  | bool blb => simp only [hent]
                  | null => simp only [hent]
                  | undef => simp only [hent]
              | some inner =>
                  cases tv with
                  | num j =>
                      cases j with
                      | int m =>
                          have hinner : sizeOf inner < sizeOf l :=
                            lookupStr_sizeOf hlval
                          have hval := (ih (sizeOf inner) (by omega)).1 inner
                            le_rfl a b (by omega) (by omega)
                          simp only [hval]
                      | flt bb => rfl
                  | bytes bb => simp only [hent]
                  | text ss => simp only [hent]
                  | arr aa => simp only [hent]
                  | map mm => simp only [hent]
                  | tag tt vv => simp only [hent]
                  | bool blb => simp only [hent]
                  | null => simp only [hent]
                  | undef => simp only [hent]
    · intro l hn f₁ f₂ h₁ h₂
      have hl1 : 1 ≤ sizeOf l := sizeOf_list_pos l
      obtain ⟨a, rfl⟩ : ∃ a, f₁ = a + 1 := ⟨f₁ - 1, by omega⟩
      obtain ⟨b, rfl⟩ : ∃ b, f₂ = b + 1 := ⟨f₂ - 1, by omega⟩
      cases l with
      | nil => simp only [canonEntriesF]
      | cons p rest =>
          obtain ⟨k, v⟩ := p
          have hs : sizeOf ((k, v) :: rest) =
              1 + (1 + sizeOf k + sizeOf v) + sizeOf rest := by
            simp
            try omega
          have hval := (ih (sizeOf v) (by omega)).1 v le_rfl a b
            (by omega) (by omega)
          have hr := (ih (sizeOf rest) (by omega)).2.1 rest le_rfl a b
            (by omega) (by omega)
          simp only [canonEntriesF, hval, hr]
    · intro xs hn f₁ f₂ h₁ h₂
      have hl1 : 1 ≤ sizeOf xs := sizeOf_list_pos xs
      obtain ⟨a, rfl⟩ : ∃ a, f₁ = a + 1 := ⟨f₁ - 1, by omega⟩
      obtain ⟨b, rfl⟩ : ∃ b, f₂ = b + 1 := ⟨f₂ - 1, by omega⟩
      cases xs with
      | nil => simp only [canonListF]
      | cons x rest =>
          have hs : sizeOf (x :: rest) = 1 + sizeOf x + sizeOf rest := by simp
          have hval := (ih (sizeOf x) (by omega)).1 x le_rfl a b
            (by omega) (by omega)
          have hr := (ih (sizeOf rest) (by omega)).2.2 rest le_rfl a b
            (by omega) (by omega)
          simp only [canonListF, hval, hr]

/-- Any sufficient fuel computes `canon`. -/
theorem canonF_eq {v : Val} {f : Nat} (h : 2 * sizeOf v ≤ f) :
    canonF f v = canon v :=
  (canon_fuel_agree (sizeOf v)).1 v le_rfl f (2 * sizeOf v) h le_rfl

/-- Any sufficient fuel computes `canonEntryList`. -/
theorem canonEntriesF_eq {l : List (String × Val)} {f : Nat}
    (h : 2 * sizeOf l ≤ f) : canonEntriesF f l = canonEntryList l :=
  (canon_fuel_agree (sizeOf l)).2.1 l le_rfl f (2 * sizeOf l) h le_rfl

/-- Any sufficient fuel computes `canonValueList`. -/
theorem canonListF_eq {xs : List Val} {f : Nat} (h : 2 * sizeOf xs ≤ f) :
    canonListF f xs = canonValueList xs :=
  (canon_fuel_agree (sizeOf xs)).2.2 xs le_rfl f (2 * sizeOf xs) h le_rfl

/-- One-layer unfolding of `canon`. -/
theorem canon_unfold (v : Val) :
    canon v =
      match v with
      | .arr xs => .arr (canonValueList xs)
      | .map l =>
          (match lookupStr l "tag", lookupStr l "value" with
           | some (.num (.int n)), some inner =>
               if 0 ≤ n then .tag n.toNat (canon inner) else .map l
           | some (.num (.flt _)), some _ => .map l
           | _, _ => .map (canonEntryList (sortEntries (jsEntriesOrder l))))
      | .tag t w => .tag t (canon w)
      | w => w := by
  have hv1 : 1 ≤ sizeOf v := val_sizeOf_pos v
  conv_lhs => rw [show canon v = canonF (2 * sizeOf v) v from rfl]
  obtain ⟨a, ha⟩ : ∃ a, 2 * sizeOf v = a + 1 := ⟨2 * sizeOf v - 1, by omega⟩
  rw [ha]
  cases v with
  | num j => simp only [canonF]
  | bytes bs => simp only [canonF]
  | text s => simp only [canonF]
  | bool b => simp only [canonF]
  | null => simp only [canonF]
  | undef => simp only [canonF]
  | arr xs =>
      have hs : sizeOf (Val.arr xs) = 1 + sizeOf xs := by simp
      simp only [canonF, canonListF_eq (show 2 * sizeOf xs ≤ a by omega)]
  | tag t v' =>
      have hs : sizeOf (Val.tag t v') = 1 + sizeOf t + sizeOf v' := by simp
      have hst : sizeOf t = t := rfl
      simp only [canonF, canonF_eq (show 2 * sizeOf v' ≤ a by omega)]
  | map l =>
      have hs : sizeOf (Val.map l) = 1 + sizeOf l := by simp
      have hperm : sizeOf (sortEntries (jsEntriesOrder l)) = sizeOf l := by
        rw [perm_sizeOf (sortEntries_perm _), perm_sizeOf (jsEntriesOrder_perm _)]
      simp only [canonF]
      cases hltag : lookupStr l "tag" with
      | none => simp only [canonEntriesF_eq
          (show 2 * sizeOf (sortEntries (jsEntriesOrder l)) ≤ a by omega)]
      | some tv =>
          cases hlval : lookupStr l "value" with
          | none =>
              cases tv with
              | num j =>
                  cases j <;> simp only [canonEntriesF_eq
                    (show 2 * sizeOf (sortEntries (jsEntriesOrder l)) ≤ a by omega)]
              | bytes bb => simp only [canonEntriesF_eq
                  (show 2 * sizeOf (sortEntries (jsEntriesOrder l)) ≤ a by omega)]
              | text ss => simp only [canonEntriesF_eq
                  (show 2 * sizeOf (sortEntries (jsEntriesOrder l)) ≤ a by omega)]
              | arr aa => simp only [canonEntriesF_eq
                  (show 2 * sizeOf (sortEntries (jsEntriesOrder l)) ≤ a by omega)]
              | map mm => simp only [canonEntriesF_eq
                  (show 2 * sizeOf (sortEntries (jsEntriesOrder l)) ≤ a by omega)]
              | tag tt vv => simp only [canonEntriesF_eq
                  (show 2 * sizeOf (sortEntries (jsEntriesOrder l)) ≤ a by omega)]
              | bool blb => simp only [canonEntriesF_eq
                  (show 2 * sizeOf (sortEntries (jsEntriesOrder l)) ≤ a by omega)]
              | null => simp only [canonEntriesF_eq
                  (show 2 * sizeOf (sortEntries (jsEntriesOrder l)) ≤ a by omega)]
              | undef => simp only [canonEntriesF_eq
                  (show 2 * sizeOf (sortEntries (jsEntriesOrder l)) ≤ a by omega)]
          | some inner =>
              cases tv with
              | num j =>
                  cases j with
                  | int m =>
                      have hinner : sizeOf inner < sizeOf l := lookupStr_sizeOf hlval
                      simp only [canonF_eq (show 2 * sizeOf inner ≤ a by omega)]
                  | flt bb => rfl
              | bytes bb => simp only [canonEntriesF_eq
                  (show 2 * sizeOf (sortEntries (jsEntriesOrder l)) ≤ a by omega)]
              | text ss => simp only [canonEntriesF_eq
                  (show 2 * sizeOf (sortEntries (jsEntriesOrder l)) ≤ a by omega)]
              | arr aa => simp only [canonEntriesF_eq
                  (show 2 * sizeOf (sortEntries (jsEntriesOrder l)) ≤ a by omega)]
              | map mm => simp only [canonEntriesF_eq
                  (show 2 * sizeOf (sortEntries (jsEntriesOrder l)) ≤ a by omega)]
              | tag tt vv => simp only [canonEntriesF_eq
                  (show 2 * sizeOf (sortEntries (jsEntriesOrder l)) ≤ a by omega)]
              | bool blb => simp only [canonEntriesF_eq
                  (show 2 * sizeOf (sortEntries (jsEntriesOrder l)) ≤ a by omega)]
              | null => simp only [canonEntriesF_eq
                  (show 2 * sizeOf (sortEntries (jsEntriesOrder l)) ≤ a by omega)]
              | undef => simp only [canonEntriesF_eq
                  (show 2 * sizeOf (sortEntries (jsEntriesOrder l)) ≤ a by omega)]

/-- `canonEntryList` on the empty list. -/
theorem canonEntryList_nil : canonEntryList [] = [] := rfl

/-- One-layer unfolding of `canonEntryList` on a cons. -/
theorem canonEntryList_cons (k : String) (v : Val) (rest : List (String × Val)) :
    canonEntryList ((k, v) :: rest) = (k, canon v) :: canonEntryList rest := by
  conv_lhs => rw [show canonEntryList ((k, v) :: rest) =
    canonEntriesF (2 * sizeOf ((k, v) :: rest)) ((k, v) :: rest) from rfl]
  have hs : sizeOf ((k, v) :: rest) =
      1 + (1 + sizeOf k + sizeOf v) + sizeOf rest := by
    simp
    try omega
  obtain ⟨a, ha⟩ : ∃ a, 2 * sizeOf ((k, v) :: rest) = a + 1 :=
    ⟨2 * sizeOf ((k, v) :: rest) - 1, by omega⟩
  rw [ha]
  simp only [canonEntriesF, canonF_eq (show 2 * sizeOf v ≤ a by omega),
    canonEntriesF_eq (show 2 * sizeOf rest ≤ a by omega)]

/-- `canonValueList` on the empty list. -/
theorem canonValueList_nil : canonValueList [] = [] := rfl

/-- One-layer unfolding of `canonValueList` on a cons. -/
theorem canonValueList_cons (x : Val) (rest : List Val) :
    canonValueList (x :: rest) = canon x :: canonValueList rest := by
  conv_lhs => rw [show canonValueList (x :: rest) =
    canonListF (2 * sizeOf (x :: rest)) (x :: rest) from rfl]
  have hs : sizeOf (x :: rest) = 1 + sizeOf x + sizeOf rest := by simp
  obtain ⟨a, ha⟩ : ∃ a, 2 * sizeOf (x :: rest) = a + 1 :=
    ⟨2 * sizeOf (x :: rest) - 1, by omega⟩
  rw [ha]
  simp only [canonListF, canonF_eq (show 2 * sizeOf x ≤ a by omega),
    canonListF_eq (show 2 * sizeOf rest ≤ a by omega)]

/-- The round-trip image keeps every map key. -/
theorem canonEntryList_keys (l : List (String × Val)) :
    (canonEntryList l).map Prod.fst = l.map Prod.fst := by
  induction l with
  | nil => rfl
  | cons p rest ih =>
      obtain ⟨k, v⟩ := p
      rw [canonEntryList_cons]
      simp only [List.map_cons, ih]

/-- Without a numeric-`tag`/`value` pair, the round-trip image of a map is
the sorted map of entrywise round-trip images. -/
theorem canon_map_plain {l : List (String × Val)}
    (htag : ¬ ∃ j inner, lookupStr l "tag" = some (.num j) ∧
      lookupStr l "value" = some inner) :
    canon (Val.map l) = .map (canonEntryList (sortEntries (jsEntriesOrder l))) := by
  have hc0 : canon (Val.map l) =
      (match lookupStr l "tag", lookupStr l "value" with
       | some (.num (.int n)), some inner =>
           if 0 ≤ n then Val.tag n.toNat (canon inner) else Val.map l
       | some (.num (.flt _)), some _ => Val.map l
       | _, _ => Val.map (canonEntryList (sortEntries (jsEntriesOrder l)))) :=
    canon_unfold (Val.map l)
  cases hltag : lookupStr l "tag" with
  | none => rw [hltag] at hc0; exact hc0
  | some tv =>
      cases hlval : lookupStr l "value" with
      | none =>
          rw [hltag, hlval] at hc0
          cases tv with
          | num j => cases j <;> exact hc0
          | bytes bb => exact hc0
          | text ss => exact hc0
          | arr aa => exact hc0
          | map mm => exact hc0
          | tag tt vv => exact hc0
          | bool blb => exact hc0
          | null => exact hc0
          | undef => exact hc0
      | some inner =>
          cases tv with
          | num j => exact absurd ⟨j, inner, hltag, hlval⟩ htag
          | bytes bb => rw [hltag, hlval] at hc0; exact hc0
          | text ss => rw [hltag, hlval] at hc0; exact hc0
          | arr aa => rw [hltag, hlval] at hc0; exact hc0
          | map mm => rw [hltag, hlval] at hc0; exact hc0
          | tag tt vv => rw [hltag, hlval] at hc0; exact hc0
          | bool blb => rw [hltag, hlval] at hc0; exact hc0
          | null => rw [hltag, hlval] at hc0; exact hc0
          | undef => rw [hltag, hlval] at hc0; exact hc0

/-- With a non-negative integer `tag` and a `value`, the round-trip image
of a map is the tagged round-trip image of the value. -/
theorem canon_map_tagged {l : List (String × Val)} {m : Int} {inner : Val}
    (hltag : lookupStr l "tag" = some (.num (.int m)))
    (hlval : lookupStr l "value" = some inner) (hm0 : 0 ≤ m) :
    canon (Val.map l) = .tag m.toNat (canon inner) := by
  have hc0 : canon (Val.map l) =
      (match lookupStr l "tag", lookupStr l "value" with
       | some (.num (.int n)), some inner2 =>
           if 0 ≤ n then Val.tag n.toNat (canon inner2) else Val.map l
       | some (.num (.flt _)), some _ => Val.map l
       | _, _ => Val.map (canonEntryList (sortEntries (jsEntriesOrder l)))) :=
    canon_unfold (Val.map l)
  rw [hltag, hlval] at hc0
  rw [show canon (Val.map l) =
    (if 0 ≤ m then Val.tag m.toNat (canon inner) else Val.map l) from hc0,
    if_pos hm0]

/-! ## CBOR encoding (`src/cbor.ts`, encoding helpers)

Encoders return the emitted bytes (`Except` carries thrown errors); the
source pushes `Uint8Array` fragments and concatenates, which is observably
the flat byte list. -/

/-- Big-endian bytes of `v` in `k` bytes (`DataView.setUintN`). -/
def beBytes : Nat → Nat → List Nat
  | 0, _ => []
  | k + 1, v => beBytes k (v / 256) ++ [v % 256]

/-- RFC 8949 §3.1-style length header for a major type
(`encodeLength` in the source). -/
def encodeLength (majorType : Nat) (length : Nat) : Except String (List Nat) :=
  let mt := majorType * 32
  if length ≤ 23 then .ok [mt + length]
  else if length ≤ 0xff then .ok [mt + 24, length]
  else if length ≤ 0xffff then .ok ((mt + 25) :: beBytes 2 length)
  else if length ≤ 0xffffffff then .ok ((mt + 26) :: beBytes 4 length)
  else .error "Length too large for CBOR encoding"

/-- Encode an unsigned integer (major type 0).  The model's `Int` argument
is always integral, so only the sign guard of the source can fire. -/
def encodeUnsignedInteger (value : Int) : Except String (List Nat) :=
  if value < 0 then .error "Only unsigned integers are supported"
  else
    let v := value.toNat
    if v ≤ 23 then .ok [v]
    else if v ≤ 0xff then .ok [0x18, v]
    else if v ≤ 0xffff then .ok (0x19 :: beBytes 2 v)
    else if v ≤ 0xffffffff then .ok (0x1a :: beBytes 4 v)
    else if v ≤ 2 ^ 53 - 1 then .ok (0x1b :: beBytes 8 v)
    else .error "Integer value too large for CBOR encoding"

/-- Encode a negative integer (major type 1) via the magnitude `|v| - 1`. -/
def encodeNegativeInteger (value : Int) : Except String (List Nat) :=
  if 0 ≤ value then .error "Only negative integers are supported"
  else
    let absValue := (-value).toNat - 1
    if absValue ≤ 23 then .ok [0x20 + absValue]
    else if absValue ≤ 0xff then .ok [0x38, absValue]
    else if absValue ≤ 0xffff then .ok (0x39 :: beBytes 2 absValue)
    else if absValue ≤ 0xffffffff then .ok (0x3a :: beBytes 4 absValue)
    else if absValue ≤ 2 ^ 53 - 1 then .ok (0x3b :: beBytes 8 absValue)
    else .error "Integer value too large for CBOR encoding"

/-- Encode a double as the 64-bit float form (major type 7, ai 27). -/
def encodeFloat (b : Nat) : List Nat := 0xfb :: beBytes 8 b

/-- Dispatch of `encodeValue` on a number: integral values take the integer
paths, non-integral doubles the 64-bit float path. -/
def encodeNumber (j : JSNum) : Except String (List Nat) :=
  match j with
  | .int n => if 0 ≤ n then encodeUnsignedInteger n else encodeNegativeInteger n
  | .flt b => .ok (encodeFloat b)

/-- Encode a text string (major type 3, UTF-8 body). -/
def encodeTextString (value : String) : Except String (List Nat) := do
  let bytes := utf8Encode value
  let header ← encodeLength 3 bytes.length
  .ok (header ++ bytes)

/-- Encode a byte string (major type 2). -/
def encodeByteString (value : List Nat) : Except String (List Nat) := do
  let header ← encodeLength 2 value.length
  .ok (header ++ value)

/-- Unreachable-fuel marker for the fuelled encoders (the canonical
wrappers always supply sufficient fuel). -/
def fuelErrMsg : String := "model: recursion fuel exhausted"

/-! ### The value encoder

Fuelled for structural recursion; every call needs at most `sizeOf` of its
argument, and the canonical wrappers below always supply enough. -/

mutual

/-- `encodeValue`: dispatch on the runtime type of the value.  An object
with a numeric `tag` property and a `value` property is encoded as a tagged
value, any other non-null non-array object as a map. -/
def encodeValueF : Nat → Val → Except String (List Nat)
  | 0, _ => .error fuelErrMsg
  | fuel + 1, v =>
      match v with
      | .num j => encodeNumber j
      | .bytes bs => encodeByteString bs
      | .text s => encodeTextString s
      | .arr xs =>
          if 10000 < xs.length then .error "Array length exceeds reasonable limit"
          else do
            let header ← encodeLength 4 xs.length
            let body ← encodeListF fuel xs
            .ok (header ++ body)
      | .map l =>
          match lookupStr l "tag", lookupStr l "value" with
          | some (.num j), some inner => encodeTaggedF fuel j inner
          | _, _ => encodeMapBodyF fuel l
      | .tag t v' => encodeTaggedF fuel (.int (t : Int)) v'
      | .bool b => .ok [if b then 0xf5 else 0xf4]
      | .null => .ok [0xf6]
      | .undef => .ok [0xf7]

/-- `encodeTag`: tag header (major type 6) then the inner value; rejects
non-integral or negative tag numbers. -/
def encodeTaggedF : Nat → JSNum → Val → Except String (List Nat)
  | 0, _, _ => .error fuelErrMsg
  | fuel + 1, t, v =>
      match t with
      | .flt _ => .error "Tag must be a non-negative integer"
      | .int n =>
          if n < 0 then .error "Tag must be a non-negative integer"
          else do
            let header ← encodeLength 6 n.toNat
            let body ← encodeValueF fuel v
            .ok (header ++ body)

/-- `encodeMap`: `Object.entries`, the 10000-pair cap, the deterministic
sort by key strings, then numeric-or-text keys and encoded values. -/
def encodeMapBodyF : Nat → List (String × Val) → Except String (List Nat)
  | 0, _ => .error fuelErrMsg
  | fuel + 1, l =>
      let entries := jsEntriesOrder l
      if 10000 < entries.length then .error "Map size exceeds reasonable limit"
      else do
        let header ← encodeLength 5 entries.length
        let body ← encodeEntriesF fuel (sortEntries entries)
        .ok (header ++ body)

/-- Encode sorted map entries: a key whose string converts to a non-NaN
number is emitted as that number, otherwise as a text string. -/
def encodeEntriesF : Nat → List (String × Val) → Except String (List Nat)
  | 0, _ => .error fuelErrMsg
  | _ + 1, [] => .ok []
  | fuel + 1, (key, v) :: rest => do
      let keyBytes ←
        match jsStringToNumber key with
        | some numKey => encodeNumber numKey
        | none => encodeTextString key
      let valBytes ← encodeValueF fuel v
      let restBytes ← encodeEntriesF fuel rest
      .ok (keyBytes ++ valBytes ++ restBytes)

/-- Encode array elements in order. -/
def encodeListF : Nat → List Val → Except String (List Nat)
  | 0, _ => .error fuelErrMsg
  | _ + 1, [] => .ok []
  | fuel + 1, x :: xs => do
      let e ← encodeValueF fuel x
      let rest ← encodeListF fuel xs
      .ok (e ++ rest)

end

/-- `encodeValue` at canonical (always-sufficient) fuel. -/
def encodeValue (v : Val) : Except String (List Nat) :=
  encodeValueF (2 * sizeOf v) v

/-- The entry list of `encodeMap` at canonical fuel (already sorted). -/
def encodeEntryList (l : List (String × Val)) : Except String (List Nat) :=
  encodeEntriesF (2 * sizeOf l) l

/-- Array elements at canonical fuel. -/
def encodeValueList (xs : List Val) : Except String (List Nat) :=
  encodeListF (2 * sizeOf xs) xs

/-- `CBOR.encode`: serialize, then enforce the 16 MiB output cap. -/
def encode (value : Val) : Except String (List Nat) := do
  let buffers ← encodeValue value
  if 16777216 < buffers.length then
    .error "Encoded data exceeds maximum size of 16777216 bytes"
  else .ok buffers

/-! ## CBOR decoding (`src/cbor.ts`, decoding helpers)

The decoder walks the buffer by offset.  `decodeItem` carries a fuel
argument bounding recursion depth purely to satisfy Lean's termination
checker; every nested item starts at least one byte further into the
buffer, so fuel `buffer.length + 1` can never run out (the exhaustion
branch is unreachable from `decode`). -/

/-- Byte of the buffer at an index (reads are always bounds-checked before
use, so the default is never observable). -/
def byteAt (buf : List Nat) (i : Nat) : Nat := buf.getD i 0

/-- Big-endian value of `n` bytes at `off` (`DataView.getUintN`). -/
def readBE (buf : List Nat) (off n : Nat) : Nat :=
  ((buf.drop off).take n).foldl (fun a b => a * 256 + b) 0

/-- `ensureBytes`: fail if fewer than `length` bytes remain at `offset`. -/
def ensureBytes (buf : List Nat) (offset length : Nat) : Except String Unit :=
  if buf.length < offset + length then .error "Buffer too short for CBOR data"
  else .ok ()

/-- Thrown by `DataView` itself on an out-of-bounds read (a `RangeError`,
distinct from the codec's own truncation error). -/
def dataViewOobMsg : String := "Offset is outside the bounds of the DataView"

/-- `readLength`: read the argument selected by the additional info. -/
def readLength (buf : List Nat) (offset additionalInfo : Nat) :
    Except String (Nat × Nat) :=
  if additionalInfo ≤ 23 then .ok (additionalInfo, offset)
  else if additionalInfo = 24 then do
    let _ ← ensureBytes buf offset 1
    .ok (byteAt buf offset, offset + 1)
  else if additionalInfo = 25 then do
    let _ ← ensureBytes buf offset 2
    .ok (readBE buf offset 2, offset + 2)
  else if additionalInfo = 26 then do
    let _ ← ensureBytes buf offset 4
    .ok (readBE buf offset 4, offset + 4)
  else if additionalInfo = 27 then do
    let _ ← ensureBytes buf offset 8
    .ok (jsU64 (readBE buf offset 8), offset + 8)
  else .error "Unsupported CBOR length encoding"

/-- `decodeUnsignedInteger` (major type 0). -/
def decodeUnsignedInteger (buf : List Nat) (offset additionalInfo : Nat) :
    Except String (Val × Nat) :=
  if additionalInfo ≤ 23 then .ok (.num (.int additionalInfo), offset)
  else if additionalInfo = 24 then do
    let _ ← ensureBytes buf offset 1
    .ok (.num (.int (byteAt buf offset)), offset + 1)
  else if additionalInfo = 25 then do
    let _ ← ensureBytes buf offset 2
    .ok (.num (.int (readBE buf offset 2)), offset + 2)
  else if additionalInfo = 26 then do
    let _ ← ensureBytes buf offset 4
    .ok (.num (.int (readBE buf offset 4)), offset + 4)
  else if additionalInfo = 27 then do
    let _ ← ensureBytes buf offset 8
    .ok (.num (.int (jsU64 (readBE buf offset 8))), offset + 8)
  else .error "Invalid additional info for unsigned integer"

/-- `decodeNegativeInteger` (major type 1): `-1 - argument`.  The 8-byte
case first rounds the 64-bit value to a double and then performs the
floating-point subtraction, which re-rounds. -/
def decodeNegativeInteger (buf : List Nat) (offset additionalInfo : Nat) :
    Except String (Val × Nat) :=
  if additionalInfo ≤ 23 then .ok (.num (.int (-1 - additionalInfo)), offset)
  else if additionalInfo = 24 then do
    let _ ← ensureBytes buf offset 1
    .ok (.num (.int (-1 - (byteAt buf offset : Int))), offset + 1)
  else if additionalInfo = 25 then do
    let _ ← ensureBytes buf offset 2
    .ok (.num (.int (-1 - (readBE buf offset 2 : Int))), offset + 2)
  else if additionalInfo = 26 then do
    let _ ← ensureBytes buf offset 4
    .ok (.num (.int (-1 - (readBE buf offset 4 : Int))), offset + 4)
  else if additionalInfo = 27 then do
    let _ ← ensureBytes buf offset 8
    let x := jsU64 (readBE buf offset 8)
    .ok (.num (.int (-(roundNatToDoubleNat (x + 1) : Int))), offset + 8)
  else .error "Invalid additional info for negative integer"

/-- `decodeByteString` (major type 2): length, bounds check, copied slice. -/
def decodeByteString (buf : List Nat) (offset additionalInfo : Nat) :
    Except String (Val × Nat) := do
  let (length, newOffset) ← readLength buf offset additionalInfo
  let _ ← ensureBytes buf newOffset length
  .ok (.bytes ((buf.drop newOffset).take length), newOffset + length)

/-- `decodeTextString` (major type 3): length, bounds check, strict UTF-8. -/
def decodeTextString (buf : List Nat) (offset additionalInfo : Nat) :
    Except String (Val × Nat) := do
  let (length, newOffset) ← readLength buf offset additionalInfo
  let _ ← ensureBytes buf newOffset length
  match utf8Decode ((buf.drop newOffset).take length) with
  | some s => .ok (.text s, newOffset + length)
  | none => .error "Invalid UTF-8 sequence in text string"

/-- `decodeSpecial` (major type 7): simple values and floats.  In the
16-bit-float branch the source checks two remaining bytes but then calls
`DataView.getFloat32`, a four-byte load, and advances the offset by two. -/
def decodeSpecial (buf : List Nat) (offset additionalInfo : Nat) :
    Except String (Val × Nat) :=
  if additionalInfo = 20 then .ok (.bool false, offset)
  else if additionalInfo = 21 then .ok (.bool true, offset)
  else if additionalInfo = 22 then .ok (.null, offset)
  else if additionalInfo = 23 then .ok (.undef, offset)
  else if additionalInfo = 25 then do
    let _ ← ensureBytes buf offset 2
    if buf.length < offset + 4 then .error dataViewOobMsg
    else .ok (.num (classifyBits (f32ToF64Bits (readBE buf offset 4))), offset + 2)
  else if additionalInfo = 26 then do
    let _ ← ensureBytes buf offset 4
    .ok (.num (classifyBits (f32ToF64Bits (readBE buf offset 4))), offset + 4)
  else if additionalInfo = 27 then do
    let _ ← ensureBytes buf offset 8
    .ok (.num (classifyBits (readBE buf offset 8)), offset + 8)
  else .error ("Unsupported special value: " ++ Nat.repr additionalInfo)

/-- Decode `n` consecutive items with the given single-item decoder
(the body of `decodeArray`'s loop). -/
def decodeSeqN (item : Nat → Except String (Val × Nat)) :
    Nat → Nat → Except String (List Val × Nat)
  | 0, off => .ok ([], off)
  | n + 1, off => do
      let (v, off') ← item off
      let (vs, off'') ← decodeSeqN item n off'
      .ok (v :: vs, off'')

/-- `decodeArray` (major type 4): length, the 10000 cap, then the items. -/
def decodeArray (item : Nat → Except String (Val × Nat))
    (buf : List Nat) (offset additionalInfo : Nat) :
    Except String (Val × Nat) := do
  let (length, newOffset) ← readLength buf offset additionalInfo
  if 10000 < length then .error "Array length exceeds reasonable limit"
  else do
    let (items, o) ← decodeSeqN item length newOffset
    .ok (.arr items, o)

/-- Decode `n` key/value pairs into a JavaScript object (the body of
`decodeMap`'s loop): keys must decode to numbers or strings, numeric keys
are coerced to their string form by the object write, later duplicates
overwrite in place. -/
def decodePairsN (item : Nat → Except String (Val × Nat)) :
    Nat → Nat → List (String × Val) → Except String (List (String × Val) × Nat)
  | 0, off, acc => .ok (acc, off)
  | n + 1, off, acc => do
      let (key, keyOffset) ← item off
      let keyStr ←
        match key with
        | .num j => Except.ok (jsNumToString j)
        | .text s => Except.ok s
        | _ => Except.error "CBOR map keys must be strings or numbers"
      let (value, valueOffset) ← item keyOffset
      decodePairsN item n valueOffset (jsObjSet acc keyStr value)

/-- `decodeMap` (major type 5): pair count, the 10000 cap, then the pairs. -/
def decodeMap (item : Nat → Except String (Val × Nat))
    (buf : List Nat) (offset additionalInfo : Nat) :
    Except String (Val × Nat) := do
  let (numPairs, newOffset) ← readLength buf offset additionalInfo
  if 10000 < numPairs then .error "Map size exceeds reasonable limit"
  else do
    let (entries, o) ← decodePairsN item numPairs newOffset []
    .ok (.map entries, o)

/-- `decodeTag` (major type 6): tag number then one inner item. -/
def decodeTag (item : Nat → Except String (Val × Nat))
    (buf : List Nat) (offset additionalInfo : Nat) :
    Except String (Val × Nat) := do
  let (t, newOffset) ← readLength buf offset additionalInfo
  let (value, finalOffset) ← item newOffset
  .ok (.tag t value, finalOffset)

/-- Unreachable-fuel marker (models the unbounded recursion of the source;
see the section comment). -/
def fuelMsg : String := "model: recursion fuel exhausted"

/-- One CBOR item at `startOffset`: initial-byte split and major-type
dispatch (`decodeFirstItem`'s body). -/
def decodeItem : Nat → List Nat → Nat → Except String (Val × Nat)
  | 0, _, _ => .error fuelMsg
  | fuel + 1, buf, startOffset =>
      if buf.length ≤ startOffset then .error "Buffer too short for CBOR decoding"
      else
        let firstByte := byteAt buf startOffset
        let majorType := firstByte / 32
        let additionalInfo := firstByte % 32
        let offset := startOffset + 1
        if majorType = 0 then decodeUnsignedInteger buf offset additionalInfo
        else if majorType = 1 then decodeNegativeInteger buf offset additionalInfo
        else if majorType = 2 then decodeByteString buf offset additionalInfo
        else if majorType = 3 then decodeTextString buf offset additionalInfo
        else if majorType = 4 then decodeArray (decodeItem fuel buf) buf offset additionalInfo
        else if majorType = 5 then decodeMap (decodeItem fuel buf) buf offset additionalInfo
        else if majorType = 6 then decodeTag (decodeItem fuel buf) buf offset additionalInfo
        else if majorType = 7 then decodeSpecial buf offset additionalInfo
        else .error ("Unsupported CBOR major type: " ++ Nat.repr majorType)

/-- `decodeFirstItem(buffer, startOffset)`. -/
def decodeFirstItem (buffer : List Nat) (startOffset : Nat) :
    Except String (Val × Nat) :=
  decodeItem (buffer.length + 1) buffer startOffset

/-- `CBOR.decode`: the 16 MiB input cap, then the first item (trailing
bytes are not inspected). -/
def decode (buffer : List Nat) : Except String Val :=
  if 16777216 < buffer.length then
    .error "Buffer exceeds maximum size of 16777216 bytes"
  else (decodeFirstItem buffer 0).map Prod.fst

/-! ## JavaScript runtime glue used by the COSE layer

The COSE decoders navigate decoded CBOR values with untyped property and
index accesses and coerce them with casts that have no runtime effect; the
helpers below model those accesses, and `jsTypeErrorMsg` stands for the
`TypeError` the engine throws when a primitive is used as an object or a
non-function property is called. -/

/-- Engine-thrown `TypeError` (message text is engine-specific; only the
fact of the failure matters). -/
def jsTypeErrorMsg : String := "TypeError"

/-- Property read `v[k]` for a string key: maps by key lookup, tagged
values expose `tag` and `value`; a read on `null` or `undefined` throws a
`TypeError`; any other primitive is boxed and yields `undefined`. -/
def jsGet (v : Val) (k : String) : Except String Val :=
  match v with
  | .map l => .ok ((lookupStr l k).getD .undef)
  | .tag n inner =>
      if k = "tag" then .ok (.num (.int (n : Int)))
      else if k = "value" then .ok inner
      else .ok Val.undef
  | .null => .error jsTypeErrorMsg
  | .undef => .error jsTypeErrorMsg
  | _ => .ok Val.undef

/-- Index read `v[i]`: arrays by position, maps by the decimal key, strings
by character, everything else `undefined`. -/
def jsIndex (v : Val) (i : Nat) : Val :=
  match v with
  | .arr xs => xs.getD i .undef
  | .map l => (lookupStr l (decRepr i)).getD .undef
  | .text s =>
      match s.data.get? i with
      | some c => .text ⟨[c]⟩
      | none => .undef
  | _ => Val.undef

/-- Is the value the JavaScript number `n` (strict equality `=== n`)? -/
def isTagNum (v : Val) (n : Int) : Bool :=
  match v with
  | .num (.int m) => m = n
  | _ => false

mutual

/-- `String(v)` / template-literal interpolation of a value. -/
def jsDisplay : Val → String
  | .num j => jsNumToString j
  | .text s => s
  | .bool b => if b then "true" else "false"
  | .null => "null"
  | .undef => "undefined"
  | .bytes _ => "[object ArrayBuffer]"
  | .map _ => "[object Object]"
  | .tag _ _ => "[object Object]"
  | .arr xs => jsJoin xs
termination_by v => 3 * sizeOf v
decreasing_by
  all_goals simp_wf
  all_goals omega

/-- `Array.prototype.toString`: elements joined with commas. -/
def jsJoin : List Val → String
  | [] => ""
  | [x] => jsJoinElem x
  | x :: xs => jsJoinElem x ++ "," ++ jsJoin xs
termination_by xs => 3 * sizeOf xs + 2
decreasing_by
  all_goals simp_wf
  all_goals omega

/-- Element display inside a join: `null` and `undefined` become empty. -/
def jsJoinElem : Val → String
  | .null => ""
  | .undef => ""
  | v => jsDisplay v
termination_by v => 3 * sizeOf v + 1
decreasing_by
  all_goals simp_wf
  all_goals omega

end

/-! ## COSE (`src/cose.ts`) -/

/-- The `COSEAlgorithm` registry: the integer values of the enum (the
reverse mapping of a TypeScript numeric enum contains exactly these). -/
def algRegistry : List Int :=
  [30, 31, 10, 12, 32, 33, 13, 14, 1, 2, 3, 24, -6, -8, -7, -35, -36,
   5, 4, 6, 7, -37, -38, -39, -257, -258, -259]

/-- `validateProtectedHeader`: key 1 (`alg`) must be present and its value
must be an integer in the algorithm registry.  Headers are JavaScript
objects, so the numeric key 1 is the property `"1"`; an array is an object
whose index properties are its elements, so `1 in header` holds exactly
when the (dense, decoder-built) array has an element at index 1; the `in`
test on a primitive (`null` and `undefined` included) throws a `TypeError`,
and the remaining objects (an `ArrayBuffer`, a tagged-value object) simply
lack the property. -/
def validateProtectedHeader (header : Val) : Except String Unit :=
  match header with
  | .map l =>
      match lookupStr l "1" with
      | none => .error "Protected header must contain 'alg' parameter"
      | some (.num (.int n)) =>
          if algRegistry.contains n then .ok ()
          else .error "Invalid or unsupported algorithm in protected header"
      | some _ => .error "Invalid or unsupported algorithm in protected header"
  | .arr xs =>
      match xs.get? 1 with
      | none => .error "Protected header must contain 'alg' parameter"
      | some (.num (.int n)) =>
          if algRegistry.contains n then .ok ()
          else .error "Invalid or unsupported algorithm in protected header"
      | some _ => .error "Invalid or unsupported algorithm in protected header"
  | .tag _ _ => .error "Protected header must contain 'alg' parameter"
  | .bytes _ => .error "Protected header must contain 'alg' parameter"
  | _ => .error jsTypeErrorMsg

/-- `ensureArrayBuffer`: the value must be a byte string. -/
def ensureArrayBuffer (value : Val) : Except String Val :=
  match value with
  | .bytes b => .ok (.bytes b)
  | _ => .error "Expected ArrayBuffer"

/-- `CBOR.decode` applied to a value that should be an `ArrayBuffer`: a
non-buffer crashes with a `TypeError` when the `DataView` is constructed. -/
def decodeBuf (v : Val) : Except String Val :=
  match v with
  | .bytes b => decode b
  | _ => .error jsTypeErrorMsg

/-- COSE_Sign1 (tag 18).  Field `prot` is the source's `protected` (a Lean
keyword).  Encode-side inputs carry header maps and a bytes-or-null
payload; the decode side fills the fields with whatever the wire held,
validated exactly as the source validates them. -/
structure COSESign1 where
  prot : Val
  unprotected : Val
  payload : Val
  signature : Val
deriving Repr

/-- One element of a COSE_Sign `signatures` array. -/
structure COSESignature where
  prot : Val
  unprotected : Val
  signature : Val
deriving Repr

/-- COSE_Sign (tag 98). -/
structure COSESign where
  prot : Val
  unprotected : Val
  payload : Val
  signatures : List COSESignature
deriving Repr

/-- COSE_Mac0 (tag 17). -/
structure COSEMac0 where
  prot : Val
  unprotected : Val
  payload : Val
  tag : Val
deriving Repr

/-- One element of a COSE_Mac `recipients` array. -/
structure COSEMacRecipient where
  prot : Val
  unprotected : Val
  tag : Val
deriving Repr

/-- COSE_Mac (tag 97). -/
structure COSEMac where
  prot : Val
  unprotected : Val
  payload : Val
  recipients : List COSEMacRecipient
deriving Repr

/-- COSE_Encrypt0 (tag 16). -/
structure COSEEncrypt0 where
  prot : Val
  unprotected : Val
  ciphertext : Val
deriving Repr

/-- One element of a COSE_Encrypt `recipients` array. -/
structure COSEEncRecipient where
  prot : Val
  unprotected : Val
  encrypted_key : Val
deriving Repr

/-- COSE_Encrypt (tag 96). -/
structure COSEEncrypt where
  prot : Val
  unprotected : Val
  ciphertext : Val
  recipients : List COSEEncRecipient
deriving Repr

/-- Sequential effectful map (the behaviour of `Array.prototype.map` with
a callback that can throw: elements in order, first error propagates). -/
def exceptMapM {α β : Type} (f : α → Except String β) :
    List α → Except String (List β)
  | [] => .ok []
  | x :: xs => do
      let y ← f x
      let ys ← exceptMapM f xs
      .ok (y :: ys)

/-- `encodeSign1`: validate the protected header, serialize it standalone,
then encode `tag 18 [protected-bytes, unprotected, payload, signature]`. -/
def encodeSign1 (sign1 : COSESign1) : Except String (List Nat) := do
  let _ ← validateProtectedHeader sign1.prot
  let protectedHeader ← encode sign1.prot
  encode (.tag 18 (.arr [.bytes protectedHeader, sign1.unprotected,
    sign1.payload, sign1.signature]))

/-- `decodeSign1`: decode, require tag 18, decode and validate the
protected header, take the remaining fields (signature must be bytes). -/
def decodeSign1 (data : List Nat) : Except String COSESign1 := do
  let tagged ← decode data
  let t ← jsGet tagged "tag"
  if isTagNum t 18 then do
    let value ← jsGet tagged "value"
    let protectedHeader ← decodeBuf (jsIndex value 0)
    let _ ← validateProtectedHeader protectedHeader
    let sig ← ensureArrayBuffer (jsIndex value 3)
    .ok { prot := protectedHeader, unprotected := jsIndex value 1,
          payload := jsIndex value 2, signature := sig }
  else .error ("Expected COSE_Sign1 tag 18, got " ++ jsDisplay t)

/-- `encodeSign`: like `encodeSign1` with a per-signer array, each element
`[protected-bytes, unprotected, signature]` with its own validation. -/
def encodeSign (sign : COSESign) : Except String (List Nat) := do
  let _ ← validateProtectedHeader sign.prot
  let protectedHeader ← encode sign.prot
  let sigs ← exceptMapM (fun sig => do
    let _ ← validateProtectedHeader sig.prot
    let sp ← encode sig.prot
    Except.ok (Val.arr [.bytes sp, sig.unprotected, sig.signature])) sign.signatures
  encode (.tag 98 (.arr [.bytes protectedHeader, sign.unprotected,
    sign.payload, .arr sigs]))

/-- `decodeSign`: tag 98, outer header validation, then the per-signer
array (`.map` on a non-array value throws). -/
def decodeSign (data : List Nat) : Except String COSESign := do
  let tagged ← decode data
  let t ← jsGet tagged "tag"
  if isTagNum t 98 then do
    let value ← jsGet tagged "value"
    let protectedHeader ← decodeBuf (jsIndex value 0)
    let _ ← validateProtectedHeader protectedHeader
    let sigs ←
      match jsIndex value 3 with
      | .arr sigArr =>
          exceptMapM (fun sig => do
            let sigProtected ← decodeBuf (jsIndex sig 0)
            let _ ← validateProtectedHeader sigProtected
            let sv ← ensureArrayBuffer (jsIndex sig 2)
            Except.ok { prot := sigProtected, unprotected := jsIndex sig 1,
                        signature := sv : COSESignature }) sigArr
      | _ => .error jsTypeErrorMsg
    .ok { prot := protectedHeader, unprotected := jsIndex value 1,
          payload := jsIndex value 2, signatures := sigs }
  else .error ("Expected COSE_Sign tag 98, got " ++ jsDisplay t)

/-- `encodeMac0` (tag 17). -/
def encodeMac0 (mac0 : COSEMac0) : Except String (List Nat) := do
  let _ ← validateProtectedHeader mac0.prot
  let protectedHeader ← encode mac0.prot
  encode (.tag 17 (.arr [.bytes protectedHeader, mac0.unprotected,
    mac0.payload, mac0.tag]))

/-- `decodeMac0` (tag 17). -/
def decodeMac0 (data : List Nat) : Except String COSEMac0 := do
  let tagged ← decode data
  let t ← jsGet tagged "tag"
  if isTagNum t 17 then do
    let value ← jsGet tagged "value"
    let protectedHeader ← decodeBuf (jsIndex value 0)
    let _ ← validateProtectedHeader protectedHeader
    let tg ← ensureArrayBuffer (jsIndex value 3)
    .ok { prot := protectedHeader, unprotected := jsIndex value 1,
          payload := jsIndex value 2, tag := tg }
  else .error ("Expected COSE_Mac0 tag 17, got " ++ jsDisplay t)

/-- `encodeMac` (tag 97) with per-recipient validation. -/
def encodeMac (mac : COSEMac) : Except String (List Nat) := do
  let _ ← validateProtectedHeader mac.prot
  let protectedHeader ← encode mac.prot
  let recs ← exceptMapM (fun rec => do
    let _ ← validateProtectedHeader rec.prot
    let rp ← encode rec.prot
    Except.ok (Val.arr [.bytes rp, rec.unprotected, rec.tag])) mac.recipients
  encode (.tag 97 (.arr [.bytes protectedHeader, mac.unprotected,
    mac.payload, .arr recs]))

/-- `decodeMac` (tag 97). -/
def decodeMac (data : List Nat) : Except String COSEMac := do
  let tagged ← decode data
  let t ← jsGet tagged "tag"
  if isTagNum t 97 then do
    let value ← jsGet tagged "value"
    let protectedHeader ← decodeBuf (jsIndex value 0)
    let _ ← validateProtectedHeader protectedHeader
    let recs ←
      match jsIndex value 3 with
      | .arr recArr =>
          exceptMapM (fun rec => do
            let recProtected ← decodeBuf (jsIndex rec 0)
            let _ ← validateProtectedHeader recProtected
            let tv ← ensureArrayBuffer (jsIndex rec 2)
            Except.ok { prot := recProtected, unprotected := jsIndex rec 1,
                        tag := tv : COSEMacRecipient }) recArr
      | _ => .error jsTypeErrorMsg
    .ok { prot := protectedHeader, unprotected := jsIndex value 1,
          payload := jsIndex value 2, recipients := recs }
  else .error ("Expected COSE_Mac tag 97, got " ++ jsDisplay t)

/-- `encodeEncrypt0` (tag 16). -/
def encodeEncrypt0 (encrypt0 : COSEEncrypt0) : Except String (List Nat) := do
  let _ ← validateProtectedHeader encrypt0.prot
  let protectedHeader ← encode encrypt0.prot
  encode (.tag 16 (.arr [.bytes protectedHeader, encrypt0.unprotected,
    encrypt0.ciphertext]))

/-- `decodeEncrypt0` (tag 16). -/
def decodeEncrypt0 (data : List Nat) : Except String COSEEncrypt0 := do
  let tagged ← decode data
  let t ← jsGet tagged "tag"
  if isTagNum t 16 then do
    let value ← jsGet tagged "value"
    let protectedHeader ← decodeBuf (jsIndex value 0)
    let _ ← validateProtectedHeader protectedHeader
    let ct ← ensureArrayBuffer (jsIndex value 2)
    .ok { prot := protectedHeader, unprotected := jsIndex value 1,
          ciphertext := ct }
  else .error ("Expected COSE_Encrypt0 tag 16, got " ++ jsDisplay t)

/-- `encodeEncrypt` (tag 96) with per-recipient validation. -/
def encodeEncrypt (encrypt : COSEEncrypt) : Except String (List Nat) := do
  let _ ← validateProtectedHeader encrypt.prot
  let protectedHeader ← encode encrypt.prot
  let recs ← exceptMapM (fun rec => do
    let _ ← validateProtectedHeader rec.prot
    let rp ← encode rec.prot
    Except.ok (Val.arr [.bytes rp, rec.unprotected, rec.encrypted_key])) encrypt.recipients
  encode (.tag 96 (.arr [.bytes protectedHeader, encrypt.unprotected,
    encrypt.ciphertext, .arr recs]))

/-- `decodeEncrypt` (tag 96). -/
def decodeEncrypt (data : List Nat) : Except String COSEEncrypt := do
  let tagged ← decode data
  let t ← jsGet tagged "tag"
  if isTagNum t 96 then do
    let value ← jsGet tagged "value"
    let protectedHeader ← decodeBuf (jsIndex value 0)
    let _ ← validateProtectedHeader protectedHeader
    let ct ← ensureArrayBuffer (jsIndex value 2)
    let recs ←
      match jsIndex value 3 with
      | .arr recArr =>
          exceptMapM (fun rec => do
            let recProtected ← decodeBuf (jsIndex rec 0)
            let _ ← validateProtectedHeader recProtected
            let ek ← ensureArrayBuffer (jsIndex rec 2)
            Except.ok { prot := recProtected, unprotected := jsIndex rec 1,
                        encrypted_key := ek : COSEEncRecipient }) recArr
      | _ => .error jsTypeErrorMsg
    .ok { prot := protectedHeader, unprotected := jsIndex value 1,
          ciphertext := ct, recipients := recs }
  else .error ("Expected COSE_Encrypt tag 96, got " ++ jsDisplay t)

/-! ## COSE key codec -/

/-- Lookup in an integer-keyed association list (a `Map<number, ...>`). -/
def lookupInt (l : List (Int × Val)) (k : Int) : Option Val :=
  match l.find? (fun p => p.1 = k) with
  | some p => some p.2
  | none => none

/-- `map.has(k)`. -/
def hasKeyInt (l : List (Int × Val)) (k : Int) : Bool :=
  l.any (fun p => p.1 = k)

/-- `validateCOSEKey`: `kty` (1) must be a number, `alg` (3) a registry
integer; `kty = 2` (EC2) additionally needs keys −1, −2, −3 and `kty = 3`
(RSA) needs −1, −2.  Any other numeric `kty` falls through both branches
and is accepted. -/
def validateCOSEKey (key : List (Int × Val)) : Except String Unit := do
  let kty ←
    match lookupInt key 1 with
    | some (.num j) => Except.ok j
    | _ => Except.error "COSE_Key must contain 'kty' (1) as a number"
  let _ ←
    match lookupInt key 3 with
    | some (.num (.int n)) =>
        if algRegistry.contains n then Except.ok ()
        else Except.error "COSE_Key must contain valid 'alg' (3)"
    | _ => Except.error "COSE_Key must contain valid 'alg' (3)"
  if kty = .int 2 then
    if hasKeyInt key (-1) ∧ hasKeyInt key (-2) ∧ hasKeyInt key (-3) then .ok ()
    else .error "EC2 key missing required parameters (crv, x, y)"
  else if kty = .int 3 then
    if hasKeyInt key (-1) ∧ hasKeyInt key (-2) then .ok ()
    else .error "RSA key missing required parameters (n, e)"
  else .ok ()

/-- `encodeKey`: validate, then CBOR-encode the key as an untagged map
(the integer keys become their decimal strings on the object). -/
def encodeKey (key : List (Int × Val)) : Except String (List Nat) := do
  let _ ← validateCOSEKey key
  encode (.map (key.map (fun p => (decRepr p.1, p.2))))

/-- Modelled from the spec: `CBOR.decodeMapToMap` (spec §4.1.5), which the
source calls but whose definition is not under `src/`.  Decodes exactly one
item at the offset (under the input cap enforced on every entry point); if
it is not a map, fail; coerce each key whose text form is a valid decimal
integer to an integer key; apply the key and value predicates, failing on
the first violation; return the typed mapping and the bytes consumed. -/
def decodeMapToMap (data : List Nat) (startOffset : Nat)
    (keyPred : Int ⊕ String → Bool) (valuePred : Val → Bool) :
    Except String (List ((Int ⊕ String) × Val) × Nat) := do
  if 16777216 < data.length then
    .error "Buffer exceeds maximum size of 16777216 bytes"
  else do
    let (v, off) ← decodeFirstItem data startOffset
    match v with
    | .map l => do
        let entries ← exceptMapM (fun p => do
          let key : Int ⊕ String :=
            match canonIntParse p.1 with
            | some n => .inl n
            | none => .inr p.1
          if keyPred key ∧ valuePred p.2 then Except.ok (key, p.2)
          else Except.error "Invalid key or value type in CBOR map") l
        .ok (entries, off - startOffset)
    | _ => .error "Expected CBOR map"

/-- `decodeKey`: decode as a number-keyed map of numbers and byte strings,
then validate the key structure. -/
def decodeKey (data : List Nat) : Except String (List (Int × Val)) := do
  let (entries, _) ← decodeMapToMap data 0
    (fun k => match k with | .inl _ => true | .inr _ => false)
    (fun v => match v with | .num _ => true | .bytes _ => true | _ => false)
  let keyMap := entries.filterMap (fun p =>
    match p.1 with
    | .inl n => some (n, p.2)
    | .inr _ => none)
  let _ ← validateCOSEKey keyMap
  .ok keyMap

/-! ## Proof infrastructure -/

theorem except_bind_ok {α β : Type} {x : Except String α}
    {f : α → Except String β} {b : β} :
    x >>= f = Except.ok b ↔ ∃ a, x = .ok a ∧ f a = .ok b := by
  cases x <;> simp [Bind.bind, Except.bind]

theorem except_bind_error {α β : Type} {x : Except String α}
    {f : α → Except String β} {e : String} (h : x = .error e) :
    x >>= f = Except.error e := by
  subst h; rfl

theorem except_ok_bind {α β : Type} (a : α) (f : α → Except String β) :
    (Except.ok a >>= f) = f a := rfl

theorem except_error_bind {α β : Type} (e : String) (f : α → Except String β) :
    ((Except.error e : Except String α) >>= f) = Except.error e := rfl

theorem exceptMapM_ok_forall₂ {α β : Type} {f : α → Except String β} :
    ∀ {l : List α} {ys : List β},
    exceptMapM f l = Except.ok ys →
    List.Forall₂ (fun x y => f x = .ok y) l ys := by
  intro l
  induction l with
  | nil =>
      intro ys h
      simp only [exceptMapM, Except.ok.injEq] at h
      simp [← h]
  | cons x xs ih =>
      intro ys h
      simp only [exceptMapM] at h
      rw [except_bind_ok] at h
      obtain ⟨y, hy, h⟩ := h
      rw [except_bind_ok] at h
      obtain ⟨ys', hys, h⟩ := h
      simp only [Except.ok.injEq] at h
      subst h
      exact List.Forall₂.cons hy (ih hys)

theorem exceptMapM_first_error {α β : Type} {f : α → Except String β}
    {pre : List α} {bad : α} {post : List α} {e : String}
    (hpre : ∀ x ∈ pre, ∃ y, f x = .ok y) (hbad : f bad = .error e) :
    exceptMapM f (pre ++ bad :: post) = Except.error e := by
  induction pre with
  | nil => simp only [List.nil_append, exceptMapM, hbad, except_error_bind]
  | cons p ps ih =>
      obtain ⟨y, hy⟩ := hpre p (by simp)
      have := ih (fun x hx => hpre x (by simp [hx]))
      simp only [List.cons_append, exceptMapM, hy, except_ok_bind,
        List.append_eq, this, except_error_bind]

/-- `ensureArrayBuffer` only succeeds on byte strings, returning them. -/
theorem ensureArrayBuffer_ok {v w : Val} (h : ensureArrayBuffer v = .ok w) :
    ∃ b, w = .bytes b ∧ v = .bytes b := by
  cases v <;> simp [ensureArrayBuffer] at h
  exact ⟨_, h.symm, rfl⟩

/-! ## Claim C2 -/

/-- C2: the major-type-7 / additional-info-25 (16-bit float) branch is the
one multi-byte read that is not covered by its bounds check: on the buffer
`f9 00 00` the decoder's own two-byte `ensureBytes` check passes, but the
four-byte `getFloat32` load is out of bounds, so decoding fails with the
`DataView` range error and not with the codec's truncated-buffer error —
against the claim that every multi-byte read checks the bytes it reads and
fails with the truncated-buffer error. -/
theorem c2_ai25_out_of_bounds :
    decode [0xf9, 0x00, 0x00] = .error dataViewOobMsg ∧
    ensureBytes [0xf9, 0x00, 0x00] 1 2 = .ok () ∧
    dataViewOobMsg ≠ "Buffer too short for CBOR data" :=
  ⟨rfl, rfl, by decide⟩

/-! ## Claim C6 -/

/-- C6 (counterexample): a key structure with key-type 5 — neither 2 (EC)
nor 3 (RSA) — and a registry algorithm is accepted by both `encodeKey` and
`decodeKey`, against the claim that both fail for any key-type other than
2 and 3. -/
theorem c6_counterexample :
    encodeKey [(1, .num (.int 5)), (3, .num (.int 5))] =
      .ok [0xa2, 0x01, 0x05, 0x03, 0x05] ∧
    decodeKey [0xa2, 0x01, 0x05, 0x03, 0x05] =
      .ok [(1, .num (.int 5)), (3, .num (.int 5))] :=
  ⟨rfl, rfl⟩

/-- C6 (amended): `validateCOSEKey` requires a numeric key-type and a
registry algorithm; key-type 2 requires parameters −1, −2, −3 and key-type
3 requires −1, −2, with the stated errors; every other numeric key-type is
accepted with no parameter requirements (the validator has no rejecting
branch); a validation error propagates out of `encodeKey`. -/
theorem c6_theorem :
    (∀ (key : List (Int × Val)) (j : JSNum) (n : Int),
        lookupInt key 1 = some (.num j) →
        lookupInt key 3 = some (.num (.int n)) →
        algRegistry.contains n = true →
        j ≠ .int 2 → j ≠ .int 3 →
        validateCOSEKey key = .ok ()) ∧
    (∀ (key : List (Int × Val)) (n : Int),
        lookupInt key 1 = some (.num (.int 2)) →
        lookupInt key 3 = some (.num (.int n)) →
        algRegistry.contains n = true →
        ¬(hasKeyInt key (-1) ∧ hasKeyInt key (-2) ∧ hasKeyInt key (-3)) →
        validateCOSEKey key =
          .error "EC2 key missing required parameters (crv, x, y)") ∧
    (∀ (key : List (Int × Val)) (n : Int),
        lookupInt key 1 = some (.num (.int 3)) →
        lookupInt key 3 = some (.num (.int n)) →
        algRegistry.contains n = true →
        ¬(hasKeyInt key (-1) ∧ hasKeyInt key (-2)) →
        validateCOSEKey key =
          .error "RSA key missing required parameters (n, e)") ∧
    (∀ (key : List (Int × Val)) (e : String),
        validateCOSEKey key = .error e → encodeKey key = .error e) := by
  refine ⟨?_, ?_, ?_, ?_⟩
  · intro key j n h1 h3 halg h2 h3'
    simp only [validateCOSEKey, h1, h3, halg, if_true, except_ok_bind]
    rw [if_neg h2, if_neg h3']
  · intro key n h1 h3 halg hmiss
    simp only [validateCOSEKey, h1, h3, halg, if_true, except_ok_bind]
    rw [if_neg hmiss]
  · intro key n h1 h3 halg hmiss
    simp only [validateCOSEKey, h1, h3, halg, if_true, except_ok_bind]
    rw [if_neg (show ¬(JSNum.int 3 = JSNum.int 2) by decide), if_neg hmiss]
  · intro key e h
    simp only [encodeKey, h, except_error_bind]

/-- C6 witness: the theorem applied at concrete keys for each branch. -/
theorem c6_witness :
    validateCOSEKey [(1, .num (.int 5)), (3, .num (.int 5))] = .ok () ∧
    validateCOSEKey [(1, .num (.int 2)), (3, .num (.int 5))] =
      .error "EC2 key missing required parameters (crv, x, y)" ∧
    validateCOSEKey [(1, .num (.int 3)), (3, .num (.int 5))] =
      .error "RSA key missing required parameters (n, e)" ∧
    encodeKey [(1, .num (.int 2)), (3, .num (.int 5))] =
      .error "EC2 key missing required parameters (crv, x, y)" :=
  ⟨c6_theorem.1 _ (.int 5) 5 rfl rfl (by decide) (by decide) (by decide),
   c6_theorem.2.1 _ 5 rfl rfl (by decide) (by decide),
   c6_theorem.2.2.1 _ 5 rfl rfl (by decide) (by decide),
   c6_theorem.2.2.2 _ _
     (c6_theorem.2.1 _ 5 rfl rfl (by decide) (by decide))⟩

/-! ## Claim C9 -/

/-- C9 (counterexample): the text key `"1.5"` is converted to the number
1.5 on the wire, yet it IS preserved by an encode/decode round trip,
because the decoded numeric key coerces back to exactly the string
`"1.5"` — against the claim that such text keys are not preserved. -/
theorem c9_counterexample :
    (encode (.map [("1.5", .num (.int 7))])).bind decode =
      .ok (.map [("1.5", .num (.int 7))]) ∧
    structEqb (.map [("1.5", .num (.int 7))]) (.map [("1.5", .num (.int 7))]) =
      true :=
  ⟨rfl, rfl⟩

/-- C9 (amended): a map key whose string converts to a non-NaN number is
emitted as a CBOR numeric key rather than a text key; text keys whose
canonical number string differs from the original — such as `""` (number 0)
and `"1e3"` (number 1000) — are therefore not preserved by a round trip,
while numeric-looking keys that already print canonically, such as `"1.5"`,
survive the round trip. -/
theorem c9_theorem :
    (∀ (k : String) (v : Val) (rest : List (String × Val)) (n : JSNum)
        (fuel : Nat),
        jsStringToNumber k = some n →
        encodeEntriesF (fuel + 1) ((k, v) :: rest) =
          (do
            let keyBytes ← encodeNumber n
            let valBytes ← encodeValueF fuel v
            let restBytes ← encodeEntriesF fuel rest
            Except.ok (keyBytes ++ valBytes ++ restBytes))) ∧
    ((encode (.map [("", .num (.int 1))])).bind decode =
        .ok (.map [("0", .num (.int 1))])) ∧
    structEqb (.map [("0", .num (.int 1))]) (.map [("", .num (.int 1))]) =
      false ∧
    ((encode (.map [("1e3", .num (.int 1))])).bind decode =
        .ok (.map [("1000", .num (.int 1))])) ∧
    structEqb (.map [("1000", .num (.int 1))]) (.map [("1e3", .num (.int 1))]) =
      false ∧
    ((encode (.map [("1.5", .num (.int 7))])).bind decode =
        .ok (.map [("1.5", .num (.int 7))])) := by
  refine ⟨?_, rfl, rfl, rfl, rfl, rfl⟩
  intro k v rest n fuel h
  simp only [encodeEntriesF, h]

/-- C9 witness: the numeric-key emission applied at the key `"1e3"`. -/
theorem c9_witness :
    encodeEntriesF 2 [("1e3", Val.null)] =
      (do
        let keyBytes ← encodeNumber (.int 1000)
        let valBytes ← encodeValueF 1 Val.null
        let restBytes ← encodeEntriesF 1 []
        Except.ok (keyBytes ++ valBytes ++ restBytes)) :=
  c9_theorem.1 "1e3" Val.null [] (.int 1000) 1 rfl

/-! ## Claim C5 -/

/-- The encoding of a Sign1 whose payload field holds the number 5
(protected `{1: -7}`, empty unprotected, signature `[1,2,3,4]`). -/
def c5buf : List Nat :=
  [0xd2, 0x84, 0x43, 0xa1, 0x01, 0x26, 0xa0, 0x05, 0x44, 0x01, 0x02, 0x03, 0x04]

/-- C5 (counterexample): `decodeSign1` accepts a buffer whose payload field
is the number 5 — neither a byte string nor null — and returns it, against
the claim that the decode fails unless the payload is bytes or null: the
payload field is never validated (`payload: decoded[2]` with only a
compile-time cast). -/
theorem c5_counterexample :
    decodeSign1 c5buf =
      .ok { prot := .map [("1", .num (.int (-7)))], unprotected := .map [],
            payload := .num (.int 5), signature := .bytes [1, 2, 3, 4] } :=
  rfl

/-- Membership transfer along `Forall₂`. -/
theorem forall₂_mem_right {α β : Type} {R : α → β → Prop} :
    ∀ {l : List α} {ys : List β}, List.Forall₂ R l ys → ∀ y ∈ ys,
    ∃ x ∈ l, R x y := by
  intro l ys h
  induction h with
  | nil => intro y hy; simp at hy
  | cons hr _ ih =>
      intro y hy
      rcases List.mem_cons.mp hy with hy | hy
      · exact ⟨_, by simp, hy ▸ hr⟩
      · obtain ⟨x, hx, hxy⟩ := ih y hy
        exact ⟨x, by simp [hx], hxy⟩

/-- C5 (amended): on every envelope decode the terminal fields
(signature, tag, ciphertext, encrypted_key — outer and per-element) are
validated to be byte strings, and a non-array signatures/recipients field
makes the decode fail; the payload field, however, is not validated: any
decoded value is accepted as payload (shown by the Sign1 buffer whose
payload is the number 5). -/
theorem c5_theorem :
    (∀ (data : List Nat) (s : COSESign1), decodeSign1 data = .ok s →
        ∃ b, s.signature = .bytes b) ∧
    (∀ (data : List Nat) (s : COSEMac0), decodeMac0 data = .ok s →
        ∃ b, s.tag = .bytes b) ∧
    (∀ (data : List Nat) (s : COSEEncrypt0), decodeEncrypt0 data = .ok s →
        ∃ b, s.ciphertext = .bytes b) ∧
    (∀ (data : List Nat) (s : COSESign), decodeSign data = .ok s →
        ∀ sig ∈ s.signatures, ∃ b, sig.signature = .bytes b) ∧
    (∀ (data : List Nat) (s : COSEMac), decodeMac data = .ok s →
        ∀ r ∈ s.recipients, ∃ b, r.tag = .bytes b) ∧
    (∀ (data : List Nat) (s : COSEEncrypt), decodeEncrypt data = .ok s →
        (∃ b, s.ciphertext = .bytes b) ∧
        ∀ r ∈ s.recipients, ∃ b, r.encrypted_key = .bytes b) ∧
    (decodeSign [0xd8, 0x62, 0x84, 0x43, 0xa1, 0x01, 0x26, 0xa0, 0xf6, 0x05] =
        .error jsTypeErrorMsg) ∧
    (∃ s, decodeSign1 c5buf = .ok s ∧ s.payload = .num (.int 5)) := by
  refine ⟨?_, ?_, ?_, ?_, ?_, ?_, rfl, ?_⟩
  · intro data s h
    simp only [decodeSign1] at h
    rw [except_bind_ok] at h
    obtain ⟨tagged, _, h⟩ := h
    rw [except_bind_ok] at h
    obtain ⟨t, _, h⟩ := h
    split at h
    · rw [except_bind_ok] at h
      obtain ⟨value, _, h⟩ := h
      rw [except_bind_ok] at h
      obtain ⟨ph, _, h⟩ := h
      rw [except_bind_ok] at h
      obtain ⟨u, _, h⟩ := h
      rw [except_bind_ok] at h
      obtain ⟨sig, hsig, h⟩ := h
      simp only [Except.ok.injEq] at h
      obtain ⟨b, hb, _⟩ := ensureArrayBuffer_ok hsig
      exact ⟨b, by rw [← h]; exact hb⟩
    · simp at h
  · intro data s h
    simp only [decodeMac0] at h
    rw [except_bind_ok] at h
    obtain ⟨tagged, _, h⟩ := h
    rw [except_bind_ok] at h
    obtain ⟨t, _, h⟩ := h
    split at h
    · rw [except_bind_ok] at h
      obtain ⟨value, _, h⟩ := h
      rw [except_bind_ok] at h
      obtain ⟨ph, _, h⟩ := h
      rw [except_bind_ok] at h
      obtain ⟨u, _, h⟩ := h
      rw [except_bind_ok] at h
      obtain ⟨tg, htg, h⟩ := h
      simp only [Except.ok.injEq] at h
      obtain ⟨b, hb, _⟩ := ensureArrayBuffer_ok htg
      exact ⟨b, by rw [← h]; exact hb⟩
    · simp at h
  · intro data s h
    simp only [decodeEncrypt0] at h
    rw [except_bind_ok] at h
    obtain ⟨tagged, _, h⟩ := h
    rw [except_bind_ok] at h
    obtain ⟨t, _, h⟩ := h
    split at h
    · rw [except_bind_ok] at h
      obtain ⟨value, _, h⟩ := h
      rw [except_bind_ok] at h
      obtain ⟨ph, _, h⟩ := h
      rw [except_bind_ok] at h
      obtain ⟨u, _, h⟩ := h
      rw [except_bind_ok] at h
      obtain ⟨ct, hct, h⟩ := h
      simp only [Except.ok.injEq] at h
      obtain ⟨b, hb, _⟩ := ensureArrayBuffer_ok hct
      exact ⟨b, by rw [← h]; exact hb⟩
    · simp at h
  · intro data s h
    simp only [decodeSign] at h
    rw [except_bind_ok] at h
    obtain ⟨tagged, _, h⟩ := h
    rw [except_bind_ok] at h
    obtain ⟨t, _, h⟩ := h
    split at h
    · rw [except_bind_ok] at h
      obtain ⟨value, _, h⟩ := h
      rw [except_bind_ok] at h
      obtain ⟨ph, _, h⟩ := h
      rw [except_bind_ok] at h
      obtain ⟨u, _, h⟩ := h
      split at h
      case _ =>
        rw [except_bind_ok] at h
        obtain ⟨sigs, hsigs, h⟩ := h
        simp only [Except.ok.injEq] at h
        subst h
        intro sig hmem
        have hall := exceptMapM_ok_forall₂ hsigs
        obtain ⟨x, _, hx⟩ := forall₂_mem_right hall sig hmem
        rw [except_bind_ok] at hx
        obtain ⟨sp, _, hx⟩ := hx
        rw [except_bind_ok] at hx
        obtain ⟨u', _, hx⟩ := hx
        rw [except_bind_ok] at hx
        obtain ⟨sv, hsv, hx⟩ := hx
        simp only [Except.ok.injEq] at hx
        obtain ⟨b, hb, _⟩ := ensureArrayBuffer_ok hsv
        exact ⟨b, by rw [← hx]; exact hb⟩
      all_goals rw [except_error_bind] at h; simp at h
    · simp at h
  · intro data s h
    simp only [decodeMac] at h
    rw [except_bind_ok] at h
    obtain ⟨tagged, _, h⟩ := h
    rw [except_bind_ok] at h
    obtain ⟨t, _, h⟩ := h
    split at h
    · rw [except_bind_ok] at h
      obtain ⟨value, _, h⟩ := h
      rw [except_bind_ok] at h
      obtain ⟨ph, _, h⟩ := h
      rw [except_bind_ok] at h
      obtain ⟨u, _, h⟩ := h
      split at h
      case _ =>
        rw [except_bind_ok] at h
        obtain ⟨recs, hrecs, h⟩ := h
        simp only [Except.ok.injEq] at h
        subst h
        intro r hmem
        have hall := exceptMapM_ok_forall₂ hrecs
        obtain ⟨x, _, hx⟩ := forall₂_mem_right hall r hmem
        rw [except_bind_ok] at hx
        obtain ⟨rp, _, hx⟩ := hx
        rw [except_bind_ok] at hx
        obtain ⟨u', _, hx⟩ := hx
        rw [except_bind_ok] at hx
        obtain ⟨tv, htv, hx⟩ := hx
        simp only [Except.ok.injEq] at hx
        obtain ⟨b, hb, _⟩ := ensureArrayBuffer_ok htv
        exact ⟨b, by rw [← hx]; exact hb⟩
      all_goals rw [except_error_bind] at h; simp at h
    · simp at h
  · intro data s h
    simp only [decodeEncrypt] at h
    rw [except_bind_ok] at h
    obtain ⟨tagged, _, h⟩ := h
    rw [except_bind_ok] at h
    obtain ⟨t, _, h⟩ := h
    split at h
    · rw [except_bind_ok] at h
      obtain ⟨value, _, h⟩ := h
      rw [except_bind_ok] at h
      obtain ⟨ph, _, h⟩ := h
      rw [except_bind_ok] at h
      obtain ⟨u, _, h⟩ := h
      rw [except_bind_ok] at h
      obtain ⟨ct, hct, h⟩ := h
      split at h
      case _ =>
        rw [except_bind_ok] at h
        obtain ⟨recs, hrecs, h⟩ := h
        simp only [Except.ok.injEq] at h
        subst h
        obtain ⟨b, hb, _⟩ := ensureArrayBuffer_ok hct
        refine ⟨⟨b, hb⟩, ?_⟩
        intro r hmem
        have hall := exceptMapM_ok_forall₂ hrecs
        obtain ⟨x, _, hx⟩ := forall₂_mem_right hall r hmem
        rw [except_bind_ok] at hx
        obtain ⟨rp, _, hx⟩ := hx
        rw [except_bind_ok] at hx
        obtain ⟨u', _, hx⟩ := hx
        rw [except_bind_ok] at hx
        obtain ⟨ek, hek, hx⟩ := hx
        simp only [Except.ok.injEq] at hx
        obtain ⟨b', hb', _⟩ := ensureArrayBuffer_ok hek
        exact ⟨b', by rw [← hx]; exact hb'⟩
      all_goals rw [except_error_bind] at h; simp at h
    · simp at h
  · exact ⟨_, rfl, rfl⟩

/-- C5 witness: the Sign1 clause applied at the concrete buffer `c5buf`. -/
theorem c5_witness :
    ∃ b, ({ prot := .map [("1", .num (.int (-7)))], unprotected := .map [],
            payload := .num (.int 5),
            signature := .bytes [1, 2, 3, 4] } : COSESign1).signature =
      .bytes b :=
  c5_theorem.1 c5buf _ rfl

/-! ## Claim C7 -/

/-- C7: integers are encoded in the shortest bucket — immediate form for
[0,23], 1-byte for [24,255], 2-byte for [256,65535], 4-byte for
[65536, 2³²−1], 8-byte up to 2⁵³−1, failure beyond; a negative integer is
encoded through the magnitude `|v| − 1` in the same five buckets under
major type 1 (initial bytes `0x20|a`, `0x38`, `0x39`, `0x3a`, `0x3b`),
failing when the magnitude exceeds the bucket range; and `encodeValue`
dispatches integral numbers to exactly these two encoders by sign. -/
theorem c7_theorem :
    (∀ v : Int, 0 ≤ v → v ≤ 23 →
        encodeUnsignedInteger v = .ok [v.toNat]) ∧
    (∀ v : Int, 24 ≤ v → v ≤ 255 →
        encodeUnsignedInteger v = .ok [0x18, v.toNat]) ∧
    (∀ v : Int, 256 ≤ v → v ≤ 65535 →
        encodeUnsignedInteger v = .ok (0x19 :: beBytes 2 v.toNat)) ∧
    (∀ v : Int, 65536 ≤ v → v ≤ 4294967295 →
        encodeUnsignedInteger v = .ok (0x1a :: beBytes 4 v.toNat)) ∧
    (∀ v : Int, 4294967296 ≤ v → v ≤ 2 ^ 53 - 1 →
        encodeUnsignedInteger v = .ok (0x1b :: beBytes 8 v.toNat)) ∧
    (∀ v : Int, 2 ^ 53 - 1 < v →
        encodeUnsignedInteger v =
          .error "Integer value too large for CBOR encoding") ∧
    (∀ v : Int, -24 ≤ v → v ≤ -1 →
        encodeNegativeInteger v = .ok [0x20 + ((-v).toNat - 1)]) ∧
    (∀ v : Int, -256 ≤ v → v ≤ -25 →
        encodeNegativeInteger v = .ok [0x38, (-v).toNat - 1]) ∧
    (∀ v : Int, -65536 ≤ v → v ≤ -257 →
        encodeNegativeInteger v = .ok (0x39 :: beBytes 2 ((-v).toNat - 1))) ∧
    (∀ v : Int, -4294967296 ≤ v → v ≤ -65537 →
        encodeNegativeInteger v = .ok (0x3a :: beBytes 4 ((-v).toNat - 1))) ∧
    (∀ v : Int, -(2 ^ 53) ≤ v → v ≤ -4294967297 →
        encodeNegativeInteger v = .ok (0x3b :: beBytes 8 ((-v).toNat - 1))) ∧
    (∀ v : Int, v < -(2 ^ 53) →
        encodeNegativeInteger v =
          .error "Integer value too large for CBOR encoding") ∧
    (∀ (n : Int) (fuel : Nat),
        encodeValueF (fuel + 1) (.num (.int n)) =
          if 0 ≤ n then encodeUnsignedInteger n else encodeNegativeInteger n) := by
  refine ⟨?_, ?_, ?_, ?_, ?_, ?_, ?_, ?_, ?_, ?_, ?_, ?_, ?_⟩
  all_goals first
    | (intro v h1 h2
       first
         | (simp only [encodeUnsignedInteger]
            split_ifs <;> first | rfl | omega)
         | (simp only [encodeNegativeInteger]
            split_ifs <;> first | rfl | omega))
    | (intro v h1
       first
         | (simp only [encodeUnsignedInteger]
            split_ifs <;> first | rfl | omega)
         | (simp only [encodeNegativeInteger]
            split_ifs <;> first | rfl | omega))
    | (intro n fuel
       simp only [encodeValueF, encodeNumber])

/-- C7 witness: one value per bucket, positive and negative. -/
theorem c7_witness :
    encodeUnsignedInteger 23 = .ok [23] ∧
    encodeUnsignedInteger 255 = .ok [0x18, 255] ∧
    encodeUnsignedInteger 256 = .ok (0x19 :: beBytes 2 256) ∧
    encodeUnsignedInteger 65536 = .ok (0x1a :: beBytes 4 65536) ∧
    encodeUnsignedInteger (2 ^ 53 - 1) = .ok (0x1b :: beBytes 8 (2 ^ 53 - 1)) ∧
    encodeUnsignedInteger (2 ^ 53) =
      .error "Integer value too large for CBOR encoding" ∧
    encodeNegativeInteger (-1) = .ok [0x20 + 0] ∧
    encodeNegativeInteger (-25) = .ok [0x38, 24] ∧
    encodeNegativeInteger (-257) = .ok (0x39 :: beBytes 2 256) ∧
    encodeNegativeInteger (-65537) = .ok (0x3a :: beBytes 4 65536) ∧
    encodeNegativeInteger (-(2 ^ 53)) =
      .ok (0x3b :: beBytes 8 (2 ^ 53 - 1)) ∧
    encodeNegativeInteger (-(2 ^ 53) - 1) =
      .error "Integer value too large for CBOR encoding" :=
  ⟨c7_theorem.1 23 (by decide) (by decide),
   c7_theorem.2.1 255 (by decide) (by decide),
   c7_theorem.2.2.1 256 (by decide) (by decide),
   c7_theorem.2.2.2.1 65536 (by decide) (by decide),
   by rw [c7_theorem.2.2.2.2.1 (2 ^ 53 - 1) (by decide) (by decide)]; rfl,
   c7_theorem.2.2.2.2.2.1 (2 ^ 53) (by decide),
   by rw [c7_theorem.2.2.2.2.2.2.1 (-1) (by decide) (by decide)]; rfl,
   by rw [c7_theorem.2.2.2.2.2.2.2.1 (-25) (by decide) (by decide)]; rfl,
   by rw [c7_theorem.2.2.2.2.2.2.2.2.1 (-257) (by decide) (by decide)]; rfl,
   by rw [c7_theorem.2.2.2.2.2.2.2.2.2.1 (-65537) (by decide) (by decide)]; rfl,
   by rw [c7_theorem.2.2.2.2.2.2.2.2.2.2.1 (-(2 ^ 53)) (by decide) (by decide)]; rfl,
   c7_theorem.2.2.2.2.2.2.2.2.2.2.2.1 (-(2 ^ 53) - 1) (by decide)⟩

/-! ## Claim C4 -/

/-- C4: for every envelope, the protected header (the outer one and each
per-signature / per-recipient one) is validated: a header object without
property 1 fails with exactly "Protected header must contain 'alg'
parameter", and one whose property-1 value is not a registry integer fails
with exactly "Invalid or unsupported algorithm in protected header" — an
array is an object whose property 1 is its second element, so a decoded
array header with a registry integer there passes the validation; a
validation error is the result of the encode (outer validation first,
per-element validation when the element is reached), and every decode
validates the outer and each per-element protected header before
returning. -/
theorem c4_theorem :
    (∀ l : List (String × Val), lookupStr l "1" = none →
        validateProtectedHeader (.map l) =
          .error "Protected header must contain 'alg' parameter") ∧
    (∀ (l : List (String × Val)) (n : Int),
        lookupStr l "1" = some (.num (.int n)) →
        algRegistry.contains n = false →
        validateProtectedHeader (.map l) =
          .error "Invalid or unsupported algorithm in protected header") ∧
    (∀ (l : List (String × Val)) (v : Val), lookupStr l "1" = some v →
        (∀ n : Int, v ≠ .num (.int n)) →
        validateProtectedHeader (.map l) =
          .error "Invalid or unsupported algorithm in protected header") ∧
    (∀ xs : List Val, xs.get? 1 = none →
        validateProtectedHeader (.arr xs) =
          .error "Protected header must contain 'alg' parameter") ∧
    (∀ (xs : List Val) (n : Int), xs.get? 1 = some (.num (.int n)) →
        algRegistry.contains n = true →
        validateProtectedHeader (.arr xs) = .ok ()) ∧
    (∀ (s : COSESign1) (e : String), validateProtectedHeader s.prot = .error e →
        encodeSign1 s = .error e) ∧
    (∀ (s : COSESign) (e : String), validateProtectedHeader s.prot = .error e →
        encodeSign s = .error e) ∧
    (∀ (s : COSEMac0) (e : String), validateProtectedHeader s.prot = .error e →
        encodeMac0 s = .error e) ∧
    (∀ (s : COSEMac) (e : String), validateProtectedHeader s.prot = .error e →
        encodeMac s = .error e) ∧
    (∀ (s : COSEEncrypt0) (e : String), validateProtectedHeader s.prot = .error e →
        encodeEncrypt0 s = .error e) ∧
    (∀ (s : COSEEncrypt) (e : String), validateProtectedHeader s.prot = .error e →
        encodeEncrypt s = .error e) ∧
    (∀ (s : COSESign) (pre : List COSESignature) (bad : COSESignature)
        (post : List COSESignature) (pb : List Nat) (e : String),
        s.signatures = pre ++ bad :: post →
        validateProtectedHeader s.prot = .ok () →
        encode s.prot = .ok pb →
        (∀ x ∈ pre, validateProtectedHeader x.prot = .ok () ∧
          ∃ xb, encode x.prot = .ok xb) →
        validateProtectedHeader bad.prot = .error e →
        encodeSign s = .error e) ∧
    (∀ (s : COSEMac) (pre : List COSEMacRecipient) (bad : COSEMacRecipient)
        (post : List COSEMacRecipient) (pb : List Nat) (e : String),
        s.recipients = pre ++ bad :: post →
        validateProtectedHeader s.prot = .ok () →
        encode s.prot = .ok pb →
        (∀ x ∈ pre, validateProtectedHeader x.prot = .ok () ∧
          ∃ xb, encode x.prot = .ok xb) →
        validateProtectedHeader bad.prot = .error e →
        encodeMac s = .error e) ∧
    (∀ (s : COSEEncrypt) (pre : List COSEEncRecipient) (bad : COSEEncRecipient)
        (post : List COSEEncRecipient) (pb : List Nat) (e : String),
        s.recipients = pre ++ bad :: post →
        validateProtectedHeader s.prot = .ok () →
        encode s.prot = .ok pb →
        (∀ x ∈ pre, validateProtectedHeader x.prot = .ok () ∧
          ∃ xb, encode x.prot = .ok xb) →
        validateProtectedHeader bad.prot = .error e →
        encodeEncrypt s = .error e) ∧
    (∀ (data : List Nat) (s : COSESign1), decodeSign1 data = .ok s →
        validateProtectedHeader s.prot = .ok ()) ∧
    (∀ (data : List Nat) (s : COSESign), decodeSign data = .ok s →
        validateProtectedHeader s.prot = .ok () ∧
        ∀ sig ∈ s.signatures, validateProtectedHeader sig.prot = .ok ()) ∧
    (∀ (data : List Nat) (s : COSEMac0), decodeMac0 data = .ok s →
        validateProtectedHeader s.prot = .ok ()) ∧
    (∀ (data : List Nat) (s : COSEMac), decodeMac data = .ok s →
        validateProtectedHeader s.prot = .ok () ∧
        ∀ r ∈ s.recipients, validateProtectedHeader r.prot = .ok ()) ∧
    (∀ (data : List Nat) (s : COSEEncrypt0), decodeEncrypt0 data = .ok s →
        validateProtectedHeader s.prot = .ok ()) ∧
    (∀ (data : List Nat) (s : COSEEncrypt), decodeEncrypt data = .ok s →
        validateProtectedHeader s.prot = .ok () ∧
        ∀ r ∈ s.recipients, validateProtectedHeader r.prot = .ok ()) := by
  refine ⟨?_, ?_, ?_, ?_, ?_, ?_, ?_, ?_, ?_, ?_, ?_, ?_, ?_, ?_, ?_, ?_, ?_,
    ?_, ?_, ?_⟩
  · intro l h
    simp only [validateProtectedHeader, h]
  · intro l n h hc
    simp only [validateProtectedHeader, h, hc]
    rfl
  · intro l v h hn
    cases v with
    | num j =>
        cases j with
        | int n => exact absurd rfl (hn n)
        | flt b => simp only [validateProtectedHeader, h]
    | bytes b => simp only [validateProtectedHeader, h]
    | text s => simp only [validateProtectedHeader, h]
    | arr xs => simp only [validateProtectedHeader, h]
    | map m => simp only [validateProtectedHeader, h]
    | tag t w => simp only [validateProtectedHeader, h]
    | bool b => simp only [validateProtectedHeader, h]
    | null => simp only [validateProtectedHeader, h]
    | undef => simp only [validateProtectedHeader, h]
  · intro xs h
    simp only [validateProtectedHeader, h]
  · intro xs n h hc
    simp only [validateProtectedHeader, h, hc]
    rfl
  · intro s e h; simp only [encodeSign1, h, except_error_bind]
  · intro s e h; simp only [encodeSign, h, except_error_bind]
  · intro s e h; simp only [encodeMac0, h, except_error_bind]
  · intro s e h; simp only [encodeMac, h, except_error_bind]
  · intro s e h; simp only [encodeEncrypt0, h, except_error_bind]
  · intro s e h; simp only [encodeEncrypt, h, except_error_bind]
  · intro s pre bad post pb e hsplit hval henc hpre hbad
    simp only [encodeSign, hval, except_ok_bind, henc, hsplit]
    exact except_bind_error (exceptMapM_first_error
      (fun x hx => by
        obtain ⟨hv, xb, hxb⟩ := hpre x hx
        exact ⟨Val.arr [.bytes xb, x.unprotected, x.signature],
          by simp only [hv, except_ok_bind, hxb]⟩)
      (by simp only [hbad, except_error_bind]))
  · intro s pre bad post pb e hsplit hval henc hpre hbad
    simp only [encodeMac, hval, except_ok_bind, henc, hsplit]
    exact except_bind_error (exceptMapM_first_error
      (fun x hx => by
        obtain ⟨hv, xb, hxb⟩ := hpre x hx
        exact ⟨Val.arr [.bytes xb, x.unprotected, x.tag],
          by simp only [hv, except_ok_bind, hxb]⟩)
      (by simp only [hbad, except_error_bind]))
  · intro s pre bad post pb e hsplit hval henc hpre hbad
    simp only [encodeEncrypt, hval, except_ok_bind, henc, hsplit]
    exact except_bind_error (exceptMapM_first_error
      (fun x hx => by
        obtain ⟨hv, xb, hxb⟩ := hpre x hx
        exact ⟨Val.arr [.bytes xb, x.unprotected, x.encrypted_key],
          by simp only [hv, except_ok_bind, hxb]⟩)
      (by simp only [hbad, except_error_bind]))
  · intro data s h
    simp only [decodeSign1] at h
    rw [except_bind_ok] at h
    obtain ⟨tagged, _, h⟩ := h
    rw [except_bind_ok] at h
    obtain ⟨t, _, h⟩ := h
    split at h
    · rw [except_bind_ok] at h
      obtain ⟨value, _, h⟩ := h
      rw [except_bind_ok] at h
      obtain ⟨ph, _, h⟩ := h
      rw [except_bind_ok] at h
      obtain ⟨u, hval, h⟩ := h
      rw [except_bind_ok] at h
      obtain ⟨sig, _, h⟩ := h
      simp only [Except.ok.injEq] at h
      rw [← h]
      exact hval
    · simp at h
  · intro data s h
    simp only [decodeSign] at h
    rw [except_bind_ok] at h
    obtain ⟨tagged, _, h⟩ := h
    rw [except_bind_ok] at h
    obtain ⟨t, _, h⟩ := h
    split at h
    · rw [except_bind_ok] at h
      obtain ⟨value, _, h⟩ := h
      rw [except_bind_ok] at h
      obtain ⟨ph, _, h⟩ := h
      rw [except_bind_ok] at h
      obtain ⟨u, hval, h⟩ := h
      split at h
      case _ =>
        rw [except_bind_ok] at h
        obtain ⟨sigs, hsigs, h⟩ := h
        simp only [Except.ok.injEq] at h
        subst h
        refine ⟨hval, ?_⟩
        intro sig hmem
        have hall := exceptMapM_ok_forall₂ hsigs
        obtain ⟨x, _, hx⟩ := forall₂_mem_right hall sig hmem
        rw [except_bind_ok] at hx
        obtain ⟨sp, _, hx⟩ := hx
        rw [except_bind_ok] at hx
        obtain ⟨u', hval', hx⟩ := hx
        rw [except_bind_ok] at hx
        obtain ⟨sv, _, hx⟩ := hx
        simp only [Except.ok.injEq] at hx
        rw [← hx]
        exact hval'
      all_goals rw [except_error_bind] at h; simp at h
    · simp at h
  · intro data s h
    simp only [decodeMac0] at h
    rw [except_bind_ok] at h
    obtain ⟨tagged, _, h⟩ := h
    rw [except_bind_ok] at h
    obtain ⟨t, _, h⟩ := h
    split at h
    · rw [except_bind_ok] at h
      obtain ⟨value, _, h⟩ := h
      rw [except_bind_ok] at h
      obtain ⟨ph, _, h⟩ := h
      rw [except_bind_ok] at h
      obtain ⟨u, hval, h⟩ := h
      rw [except_bind_ok] at h
      obtain ⟨tg, _, h⟩ := h
      simp only [Except.ok.injEq] at h
      rw [← h]
      exact hval
    · simp at h
  · intro data s h
    simp only [decodeMac] at h
    rw [except_bind_ok] at h
    obtain ⟨tagged, _, h⟩ := h
    rw [except_bind_ok] at h
    obtain ⟨t, _, h⟩ := h
    split at h
    · rw [except_bind_ok] at h
      obtain ⟨value, _, h⟩ := h
      rw [except_bind_ok] at h
      obtain ⟨ph, _, h⟩ := h
      rw [except_bind_ok] at h
      obtain ⟨u, hval, h⟩ := h
      split at h
      case _ =>
        rw [except_bind_ok] at h
        obtain ⟨recs, hrecs, h⟩ := h
        simp only [Except.ok.injEq] at h
        subst h
        refine ⟨hval, ?_⟩
        intro r hmem
        have hall := exceptMapM_ok_forall₂ hrecs
        obtain ⟨x, _, hx⟩ := forall₂_mem_right hall r hmem
        rw [except_bind_ok] at hx
        obtain ⟨rp, _, hx⟩ := hx
        rw [except_bind_ok] at hx
        obtain ⟨u', hval', hx⟩ := hx
        rw [except_bind_ok] at hx
        obtain ⟨tv, _, hx⟩ := hx
        simp only [Except.ok.injEq] at hx
        rw [← hx]
        exact hval'
      all_goals rw [except_error_bind] at h; simp at h
    · simp at h
  · intro data s h
    simp only [decodeEncrypt0] at h
    rw [except_bind_ok] at h
    obtain ⟨tagged, _, h⟩ := h
    rw [except_bind_ok] at h
    obtain ⟨t, _, h⟩ := h
    split at h
    · rw [except_bind_ok] at h
      obtain ⟨value, _, h⟩ := h
      rw [except_bind_ok] at h
      obtain ⟨ph, _, h⟩ := h
      rw [except_bind_ok] at h
      obtain ⟨u, hval, h⟩ := h
      rw [except_bind_ok] at h
      obtain ⟨ct, _, h⟩ := h
      simp only [Except.ok.injEq] at h
      rw [← h]
      exact hval
    · simp at h
  · intro data s h
    simp only [decodeEncrypt] at h
    rw [except_bind_ok] at h
    obtain ⟨tagged, _, h⟩ := h
    rw [except_bind_ok] at h
    obtain ⟨t, _, h⟩ := h
    split at h
    · rw [except_bind_ok] at h
      obtain ⟨value, _, h⟩ := h
      rw [except_bind_ok] at h
      obtain ⟨ph, _, h⟩ := h
      rw [except_bind_ok] at h
      obtain ⟨u, hval, h⟩ := h
      rw [except_bind_ok] at h
      obtain ⟨ct, _, h⟩ := h
      split at h
      case _ =>
        rw [except_bind_ok] at h
        obtain ⟨recs, hrecs, h⟩ := h
        simp only [Except.ok.injEq] at h
        subst h
        refine ⟨hval, ?_⟩
        intro r hmem
        have hall := exceptMapM_ok_forall₂ hrecs
        obtain ⟨x, _, hx⟩ := forall₂_mem_right hall r hmem
        rw [except_bind_ok] at hx
        obtain ⟨rp, _, hx⟩ := hx
        rw [except_bind_ok] at hx
        obtain ⟨u', hval', hx⟩ := hx
        rw [except_bind_ok] at hx
        obtain ⟨ek, _, hx⟩ := hx
        simp only [Except.ok.injEq] at hx
        rw [← hx]
        exact hval'
      all_goals rw [except_error_bind] at h; simp at h
    · simp at h

/-- C4 witness: the missing-alg and bad-alg clauses applied concretely,
composed with the encode propagation clause; the array-header clauses at
the empty array and at `[0, -7]`; and the decode-validation clause at a
Sign1 buffer whose protected header decodes to the array `[0, -7]`. -/
theorem c4_witness :
    validateProtectedHeader (.map []) =
      .error "Protected header must contain 'alg' parameter" ∧
    validateProtectedHeader (.map [("1", .num (.int 999))]) =
      .error "Invalid or unsupported algorithm in protected header" ∧
    encodeSign1 { prot := .map [], unprotected := .map [], payload := .null,
                  signature := .bytes [1] } =
      .error "Protected header must contain 'alg' parameter" ∧
    encodeSign1 { prot := .map [("1", .num (.int 999))],
                  unprotected := .map [], payload := .null,
                  signature := .bytes [1] } =
      .error "Invalid or unsupported algorithm in protected header" ∧
    validateProtectedHeader (.arr []) =
      .error "Protected header must contain 'alg' parameter" ∧
    validateProtectedHeader (.arr [.num (.int 0), .num (.int (-7))]) =
      .ok () ∧
    decodeSign1 [0xd2, 0x84, 0x43, 0x82, 0x00, 0x26, 0xa0, 0xf6,
        0x44, 0x01, 0x02, 0x03, 0x04] =
      .ok { prot := .arr [.num (.int 0), .num (.int (-7))],
            unprotected := .map [], payload := .null,
            signature := .bytes [1, 2, 3, 4] } ∧
    validateProtectedHeader (.arr [.num (.int 0), .num (.int (-7))]) =
      .ok () :=
  ⟨c4_theorem.1 [] rfl,
   c4_theorem.2.1 [("1", .num (.int 999))] 999 rfl (by decide),
   c4_theorem.2.2.2.2.2.1 _ _ (c4_theorem.1 [] rfl),
   c4_theorem.2.2.2.2.2.1 _ _
     (c4_theorem.2.1 [("1", .num (.int 999))] 999 rfl (by decide)),
   c4_theorem.2.2.2.1 [] rfl,
   c4_theorem.2.2.2.2.1 [.num (.int 0), .num (.int (-7))] (-7) rfl (by decide),
   rfl,
   c4_theorem.2.2.2.2.2.2.2.2.2.2.2.2.2.2.1
     [0xd2, 0x84, 0x43, 0x82, 0x00, 0x26, 0xa0, 0xf6,
      0x44, 0x01, 0x02, 0x03, 0x04] _ rfl⟩

/-! ## Fuel agreement for the encoder

All sufficient fuels compute the same result, so the canonical wrappers can
be unfolded one layer at a time. -/

theorem encode_fuel_agree :
    ∀ n : Nat,
    (∀ v : Val, sizeOf v ≤ n → ∀ f₁ f₂ : Nat,
      2 * sizeOf v ≤ f₁ → 2 * sizeOf v ≤ f₂ →
      encodeValueF f₁ v = encodeValueF f₂ v) ∧
    (∀ l : List (String × Val), sizeOf l ≤ n → ∀ f₁ f₂ : Nat,
      2 * sizeOf l ≤ f₁ → 2 * sizeOf l ≤ f₂ →
      encodeEntriesF f₁ l = encodeEntriesF f₂ l) ∧
    (∀ xs : List Val, sizeOf xs ≤ n → ∀ f₁ f₂ : Nat,
      2 * sizeOf xs ≤ f₁ → 2 * sizeOf xs ≤ f₂ →
      encodeListF f₁ xs = encodeListF f₂ xs) := by
  intro n
  induction n using Nat.strong_induction_on with
  | _ n ih =>
    refine ⟨?_, ?_, ?_⟩
    · intro v hn f₁ f₂ h₁ h₂
      have hv1 : 1 ≤ sizeOf v := by cases v <;> simp <;> omega
      obtain ⟨a, rfl⟩ : ∃ a, f₁ = a + 1 := ⟨f₁ - 1, by omega⟩
      obtain ⟨b, rfl⟩ : ∃ b, f₂ = b + 1 := ⟨f₂ - 1, by omega⟩
      cases v with
      | num j => simp only [encodeValueF]
      | bytes bs => simp only [encodeValueF]
      | text s => simp only [encodeValueF]
      | bool bb => simp only [encodeValueF]
      | null => simp only [encodeValueF]
      | undef => simp only [encodeValueF]
      | arr xs =>
          have hs : sizeOf (Val.arr xs) = 1 + sizeOf xs := by simp
          have hxs : sizeOf xs < n := by omega
          have hlist := (ih (sizeOf xs) hxs).2.2 xs le_rfl a b (by omega) (by omega)
          simp only [encodeValueF, hlist]
      | tag t v' =>
          have hs : sizeOf (Val.tag t v') = 1 + sizeOf t + sizeOf v' := by simp
          have hst : sizeOf t = t := rfl
          have hv' : sizeOf v' < n := by omega
          obtain ⟨a', rfl⟩ : ∃ a', a = a' + 1 := ⟨a - 1, by omega⟩
          obtain ⟨b', rfl⟩ : ∃ b', b = b' + 1 := ⟨b - 1, by omega⟩
          have hval := (ih (sizeOf v') hv').1 v' le_rfl a' b' (by omega) (by omega)
          simp only [encodeValueF, encodeTaggedF, hval]
      | map l =>
          have hs : sizeOf (Val.map l) = 1 + sizeOf l := by simp
          have hl : sizeOf l < n := by omega
          simp only [encodeValueF]
          obtain ⟨a', rfl⟩ : ∃ a', a = a' + 1 := ⟨a - 1, by omega⟩
          obtain ⟨b', rfl⟩ : ∃ b', b = b' + 1 := ⟨b - 1, by omega⟩
          have hperm : sizeOf (sortEntries (jsEntriesOrder l)) = sizeOf l := by
            rw [perm_sizeOf (sortEntries_perm _),
                perm_sizeOf (jsEntriesOrder_perm _)]
          have hent := (ih (sizeOf l) hl).2.1 (sortEntries (jsEntriesOrder l))
            (by omega) a' b' (by omega) (by omega)
          have hmapb : encodeMapBodyF (a' + 1) l = encodeMapBodyF (b' + 1) l := by
            simp only [encodeMapBodyF, hent]
          cases hltag : lookupStr l "tag" with
          | none => simp only [hmapb]
          | some tv =>
              cases hlval : lookupStr l "value" with
              | none => cases tv <;> simp only [hmapb]
              | some inner =>
                  cases tv with
                  | num j =>
                      have hinner : sizeOf inner < sizeOf l := lookupStr_sizeOf hlval
                      simp only [encodeTaggedF]
                      have hval := (ih (sizeOf inner) (by omega)).1 inner le_rfl a' b'
                        (by omega) (by omega)
                      simp only [encodeTaggedF, hval]
                  | bytes bb => simp only [hmapb]
                  | text ss => simp only [hmapb]
                  | arr aa => simp only [hmapb]
                  | map mm => simp only [hmapb]
                  | tag tt vv => simp only [hmapb]
                  | bool blb => simp only [hmapb]
                  | null => simp only [hmapb]
                  | undef => simp only [hmapb]
    · intro l hn f₁ f₂ h₁ h₂
      have hl1 : 1 ≤ sizeOf l := by cases l <;> simp <;> omega
      obtain ⟨a, rfl⟩ : ∃ a, f₁ = a + 1 := ⟨f₁ - 1, by omega⟩
      obtain ⟨b, rfl⟩ : ∃ b, f₂ = b + 1 := ⟨f₂ - 1, by omega⟩
      cases l with
      | nil => simp only [encodeEntriesF]
      | cons p rest =>
          obtain ⟨k, v⟩ := p
          have hs : sizeOf ((k, v) :: rest) = 1 + (1 + sizeOf k + sizeOf v) + sizeOf rest := by
            simp
            try omega
          have hv : sizeOf v < n := by omega
          have hrest : sizeOf rest < n := by omega
          have hval := (ih (sizeOf v) hv).1 v le_rfl a b (by omega) (by omega)
          have hr := (ih (sizeOf rest) hrest).2.1 rest le_rfl a b (by omega) (by omega)
          simp only [encodeEntriesF, hval, hr]
    · intro xs hn f₁ f₂ h₁ h₂
      have hl1 : 1 ≤ sizeOf xs := by cases xs <;> simp <;> omega
      obtain ⟨a, rfl⟩ : ∃ a, f₁ = a + 1 := ⟨f₁ - 1, by omega⟩
      obtain ⟨b, rfl⟩ : ∃ b, f₂ = b + 1 := ⟨f₂ - 1, by omega⟩
      cases xs with
      | nil => simp only [encodeListF]
      | cons x rest =>
          have hs : sizeOf (x :: rest) = 1 + sizeOf x + sizeOf rest := by simp
          have hx : sizeOf x < n := by omega
          have hrest : sizeOf rest < n := by omega
          have hval := (ih (sizeOf x) hx).1 x le_rfl a b (by omega) (by omega)
          have hr := (ih (sizeOf rest) hrest).2.2 rest le_rfl a b (by omega) (by omega)
          simp only [encodeListF, hval, hr]

/-- Any sufficient fuel computes `encodeValue`. -/
theorem encodeValueF_eq {v : Val} {f : Nat} (h : 2 * sizeOf v ≤ f) :
    encodeValueF f v = encodeValue v :=
  (encode_fuel_agree (sizeOf v)).1 v le_rfl f (2 * sizeOf v) h le_rfl

/-- Any sufficient fuel computes `encodeEntryList`. -/
theorem encodeEntriesF_eq {l : List (String × Val)} {f : Nat}
    (h : 2 * sizeOf l ≤ f) : encodeEntriesF f l = encodeEntryList l :=
  (encode_fuel_agree (sizeOf l)).2.1 l le_rfl f (2 * sizeOf l) h le_rfl

/-- Any sufficient fuel computes `encodeValueList`. -/
theorem encodeListF_eq {xs : List Val} {f : Nat} (h : 2 * sizeOf xs ≤ f) :
    encodeListF f xs = encodeValueList xs :=
  (encode_fuel_agree (sizeOf xs)).2.2 xs le_rfl f (2 * sizeOf xs) h le_rfl

/-- Canonical `encodeTag` (source `encodeTag`): header then inner value. -/
def encodeTagged (t : JSNum) (v : Val) : Except String (List Nat) :=
  match t with
  | .flt _ => .error "Tag must be a non-negative integer"
  | .int n =>
      if n < 0 then .error "Tag must be a non-negative integer"
      else do
        let header ← encodeLength 6 n.toNat
        let body ← encodeValue v
        .ok (header ++ body)

/-- Canonical `encodeMap` body (source `encodeMap`). -/
def encodeMapBody (l : List (String × Val)) : Except String (List Nat) :=
  let entries := jsEntriesOrder l
  if 10000 < entries.length then .error "Map size exceeds reasonable limit"
  else do
    let header ← encodeLength 5 entries.length
    let body ← encodeEntryList (sortEntries entries)
    .ok (header ++ body)

theorem encodeTaggedF_eq {t : JSNum} {v : Val} {f : Nat}
    (h : 2 * sizeOf v + 1 ≤ f) : encodeTaggedF f t v = encodeTagged t v := by
  obtain ⟨a, rfl⟩ : ∃ a, f = a + 1 := ⟨f - 1, by omega⟩
  cases t with
  | flt b => simp only [encodeTaggedF, encodeTagged]
  | int n =>
      simp only [encodeTaggedF, encodeTagged, encodeValueF_eq (show 2 * sizeOf v ≤ a by omega)]

theorem encodeMapBodyF_eq {l : List (String × Val)} {f : Nat}
    (h : 2 * sizeOf l + 1 ≤ f) : encodeMapBodyF f l = encodeMapBody l := by
  obtain ⟨a, rfl⟩ : ∃ a, f = a + 1 := ⟨f - 1, by omega⟩
  have hperm : sizeOf (sortEntries (jsEntriesOrder l)) = sizeOf l := by
    rw [perm_sizeOf (sortEntries_perm _), perm_sizeOf (jsEntriesOrder_perm _)]
  simp only [encodeMapBodyF, encodeMapBody,
    encodeEntriesF_eq (show 2 * sizeOf (sortEntries (jsEntriesOrder l)) ≤ a by omega)]

/-- One-layer unfolding of `encodeValue` into the canonical combinators. -/
theorem encodeValue_unfold (v : Val) :
    encodeValue v =
      match v with
      | .num j => encodeNumber j
      | .bytes bs => encodeByteString bs
      | .text s => encodeTextString s
      | .arr xs =>
          if 10000 < xs.length then .error "Array length exceeds reasonable limit"
          else do
            let header ← encodeLength 4 xs.length
            let body ← encodeValueList xs
            .ok (header ++ body)
      | .map l =>
          (match lookupStr l "tag", lookupStr l "value" with
           | some (.num j), some inner => encodeTagged j inner
           | _, _ => encodeMapBody l)
      | .tag t v' => encodeTagged (.int (t : Int)) v'
      | .bool b => .ok [if b then 0xf5 else 0xf4]
      | .null => .ok [0xf6]
      | .undef => .ok [0xf7] := by
  have hv1 : 1 ≤ sizeOf v := by cases v <;> simp <;> omega
  conv_lhs => rw [show encodeValue v = encodeValueF (2 * sizeOf v) v from rfl]
  obtain ⟨a, ha⟩ : ∃ a, 2 * sizeOf v = a + 1 := ⟨2 * sizeOf v - 1, by omega⟩
  rw [ha]
  cases v with
  | num j => simp only [encodeValueF]
  | bytes bs => simp only [encodeValueF]
  | text s => simp only [encodeValueF]
  | bool b => simp only [encodeValueF]
  | null => simp only [encodeValueF]
  | undef => simp only [encodeValueF]
  | arr xs =>
      have hs : sizeOf (Val.arr xs) = 1 + sizeOf xs := by simp
      simp only [encodeValueF,
        encodeListF_eq (show 2 * sizeOf xs ≤ a by omega)]
  | tag t v' =>
      have hs : sizeOf (Val.tag t v') = 1 + sizeOf t + sizeOf v' := by simp
      simp only [encodeValueF,
        encodeTaggedF_eq (show 2 * sizeOf v' + 1 ≤ a by omega)]
  | map l =>
      have hs : sizeOf (Val.map l) = 1 + sizeOf l := by simp
      simp only [encodeValueF]
      cases hltag : lookupStr l "tag" with
      | none => simp only [encodeMapBodyF_eq (show 2 * sizeOf l + 1 ≤ a by omega)]
      | some tv =>
          cases hlval : lookupStr l "value" with
          | none =>
              cases tv <;>
                simp only [encodeMapBodyF_eq (show 2 * sizeOf l + 1 ≤ a by omega)]
          | some inner =>
              cases tv with
              | num j =>
                  have hinner : sizeOf inner < sizeOf l := lookupStr_sizeOf hlval
                  simp only [encodeTaggedF_eq (show 2 * sizeOf inner + 1 ≤ a by omega)]
              | bytes bb =>
                  simp only [encodeMapBodyF_eq (show 2 * sizeOf l + 1 ≤ a by omega)]
              | text ss =>
                  simp only [encodeMapBodyF_eq (show 2 * sizeOf l + 1 ≤ a by omega)]
              | arr aa =>
                  simp only [encodeMapBodyF_eq (show 2 * sizeOf l + 1 ≤ a by omega)]
              | map mm =>
                  simp only [encodeMapBodyF_eq (show 2 * sizeOf l + 1 ≤ a by omega)]
              | tag tt vv =>
                  simp only [encodeMapBodyF_eq (show 2 * sizeOf l + 1 ≤ a by omega)]
              | bool blb =>
                  simp only [encodeMapBodyF_eq (show 2 * sizeOf l + 1 ≤ a by omega)]
              | null =>
                  simp only [encodeMapBodyF_eq (show 2 * sizeOf l + 1 ≤ a by omega)]
              | undef =>
                  simp only [encodeMapBodyF_eq (show 2 * sizeOf l + 1 ≤ a by omega)]

/-- `encodeEntryList` on the empty list. -/
theorem encodeEntryList_nil : encodeEntryList [] = .ok [] := rfl

/-- One-layer unfolding of `encodeEntryList` on a cons. -/
theorem encodeEntryList_cons (key : String) (v : Val) (rest : List (String × Val)) :
    encodeEntryList ((key, v) :: rest) =
      (do
        let keyBytes ←
          match jsStringToNumber key with
          | some numKey => encodeNumber numKey
          | none => encodeTextString key
        let valBytes ← encodeValue v
        let restBytes ← encodeEntryList rest
        .ok (keyBytes ++ valBytes ++ restBytes)) := by
  conv_lhs => rw [show encodeEntryList ((key, v) :: rest) =
    encodeEntriesF (2 * sizeOf ((key, v) :: rest)) ((key, v) :: rest) from rfl]
  have hs : sizeOf ((key, v) :: rest) = 1 + (1 + sizeOf key + sizeOf v) + sizeOf rest := by
    simp
    try omega
  obtain ⟨a, ha⟩ : ∃ a, 2 * sizeOf ((key, v) :: rest) = a + 1 :=
    ⟨2 * sizeOf ((key, v) :: rest) - 1, by omega⟩
  rw [ha]
  simp only [encodeEntriesF,
    encodeValueF_eq (show 2 * sizeOf v ≤ a by omega),
    encodeEntriesF_eq (show 2 * sizeOf rest ≤ a by omega)]

/-- `encodeValueList` on the empty list. -/
theorem encodeValueList_nil : encodeValueList [] = .ok [] := rfl

/-- One-layer unfolding of `encodeValueList` on a cons. -/
theorem encodeValueList_cons (x : Val) (rest : List Val) :
    encodeValueList (x :: rest) =
      (do
        let e ← encodeValue x
        let restBytes ← encodeValueList rest
        .ok (e ++ restBytes)) := by
  conv_lhs => rw [show encodeValueList (x :: rest) =
    encodeListF (2 * sizeOf (x :: rest)) (x :: rest) from rfl]
  have hs : sizeOf (x :: rest) = 1 + sizeOf x + sizeOf rest := by simp
  obtain ⟨a, ha⟩ : ∃ a, 2 * sizeOf (x :: rest) = a + 1 :=
    ⟨2 * sizeOf (x :: rest) - 1, by omega⟩
  rw [ha]
  simp only [encodeListF,
    encodeValueF_eq (show 2 * sizeOf x ≤ a by omega),
    encodeListF_eq (show 2 * sizeOf rest ≤ a by omega)]

/-! ### The container-size invariant of encodable values

`smallValF` walks a value exactly as the encoder does (same fuel
discipline, same tagged-object dispatch, same `Object.entries` view of a
map) and checks the two 10000 caps at every level: arrays have at most
10000 elements, and every object encoded as a map has at most 10000
entries.  It states the "checked recursively at every level" half of the
resource-ceiling property. -/

mutual

/-- All containers reachable by the encoder from `v` are within the
10000-element cap (`false` when fuel runs out, mirroring the encoder's
fuel error). -/
def smallValF : Nat → Val → Bool
  | 0, _ => false
  | fuel + 1, v =>
      match v with
      | .arr xs => decide (xs.length ≤ 10000) && smallListF fuel xs
      | .map l =>
          match lookupStr l "tag", lookupStr l "value" with
          | some (.num j), some inner => smallTaggedF fuel j inner
          | _, _ => smallMapBodyF fuel l
      | .tag t v' => smallTaggedF fuel (.int (t : Int)) v'
      | _ => true

/-- Cap check under a tag: only the inner value carries containers. -/
def smallTaggedF : Nat → JSNum → Val → Bool
  | 0, _, _ => false
  | fuel + 1, _, v => smallValF fuel v

/-- Cap check of a map body: at most 10000 entries, and the cap holds in
every entry value. -/
def smallMapBodyF : Nat → List (String × Val) → Bool
  | 0, _ => false
  | fuel + 1, l =>
      decide ((jsEntriesOrder l).length ≤ 10000) &&
        smallEntriesF fuel (sortEntries (jsEntriesOrder l))

/-- Cap check in each entry value of a map body. -/
def smallEntriesF : Nat → List (String × Val) → Bool
  | 0, _ => false
  | _ + 1, [] => true
  | fuel + 1, (_, v) :: rest => smallValF fuel v && smallEntriesF fuel rest

/-- Cap check in each element of an array. -/
def smallListF : Nat → List Val → Bool
  | 0, _ => false
  | _ + 1, [] => true
  | fuel + 1, x :: xs => smallValF fuel x && smallListF fuel xs

end

/-- Whenever the encoder succeeds, every container it walked was within
the 10000 cap — the caps are enforced at every nesting level. -/
theorem encodeF_small : ∀ fuel : Nat,
    (∀ v out, encodeValueF fuel v = .ok out → smallValF fuel v = true) ∧
    (∀ j v out, encodeTaggedF fuel j v = .ok out → smallTaggedF fuel j v = true) ∧
    (∀ l out, encodeMapBodyF fuel l = .ok out → smallMapBodyF fuel l = true) ∧
    (∀ l out, encodeEntriesF fuel l = .ok out → smallEntriesF fuel l = true) ∧
    (∀ xs out, encodeListF fuel xs = .ok out → smallListF fuel xs = true) := by
  intro fuel
  induction fuel with
  | zero =>
      exact ⟨fun v out h => by simp [encodeValueF] at h,
             fun j v out h => by simp [encodeTaggedF] at h,
             fun l out h => by simp [encodeMapBodyF] at h,
             fun l out h => by simp [encodeEntriesF] at h,
             fun xs out h => by simp [encodeListF] at h⟩
  | succ f ih =>
      obtain ⟨ihv, iht, ihm, ihe, ihl⟩ := ih
      refine ⟨?_, ?_, ?_, ?_, ?_⟩
      · intro v out h
        cases v with
        | num j => simp [smallValF]
        | bytes bs => simp [smallValF]
        | text s => simp [smallValF]
        | bool b => simp [smallValF]
        | null => simp [smallValF]
        | undef => simp [smallValF]
        | arr xs =>
            simp only [encodeValueF] at h
            split at h
            · simp at h
            · rcases except_bind_ok.mp h with ⟨hd, hhd, h2⟩
              rcases except_bind_ok.mp h2 with ⟨body, hbody, h3⟩
              simp only [smallValF, Bool.and_eq_true, decide_eq_true_eq]
              exact ⟨by omega, ihl xs body hbody⟩
        | tag t v' =>
            simp only [encodeValueF] at h
            simp only [smallValF]
            exact iht _ _ _ h
        | map l =>
            revert h
            simp only [encodeValueF, smallValF]
            cases htag : lookupStr l "tag" with
            | none => intro h; exact ihm _ _ h
            | some tv =>
                cases hval : lookupStr l "value" with
                | none => cases tv <;> (intro h; exact ihm _ _ h)
                | some inner =>
                    cases tv with
                    | num j => intro h; exact iht _ _ _ h
                    | bytes bb => intro h; exact ihm _ _ h
                    | text ss => intro h; exact ihm _ _ h
                    | arr aa => intro h; exact ihm _ _ h
                    | map mm => intro h; exact ihm _ _ h
                    | tag tt vv => intro h; exact ihm _ _ h
                    | bool blb => intro h; exact ihm _ _ h
                    | null => intro h; exact ihm _ _ h
                    | undef => intro h; exact ihm _ _ h
      · intro j v out h
        cases j with
        | flt b => simp [encodeTaggedF] at h
        | int n =>
            simp only [encodeTaggedF] at h
            split at h
            · simp at h
            · rcases except_bind_ok.mp h with ⟨hd, hhd, h2⟩
              rcases except_bind_ok.mp h2 with ⟨body, hbody, h3⟩
              simp only [smallTaggedF]
              exact ihv _ _ hbody
      · intro l out h
        simp only [encodeMapBodyF] at h
        split at h
        · simp at h
        · rcases except_bind_ok.mp h with ⟨hd, hhd, h2⟩
          rcases except_bind_ok.mp h2 with ⟨body, hbody, h3⟩
          simp only [smallMapBodyF, Bool.and_eq_true, decide_eq_true_eq]
          exact ⟨by omega, ihe _ _ hbody⟩
      · intro l out h
        cases l with
        | nil => simp [smallEntriesF]
        | cons p rest =>
            obtain ⟨k, v⟩ := p
            simp only [encodeEntriesF] at h
            revert h
            cases hk : jsStringToNumber k <;>
              · intro h
                rcases except_bind_ok.mp h with ⟨kb, hkb, h2⟩
                rcases except_bind_ok.mp h2 with ⟨vb, hvb, h3⟩
                rcases except_bind_ok.mp h3 with ⟨rb, hrb, h4⟩
                simp only [smallEntriesF, Bool.and_eq_true]
                exact ⟨ihv _ _ hvb, ihe _ _ hrb⟩
      · intro xs out h
        cases xs with
        | nil => simp [smallListF]
        | cons x rest =>
            simp only [encodeListF] at h
            rcases except_bind_ok.mp h with ⟨eb, heb, h2⟩
            rcases except_bind_ok.mp h2 with ⟨rb, hrb, h3⟩
            simp only [smallListF, Bool.and_eq_true]
            exact ⟨ihv _ _ heb, ihl _ _ hrb⟩

/-- C8: the two resource ceilings are enforced as hard failures: a buffer
longer than 16 MiB makes `decode` fail at entry with the exact size
message; `encode` fails whenever the serialized output exceeds 16 MiB, so
in particular an oversized byte-string input never encodes; an array with
more than 10000 elements or a (non-tagged-object) map with more than
10000 entries makes `encodeValue` fail with the exact cap messages, and
— since `encodeValue` runs recursively and succeeds only when
`smallValF` holds — the caps hold at every nesting level of an encodable
value; on the decode side, `decodeArray` and `decodeMap` (invoked by
`decodeItem` at every nesting level) fail with the same cap messages as
soon as the decoded length field exceeds 10000. -/
theorem c8_theorem :
    (∀ buf : List Nat, 16777216 < buf.length →
      decode buf = .error "Buffer exceeds maximum size of 16777216 bytes") ∧
    (∀ (v : Val) (out : List Nat), encodeValue v = .ok out →
      16777216 < out.length →
      encode v = .error "Encoded data exceeds maximum size of 16777216 bytes") ∧
    (∀ bs : List Nat, 16777216 < bs.length →
      ∀ out, encode (.bytes bs) ≠ .ok out) ∧
    (∀ xs : List Val, 10000 < xs.length →
      encodeValue (.arr xs) = .error "Array length exceeds reasonable limit") ∧
    (∀ l : List (String × Val), lookupStr l "tag" = none →
      10000 < (jsEntriesOrder l).length →
      encodeValue (.map l) = .error "Map size exceeds reasonable limit") ∧
    (∀ (fuel : Nat) (v : Val) (out : List Nat),
      encodeValueF fuel v = .ok out → smallValF fuel v = true) ∧
    (∀ (item : Nat → Except String (Val × Nat)) (buf : List Nat)
       (off ai len off2 : Nat), readLength buf off ai = .ok (len, off2) →
      10000 < len →
      decodeArray item buf off ai = .error "Array length exceeds reasonable limit") ∧
    (∀ (item : Nat → Except String (Val × Nat)) (buf : List Nat)
       (off ai len off2 : Nat), readLength buf off ai = .ok (len, off2) →
      10000 < len →
      decodeMap item buf off ai = .error "Map size exceeds reasonable limit") := by
  refine ⟨?_, ?_, ?_, ?_, ?_, ?_, ?_, ?_⟩
  · intro buf h
    simp only [decode]
    rw [if_pos h]
  · intro v out h1 h2
    simp only [encode]
    rw [h1, except_ok_bind, if_pos h2]
  · intro bs h out
    have hv : encodeValue (.bytes bs) = encodeByteString bs :=
      encodeValue_unfold (Val.bytes bs)
    cases hL : encodeLength 2 bs.length with
    | error e =>
        have hb : encodeByteString bs = .error e := by
          simp only [encodeByteString]
          rw [hL, except_error_bind]
        simp only [encode]
        rw [hv, hb, except_error_bind]
        simp
    | ok hd =>
        have hb : encodeByteString bs = .ok (hd ++ bs) := by
          simp only [encodeByteString]
          rw [hL, except_ok_bind]
        simp only [encode]
        rw [hv, hb, except_ok_bind,
          if_pos (by simp only [List.length_append]; omega)]
        simp
  · intro xs h
    exact (encodeValue_unfold (Val.arr xs)).trans (if_pos h)
  · intro l htag h
    have hv0 : encodeValue (.map l) =
        (match lookupStr l "tag", lookupStr l "value" with
         | some (.num j), some inner => encodeTagged j inner
         | _, _ => encodeMapBody l) := encodeValue_unfold (Val.map l)
    rw [htag] at hv0
    rw [hv0]
    show encodeMapBody l = _
    simp only [encodeMapBody]
    rw [if_pos h]
  · intro fuel v out h
    exact (encodeF_small fuel).1 v out h
  · intro item buf off ai len off2 hrl h
    simp only [decodeArray]
    rw [hrl, except_ok_bind]
    simp only [if_pos h]
  · intro item buf off ai len off2 hrl h
    simp only [decodeMap]
    rw [hrl, except_ok_bind]
    simp only [if_pos h]

/-- Concrete instances of every conjunct of the C8 theorem. -/
theorem c8_witness :
    decode (List.replicate 16777217 0) =
      .error "Buffer exceeds maximum size of 16777216 bytes" ∧
    encode (.bytes (List.replicate 16777216 0)) =
      .error "Encoded data exceeds maximum size of 16777216 bytes" ∧
    encode (.bytes (List.replicate 16777217 0)) ≠ .ok [] ∧
    encodeValue (.arr (List.replicate 10001 Val.null)) =
      .error "Array length exceeds reasonable limit" ∧
    encodeValue (.map (List.replicate 10001 ("k", Val.null))) =
      .error "Map size exceeds reasonable limit" ∧
    smallValF 3 (Val.arr [Val.null]) = true ∧
    decodeArray (decodeItem 1 [39, 17]) [39, 17] 0 25 =
      .error "Array length exceeds reasonable limit" ∧
    decodeMap (decodeItem 1 [39, 17]) [39, 17] 0 25 =
      .error "Map size exceeds reasonable limit" := by
  have hlk : ∀ n : Nat, lookupStr (List.replicate n ("k", Val.null)) "tag" = none := by
    intro n
    induction n with
    | zero => rfl
    | succ m ihm =>
        rw [List.replicate_succ]
        simp only [lookupStr] at ihm ⊢
        rw [List.find?_cons_of_neg _ (by decide)]
        exact ihm
  have hbytes : encodeValue (.bytes (List.replicate 16777216 0)) =
      .ok ([90, 1, 0, 0, 0] ++ List.replicate 16777216 0) := by
    have hv : encodeValue (.bytes (List.replicate 16777216 0)) =
        encodeByteString (List.replicate 16777216 0) :=
      encodeValue_unfold (Val.bytes (List.replicate 16777216 0))
    rw [hv]
    simp only [encodeByteString, List.length_replicate]
    rw [show encodeLength 2 16777216 = Except.ok [90, 1, 0, 0, 0] from rfl,
      except_ok_bind]
  refine ⟨c8_theorem.1 _ (by rw [List.length_replicate]; omega),
    c8_theorem.2.1 _ _ hbytes
      (by rw [List.length_append, List.length_replicate,
            show [90, 1, 0, 0, 0].length = 5 from rfl]
          omega),
    c8_theorem.2.2.1 _ (by rw [List.length_replicate]; omega) [],
    c8_theorem.2.2.2.1 _ (by rw [List.length_replicate]; omega),
    c8_theorem.2.2.2.2.1 _ (hlk 10001)
      (by rw [List.Perm.length_eq (jsEntriesOrder_perm _), List.length_replicate]
          omega),
    c8_theorem.2.2.2.2.2.1 3 (Val.arr [Val.null]) [129, 246] rfl,
    c8_theorem.2.2.2.2.2.2.1 _ _ 0 25 10001 2 rfl (by omega),
    c8_theorem.2.2.2.2.2.2.2 _ _ 0 25 10001 2 rfl (by omega)⟩

/-! ### Stability of the decoder under trailing bytes

`CBOR.decode` reads one item from offset 0 and never inspects what
follows.  The lemmas in this section show that a successful decode of an
item is unchanged when bytes are appended to the buffer (all reads are
bounds-checked inside the original buffer) and when the decoding fuel of
the model grows. -/

theorem take_append_le {α : Type} :
    ∀ (l₁ : List α) (l₂ : List α) (n : Nat), n ≤ l₁.length →
    (l₁ ++ l₂).take n = l₁.take n := by
  intro l₁
  induction l₁ with
  | nil =>
      intro l₂ n h
      simp at h
      subst h
      simp
  | cons a l ihl =>
      intro l₂ n h
      cases n with
      | zero => simp
      | succ m =>
          simp only [List.cons_append, List.take_succ_cons]
          rw [ihl l₂ m (by simpa using h)]

theorem drop_append_le {α : Type} :
    ∀ (l₁ : List α) (l₂ : List α) (n : Nat), n ≤ l₁.length →
    (l₁ ++ l₂).drop n = l₁.drop n ++ l₂ := by
  intro l₁
  induction l₁ with
  | nil =>
      intro l₂ n h
      simp at h
      subst h
      simp
  | cons a l ihl =>
      intro l₂ n h
      cases n with
      | zero => simp
      | succ m =>
          simp only [List.cons_append, List.drop_succ_cons]
          exact ihl l₂ m (by simpa using h)

/-- A bounds-checked single-byte read is unchanged by trailing bytes. -/
theorem byteAt_append {buf t : List Nat} {i : Nat} (h : i < buf.length) :
    byteAt (buf ++ t) i = byteAt buf i := by
  simp only [byteAt]
  induction buf generalizing i with
  | nil => simp at h
  | cons a l ihl =>
      cases i with
      | zero => simp
      | succ m =>
          simp only [List.cons_append, List.getD_cons_succ]
          exact ihl (by simpa using h)

/-- A bounds-checked slice is unchanged by trailing bytes. -/
theorem slice_append {buf t : List Nat} {off n : Nat}
    (h : off + n ≤ buf.length) :
    ((buf ++ t).drop off).take n = (buf.drop off).take n := by
  rw [drop_append_le buf t off (by omega),
    take_append_le (buf.drop off) t n (by rw [List.length_drop]; omega)]

/-- A bounds-checked multi-byte big-endian read is unchanged by trailing
bytes. -/
theorem readBE_append {buf t : List Nat} {off n : Nat}
    (h : off + n ≤ buf.length) :
    readBE (buf ++ t) off n = readBE buf off n := by
  simp only [readBE]
  rw [slice_append h]

theorem ensureBytes_ok {buf : List Nat} {off len : Nat} {u : Unit}
    (h : ensureBytes buf off len = .ok u) : off + len ≤ buf.length := by
  simp only [ensureBytes] at h
  split at h
  · exact absurd h (by simp)
  · omega

theorem ensureBytes_le {buf : List Nat} {off len : Nat}
    (h : off + len ≤ buf.length) : ensureBytes buf off len = .ok () := by
  simp only [ensureBytes]
  rw [if_neg (by omega)]

/-- `readLength` is unchanged by trailing bytes when it succeeds. -/
theorem readLength_append {buf t : List Nat} {off ai : Nat} {r : Nat × Nat}
    (h : readLength buf off ai = .ok r) :
    readLength (buf ++ t) off ai = .ok r := by
  simp only [readLength] at h ⊢
  split_ifs at h ⊢
  all_goals first
    | exact h
    | (rcases except_bind_ok.mp h with ⟨u, hu, hok⟩
       have hb := ensureBytes_ok hu
       rw [ensureBytes_le (show off + _ ≤ (buf ++ t).length by
             rw [List.length_append]; omega), except_ok_bind]
       first
         | (rw [byteAt_append (by omega)]; exact hok)
         | (rw [readBE_append (by omega)]; exact hok))
    | simp at h

/-- `decodeUnsignedInteger` is unchanged by trailing bytes when it
succeeds. -/
theorem decodeUnsignedInteger_append {buf t : List Nat} {off ai : Nat}
    {r : Val × Nat} (h : decodeUnsignedInteger buf off ai = .ok r) :
    decodeUnsignedInteger (buf ++ t) off ai = .ok r := by
  simp only [decodeUnsignedInteger] at h ⊢
  split_ifs at h ⊢
  all_goals first
    | exact h
    | (rcases except_bind_ok.mp h with ⟨u, hu, hok⟩
       have hb := ensureBytes_ok hu
       rw [ensureBytes_le (show off + _ ≤ (buf ++ t).length by
             rw [List.length_append]; omega), except_ok_bind]
       first
         | (rw [byteAt_append (by omega)]; exact hok)
         | (rw [readBE_append (by omega)]; exact hok))
    | simp at h

/-- `decodeNegativeInteger` is unchanged by trailing bytes when it
succeeds. -/
theorem decodeNegativeInteger_append {buf t : List Nat} {off ai : Nat}
    {r : Val × Nat} (h : decodeNegativeInteger buf off ai = .ok r) :
    decodeNegativeInteger (buf ++ t) off ai = .ok r := by
  simp only [decodeNegativeInteger] at h ⊢
  split_ifs at h ⊢
  all_goals first
    | exact h
    | (rcases except_bind_ok.mp h with ⟨u, hu, hok⟩
       have hb := ensureBytes_ok hu
       rw [ensureBytes_le (show off + _ ≤ (buf ++ t).length by
             rw [List.length_append]; omega), except_ok_bind]
       first
         | (rw [byteAt_append (by omega)]; exact hok)
         | (rw [readBE_append (by omega)]; exact hok))
    | simp at h

/-- `decodeByteString` is unchanged by trailing bytes when it succeeds. -/
theorem decodeByteString_append {buf t : List Nat} {off ai : Nat}
    {r : Val × Nat} (h : decodeByteString buf off ai = .ok r) :
    decodeByteString (buf ++ t) off ai = .ok r := by
  simp only [decodeByteString] at h ⊢
  rcases except_bind_ok.mp h with ⟨⟨len, newOff⟩, hrl, h2⟩
  refine except_bind_ok.mpr ⟨(len, newOff), readLength_append hrl, ?_⟩
  rcases except_bind_ok.mp h2 with ⟨u, hu, hok⟩
  have hb := ensureBytes_ok hu
  refine except_bind_ok.mpr ⟨(), ensureBytes_le (show newOff + len ≤ (buf ++ t).length by
    rw [List.length_append]; omega), ?_⟩
  show Except.ok (Val.bytes (((buf ++ t).drop newOff).take len), newOff + len) = _
  rw [slice_append (by omega)]
  exact hok

/-- `decodeTextString` is unchanged by trailing bytes when it succeeds. -/
theorem decodeTextString_append {buf t : List Nat} {off ai : Nat}
    {r : Val × Nat} (h : decodeTextString buf off ai = .ok r) :
    decodeTextString (buf ++ t) off ai = .ok r := by
  simp only [decodeTextString] at h ⊢
  rcases except_bind_ok.mp h with ⟨⟨len, newOff⟩, hrl, h2⟩
  refine except_bind_ok.mpr ⟨(len, newOff), readLength_append hrl, ?_⟩
  rcases except_bind_ok.mp h2 with ⟨u, hu, hok⟩
  have hb := ensureBytes_ok hu
  refine except_bind_ok.mpr ⟨(), ensureBytes_le (show newOff + len ≤ (buf ++ t).length by
    rw [List.length_append]; omega), ?_⟩
  show (match utf8Decode (((buf ++ t).drop newOff).take len) with
        | some s => Except.ok (Val.text s, newOff + len)
        | none => Except.error "Invalid UTF-8 sequence in text string") = _
  rw [slice_append (by omega)]
  exact hok

/-- `decodeSpecial` is unchanged by trailing bytes when it succeeds. -/
theorem decodeSpecial_append {buf t : List Nat} {off ai : Nat}
    {r : Val × Nat} (h : decodeSpecial buf off ai = .ok r) :
    decodeSpecial (buf ++ t) off ai = .ok r := by
  simp only [decodeSpecial] at h ⊢
  by_cases h20 : ai = 20
  · rw [if_pos h20] at h ⊢
    exact h
  rw [if_neg h20] at h ⊢
  by_cases h21 : ai = 21
  · rw [if_pos h21] at h ⊢
    exact h
  rw [if_neg h21] at h ⊢
  by_cases h22 : ai = 22
  · rw [if_pos h22] at h ⊢
    exact h
  rw [if_neg h22] at h ⊢
  by_cases h23 : ai = 23
  · rw [if_pos h23] at h ⊢
    exact h
  rw [if_neg h23] at h ⊢
  by_cases h25 : ai = 25
  · rw [if_pos h25] at h ⊢
    rcases except_bind_ok.mp h with ⟨u, hu, hok⟩
    have hb := ensureBytes_ok hu
    split at hok
    · simp at hok
    · rename_i hlt4
      refine except_bind_ok.mpr ⟨(), ensureBytes_le (by rw [List.length_append]; omega), ?_⟩
      show (if (buf ++ t).length < off + 4 then _ else _) = _
      rw [if_neg (by rw [List.length_append]; omega)]
      rw [readBE_append (by omega)]
      exact hok
  rw [if_neg h25] at h ⊢
  by_cases h26 : ai = 26
  · rw [if_pos h26] at h ⊢
    rcases except_bind_ok.mp h with ⟨u, hu, hok⟩
    have hb := ensureBytes_ok hu
    refine except_bind_ok.mpr ⟨(), ensureBytes_le (by rw [List.length_append]; omega), ?_⟩
    show Except.ok (Val.num (classifyBits (f32ToF64Bits (readBE (buf ++ t) off 4))), off + 4) = _
    rw [readBE_append (by omega)]
    exact hok
  rw [if_neg h26] at h ⊢
  by_cases h27 : ai = 27
  · rw [if_pos h27] at h ⊢
    rcases except_bind_ok.mp h with ⟨u, hu, hok⟩
    have hb := ensureBytes_ok hu
    refine except_bind_ok.mpr ⟨(), ensureBytes_le (by rw [List.length_append]; omega), ?_⟩
    show Except.ok (Val.num (classifyBits (readBE (buf ++ t) off 8)), off + 8) = _
    rw [readBE_append (by omega)]
    exact hok
  rw [if_neg h27] at h ⊢
  simp at h

/-- A successful run of `decodeSeqN` is preserved by any item decoder
that refines the original on successes. -/
theorem decodeSeqN_mono {item item' : Nat → Except String (Val × Nat)}
    (hitem : ∀ o rr, item o = .ok rr → item' o = .ok rr) :
    ∀ (n off : Nat) (r : List Val × Nat),
    decodeSeqN item n off = .ok r → decodeSeqN item' n off = .ok r := by
  intro n
  induction n with
  | zero => intro off r h; exact h
  | succ m ihm =>
      intro off r h
      simp only [decodeSeqN] at h ⊢
      rcases except_bind_ok.mp h with ⟨⟨v, off1⟩, hv, h2⟩
      refine except_bind_ok.mpr ⟨(v, off1), hitem _ _ hv, ?_⟩
      rcases except_bind_ok.mp h2 with ⟨⟨vs, off2⟩, hvs, h3⟩
      exact except_bind_ok.mpr ⟨(vs, off2), ihm _ _ hvs, h3⟩

/-- A successful run of `decodePairsN` is preserved by any item decoder
that refines the original on successes. -/
theorem decodePairsN_mono {item item' : Nat → Except String (Val × Nat)}
    (hitem : ∀ o rr, item o = .ok rr → item' o = .ok rr) :
    ∀ (n off : Nat) (acc : List (String × Val)) (r : List (String × Val) × Nat),
    decodePairsN item n off acc = .ok r → decodePairsN item' n off acc = .ok r := by
  intro n
  induction n with
  | zero => intro off acc r h; exact h
  | succ m ihm =>
      intro off acc r h
      simp only [decodePairsN] at h ⊢
      rcases except_bind_ok.mp h with ⟨⟨key, keyOff⟩, hk, h2⟩
      refine except_bind_ok.mpr ⟨(key, keyOff), hitem _ _ hk, ?_⟩
      cases key with
      | num j =>
          dsimp only at h2 ⊢
          rw [except_ok_bind] at h2 ⊢
          rcases except_bind_ok.mp h2 with ⟨d, hv, h4⟩
          exact except_bind_ok.mpr ⟨d, hitem _ _ hv, ihm _ _ _ h4⟩
      | text s =>
          dsimp only at h2 ⊢
          rw [except_ok_bind] at h2 ⊢
          rcases except_bind_ok.mp h2 with ⟨d, hv, h4⟩
          exact except_bind_ok.mpr ⟨d, hitem _ _ hv, ihm _ _ _ h4⟩
      | bytes bs =>
          dsimp only at h2
          rw [except_error_bind] at h2
          exact absurd h2 (by simp)
      | arr xs =>
          dsimp only at h2
          rw [except_error_bind] at h2
          exact absurd h2 (by simp)
      | map l =>
          dsimp only at h2
          rw [except_error_bind] at h2
          exact absurd h2 (by simp)
      | tag tt vv =>
          dsimp only at h2
          rw [except_error_bind] at h2
          exact absurd h2 (by simp)
      | bool b =>
          dsimp only at h2
          rw [except_error_bind] at h2
          exact absurd h2 (by simp)
      | null =>
          dsimp only at h2
          rw [except_error_bind] at h2
          exact absurd h2 (by simp)
      | undef =>
          dsimp only at h2
          rw [except_error_bind] at h2
          exact absurd h2 (by simp)

/-- A successful `decodeArray` survives trailing bytes and an item-decoder
refinement. -/
theorem decodeArray_extend {item item' : Nat → Except String (Val × Nat)}
    {buf t : List Nat} {off ai : Nat} {r : Val × Nat}
    (hitem : ∀ o rr, item o = .ok rr → item' o = .ok rr)
    (h : decodeArray item buf off ai = .ok r) :
    decodeArray item' (buf ++ t) off ai = .ok r := by
  simp only [decodeArray] at h ⊢
  rcases except_bind_ok.mp h with ⟨⟨len, newOff⟩, hrl, h2⟩
  refine except_bind_ok.mpr ⟨(len, newOff), readLength_append hrl, ?_⟩
  by_cases hcap : 10000 < len
  · rw [if_pos hcap] at h2
    simp at h2
  · rw [if_neg hcap] at h2
    show (if 10000 < len then _ else _) = _
    rw [if_neg hcap]
    rcases except_bind_ok.mp h2 with ⟨⟨items, o⟩, hseq, h3⟩
    exact except_bind_ok.mpr ⟨(items, o), decodeSeqN_mono hitem _ _ _ hseq, h3⟩

/-- A successful `decodeMap` survives trailing bytes and an item-decoder
refinement. -/
theorem decodeMap_extend {item item' : Nat → Except String (Val × Nat)}
    {buf t : List Nat} {off ai : Nat} {r : Val × Nat}
    (hitem : ∀ o rr, item o = .ok rr → item' o = .ok rr)
    (h : decodeMap item buf off ai = .ok r) :
    decodeMap item' (buf ++ t) off ai = .ok r := by
  simp only [decodeMap] at h ⊢
  rcases except_bind_ok.mp h with ⟨⟨numPairs, newOff⟩, hrl, h2⟩
  refine except_bind_ok.mpr ⟨(numPairs, newOff), readLength_append hrl, ?_⟩
  by_cases hcap : 10000 < numPairs
  · rw [if_pos hcap] at h2
    simp at h2
  · rw [if_neg hcap] at h2
    show (if 10000 < numPairs then _ else _) = _
    rw [if_neg hcap]
    rcases except_bind_ok.mp h2 with ⟨⟨entries, o⟩, hpairs, h3⟩
    exact except_bind_ok.mpr ⟨(entries, o), decodePairsN_mono hitem _ _ _ _ hpairs, h3⟩

/-- A successful `decodeTag` survives trailing bytes and an item-decoder
refinement. -/
theorem decodeTag_extend {item item' : Nat → Except String (Val × Nat)}
    {buf t : List Nat} {off ai : Nat} {r : Val × Nat}
    (hitem : ∀ o rr, item o = .ok rr → item' o = .ok rr)
    (h : decodeTag item buf off ai = .ok r) :
    decodeTag item' (buf ++ t) off ai = .ok r := by
  simp only [decodeTag] at h ⊢
  rcases except_bind_ok.mp h with ⟨⟨tg, newOff⟩, hrl, h2⟩
  refine except_bind_ok.mpr ⟨(tg, newOff), readLength_append hrl, ?_⟩
  rcases except_bind_ok.mp h2 with ⟨⟨value, finalOff⟩, hv, h3⟩
  exact except_bind_ok.mpr ⟨(value, finalOff), hitem _ _ hv, h3⟩

/-- A successful `decodeItem` is unchanged by appending trailing bytes and
by increasing the fuel. -/
theorem decodeItem_extend :
    ∀ (f : Nat) {buf : List Nat} {off : Nat} {r : Val × Nat},
    decodeItem f buf off = .ok r → ∀ (t : List Nat) (f' : Nat), f ≤ f' →
    decodeItem f' (buf ++ t) off = .ok r := by
  intro f
  induction f with
  | zero =>
      intro buf off r h t f' hf
      simp [decodeItem] at h
  | succ g ih =>
      intro buf off r h t f' hf
      obtain ⟨g', rfl⟩ : ∃ g', f' = g' + 1 := ⟨f' - 1, by omega⟩
      simp only [decodeItem] at h ⊢
      by_cases hoff : buf.length ≤ off
      · rw [if_pos hoff] at h
        simp at h
      · rw [if_neg hoff] at h
        rw [if_neg (show ¬((buf ++ t).length ≤ off) by
          rw [List.length_append]; omega)]
        rw [byteAt_append (by omega)]
        split_ifs at h ⊢
        · exact decodeUnsignedInteger_append h
        · exact decodeNegativeInteger_append h
        · exact decodeByteString_append h
        · exact decodeTextString_append h
        · exact decodeArray_extend (fun o rr hh => ih hh t g' (by omega)) h
        · exact decodeMap_extend (fun o rr hh => ih hh t g' (by omega)) h
        · exact decodeTag_extend (fun o rr hh => ih hh t g' (by omega)) h
        · exact decodeSpecial_append h

/-- C10 counterexample: `[0x00]` is a well-formed CBOR item (the integer
0), yet with 16 MiB of trailing bytes appended `decode` raises the
buffer-size error instead of returning the item. -/
theorem c10_counterexample :
    decodeFirstItem [0] 0 = .ok (.num (.int 0), 1) ∧
    decode ([0] ++ List.replicate 16777216 0) =
      .error "Buffer exceeds maximum size of 16777216 bytes" := by
  refine ⟨rfl, ?_⟩
  simp only [decode]
  rw [if_pos (by rw [List.length_append, List.length_replicate,
    show ([0] : List Nat).length = 1 from rfl]; omega)]

/-- C10 (amended): when a buffer begins with one well-formed CBOR item,
appending arbitrary trailing bytes leaves `decode` returning that first
item and silently ignoring the rest — provided the total buffer stays
within the 16 MiB input cap (beyond the cap, `decode` fails at entry, as
the counterexample shows). -/
theorem c10_theorem (buf trailing : List Nat) (v : Val) (off : Nat)
    (h : decodeFirstItem buf 0 = .ok (v, off))
    (hlen : (buf ++ trailing).length ≤ 16777216) :
    decode (buf ++ trailing) = .ok v := by
  simp only [decode]
  rw [if_neg (by omega)]
  simp only [decodeFirstItem] at h
  rw [show decodeFirstItem (buf ++ trailing) 0 =
      decodeItem ((buf ++ trailing).length + 1) (buf ++ trailing) 0 from rfl]
  rw [decodeItem_extend (buf.length + 1) h trailing
    ((buf ++ trailing).length + 1) (by rw [List.length_append]; omega)]
  rfl

/-- The C10 theorem at a concrete input: `[0x00]` followed by the
trailing bytes `[1, 2, 3]` still decodes to the integer 0. -/
theorem c10_witness :
    decodeFirstItem [0] 0 = .ok (.num (.int 0), 1) ∧
    ([0] ++ [1, 2, 3] : List Nat).length ≤ 16777216 ∧
    decode ([0] ++ [1, 2, 3]) = .ok (.num (.int 0)) :=
  ⟨rfl, by decide, c10_theorem [0] [1, 2, 3] (.num (.int 0)) 1 rfl (by decide)⟩

/-! ### The JavaScript string order is a strict total order

`Array.prototype.sort` with the comparator `(a, b) => a < b ? -1 : a > b
? 1 : 0` orders entries by `jsStrLt` on the keys; the lemmas here give
the order-theoretic facts (asymmetry, transitivity, totality on distinct
strings, via injectivity of the UTF-16 unit decomposition) that make the
sorted entry list of a map with distinct keys unique. -/

theorem lexLt_cons_iff {x y : Nat} {xs ys : List Nat} :
    lexLt (x :: xs) (y :: ys) = true ↔ x < y ∨ (x = y ∧ lexLt xs ys = true) := by
  simp only [lexLt]
  split_ifs with h₁ h₂
  · simp [h₁]
  · simp
    omega
  · have hxy : x = y := by omega
    simp [hxy]

theorem lexLt_asymm : ∀ {a b : List Nat},
    lexLt a b = true → lexLt b a = true → False := by
  intro a
  induction a with
  | nil =>
      intro b h₁ h₂
      cases b with
      | nil => simp [lexLt] at h₁
      | cons y ys => simp [lexLt] at h₂
  | cons x xs ih =>
      intro b h₁ h₂
      cases b with
      | nil => simp [lexLt] at h₁
      | cons y ys =>
          rcases lexLt_cons_iff.mp h₁ with h | ⟨he, hr⟩ <;>
            rcases lexLt_cons_iff.mp h₂ with h' | ⟨he', hr'⟩
          · omega
          · omega
          · omega
          · exact ih hr hr'

theorem lexLt_trans : ∀ {a b c : List Nat},
    lexLt a b = true → lexLt b c = true → lexLt a c = true := by
  intro a
  induction a with
  | nil =>
      intro b c h₁ h₂
      cases b with
      | nil => simp [lexLt] at h₁
      | cons y ys =>
          cases c with
          | nil => simp [lexLt] at h₂
          | cons z zs => simp [lexLt]
  | cons x xs ih =>
      intro b c h₁ h₂
      cases b with
      | nil => simp [lexLt] at h₁
      | cons y ys =>
          cases c with
          | nil => simp [lexLt] at h₂
          | cons z zs =>
              rcases lexLt_cons_iff.mp h₁ with h | ⟨he, hr⟩ <;>
                rcases lexLt_cons_iff.mp h₂ with h' | ⟨he', hr'⟩
              · exact lexLt_cons_iff.mpr (Or.inl (by omega))
              · exact lexLt_cons_iff.mpr (Or.inl (by omega))
              · exact lexLt_cons_iff.mpr (Or.inl (by omega))
              · exact lexLt_cons_iff.mpr (Or.inr ⟨by omega, ih hr hr'⟩)

theorem lexLt_eq_of_not : ∀ {a b : List Nat},
    lexLt a b = false → lexLt b a = false → a = b := by
  intro a
  induction a with
  | nil =>
      intro b h₁ h₂
      cases b with
      | nil => rfl
      | cons y ys => simp [lexLt] at h₁
  | cons x xs ih =>
      intro b h₁ h₂
      cases b with
      | nil => simp [lexLt] at h₂
      | cons y ys =>
          have n₁ : ¬(x < y ∨ (x = y ∧ lexLt xs ys = true)) := by
            intro hc
            rw [lexLt_cons_iff.mpr hc] at h₁
            exact absurd h₁ (by simp)
          have n₂ : ¬(y < x ∨ (y = x ∧ lexLt ys xs = true)) := by
            intro hc
            rw [lexLt_cons_iff.mpr hc] at h₂
            exact absurd h₂ (by simp)
          push_neg at n₁ n₂
          have hxy : x = y := by omega
          subst hxy
          have hxs : lexLt xs ys = false := by
            cases hv : lexLt xs ys with
            | false => rfl
            | true => exact absurd hv (n₁.2 rfl)
          have hys : lexLt ys xs = false := by
            cases hv : lexLt ys xs with
            | false => rfl
            | true => exact absurd hv (n₂.2 rfl)
          rw [ih hxs hys]

/-- Unicode scalar values avoid the surrogate range (the `Char`
invariant). -/
theorem char_valid (c : Char) :
    c.toNat < 0xd800 ∨ (0xdfff < c.toNat ∧ c.toNat < 0x110000) := c.valid

theorem charEq_of_toNat {c₁ c₂ : Char} (h : c₁.toNat = c₂.toNat) :
    c₁ = c₂ := Char.ext (UInt32.ext h)

theorem utf16UnitsChar_ne_nil (c : Char) : utf16UnitsChar c ≠ [] := by
  simp only [utf16UnitsChar]
  split <;> simp

/-- The UTF-16 unit decomposition is self-synchronising: equal unit
streams start with the same character. -/
theorem utf16_prefix_char {c₁ c₂ : Char} {r₁ r₂ : List Nat}
    (h : utf16UnitsChar c₁ ++ r₁ = utf16UnitsChar c₂ ++ r₂) :
    c₁ = c₂ ∧ r₁ = r₂ := by
  have v₁ := char_valid c₁
  have v₂ := char_valid c₂
  simp only [utf16UnitsChar] at h
  by_cases h₁ : c₁.toNat < 0x10000 <;> by_cases h₂ : c₂.toNat < 0x10000
  · rw [if_pos h₁, if_pos h₂] at h
    simp only [List.cons_append, List.nil_append, List.cons.injEq] at h
    exact ⟨charEq_of_toNat h.1, h.2⟩
  · rw [if_pos h₁, if_neg h₂] at h
    simp only [List.cons_append, List.nil_append, List.cons.injEq] at h
    omega
  · rw [if_neg h₁, if_pos h₂] at h
    simp only [List.cons_append, List.nil_append, List.cons.injEq] at h
    omega
  · rw [if_neg h₁, if_neg h₂] at h
    simp only [List.cons_append, List.nil_append, List.cons.injEq] at h
    refine ⟨charEq_of_toNat (by omega), h.2.2⟩

/-- Distinct strings have distinct UTF-16 unit streams. -/
theorem utf16Units_inj {s₁ s₂ : String} (h : utf16Units s₁ = utf16Units s₂) :
    s₁ = s₂ := by
  have key : ∀ (cs₁ cs₂ : List Char),
      List.foldr (fun c acc => utf16UnitsChar c ++ acc) [] cs₁ =
        List.foldr (fun c acc => utf16UnitsChar c ++ acc) [] cs₂ →
      cs₁ = cs₂ := by
    intro cs₁
    induction cs₁ with
    | nil =>
        intro cs₂ hh
        cases cs₂ with
        | nil => rfl
        | cons c t =>
            exfalso
            simp only [List.foldr] at hh
            cases hu : utf16UnitsChar c with
            | nil => exact utf16UnitsChar_ne_nil c hu
            | cons a u =>
                rw [hu] at hh
                simp at hh
    | cons c₁ t₁ ih =>
        intro cs₂ hh
        cases cs₂ with
        | nil =>
            exfalso
            simp only [List.foldr] at hh
            cases hu : utf16UnitsChar c₁ with
            | nil => exact utf16UnitsChar_ne_nil c₁ hu
            | cons a u =>
                rw [hu] at hh
                simp at hh
        | cons c₂ t₂ =>
            simp only [List.foldr] at hh
            obtain ⟨hc, hr⟩ := utf16_prefix_char hh
            rw [hc, ih t₂ hr]
  have hdata : s₁.data = s₂.data := key s₁.data s₂.data h
  cases s₁ with
  | mk d₁ =>
      cases s₂ with
      | mk d₂ => exact congrArg String.mk hdata

theorem jsStrLt_asymm {a b : String} (h₁ : jsStrLt a b = true)
    (h₂ : jsStrLt b a = true) : False := lexLt_asymm h₁ h₂

theorem jsStrLt_trans {a b c : String} (h₁ : jsStrLt a b = true)
    (h₂ : jsStrLt b c = true) : jsStrLt a c = true := lexLt_trans h₁ h₂

/-- JavaScript string comparison is total: distinct strings compare
strictly one way. -/
theorem jsStrLt_total_ne {a b : String} (h : a ≠ b) :
    jsStrLt a b = true ∨ jsStrLt b a = true := by
  cases hab : jsStrLt a b with
  | true => exact Or.inl rfl
  | false =>
      cases hba : jsStrLt b a with
      | true => exact Or.inr rfl
      | false => exact absurd (utf16Units_inj (lexLt_eq_of_not hab hba)) h

/-- Inserting into a list sorted by the JavaScript comparator keeps it
sorted (`R p q` = "q is not strictly below p", the comparator's
postcondition for consecutive entries). -/
theorem insertEntry_sorted {e : String × Val} {l : List (String × Val)}
    (hl : List.Pairwise (fun p q => jsStrLt q.1 p.1 = false) l) :
    List.Pairwise (fun p q => jsStrLt q.1 p.1 = false) (insertEntry e l) := by
  induction l with
  | nil => simp [insertEntry]
  | cons x xs ih =>
      rcases List.pairwise_cons.mp hl with ⟨hx, hxs⟩
      simp only [insertEntry]
      split
      · rename_i hlt
        refine List.pairwise_cons.mpr ⟨?_, hl⟩
        intro y hy
        rcases List.mem_cons.mp hy with rfl | hy'
        · cases hv : jsStrLt y.1 e.1 with
          | false => rfl
          | true => exact (jsStrLt_asymm hlt hv).elim
        · cases hv : jsStrLt y.1 e.1 with
          | false => rfl
          | true => exact absurd (jsStrLt_trans hv hlt) (by rw [hx y hy']; simp)
      · rename_i hge
        refine List.pairwise_cons.mpr ⟨?_, ih hxs⟩
        intro y hy
        have hy' : y ∈ e :: xs := (insertEntry_perm e xs).mem_iff.mp hy
        rcases List.mem_cons.mp hy' with rfl | hy''
        · exact Bool.eq_false_iff.mpr hge
        · exact hx y hy''

/-- The encoder's entry sort produces a list sorted by the JavaScript
string order of the keys. -/
theorem sortEntries_sorted (l : List (String × Val)) :
    List.Pairwise (fun p q => jsStrLt q.1 p.1 = false) (sortEntries l) := by
  induction l with
  | nil => simp [sortEntries]
  | cons x xs ih => exact insertEntry_sorted ih

/-- With distinct keys, a comparator-sorted entry list is strictly
sorted. -/
theorem pairwise_strict_of_nodup {l : List (String × Val)}
    (hs : List.Pairwise (fun p q => jsStrLt q.1 p.1 = false) l)
    (hnd : (l.map Prod.fst).Nodup) :
    List.Pairwise (fun p q => jsStrLt p.1 q.1 = true) l := by
  have hne : List.Pairwise (fun p q : String × Val => p.1 ≠ q.1) l :=
    List.pairwise_map.mp hnd
  refine (hs.and hne).imp ?_
  intro p q hpq
  rcases jsStrLt_total_ne hpq.2 with h | h
  · exact h
  · rw [hpq.1] at h
    exact absurd h (by simp)

/-- Two permutations sorted by the same asymmetric relation coincide. -/
theorem perm_pairwise_strict_eq {α : Type} {S : α → α → Prop}
    (hasymm : ∀ a b, S a b → S b a → False) :
    ∀ (l₁ l₂ : List α), List.Perm l₁ l₂ →
    List.Pairwise S l₁ → List.Pairwise S l₂ → l₁ = l₂ := by
  intro l₁
  induction l₁ with
  | nil =>
      intro l₂ hp _ _
      exact hp.nil_eq
  | cons a t₁ ih =>
      intro l₂ hp h₁ h₂
      cases l₂ with
      | nil =>
          have := hp.length_eq
          simp at this
      | cons b t₂ =>
          have hab : a = b := by
            by_contra hne
            have ha2 : a ∈ b :: t₂ := hp.mem_iff.mp (List.mem_cons_self a t₁)
            have hb1 : b ∈ a :: t₁ := hp.mem_iff.mpr (List.mem_cons_self b t₂)
            rcases List.mem_cons.mp ha2 with h | h
            · exact hne h
            · rcases List.mem_cons.mp hb1 with h' | h'
              · exact hne h'.symm
              · exact hasymm a b ((List.pairwise_cons.mp h₁).1 b h')
                  ((List.pairwise_cons.mp h₂).1 a h)
          subst hab
          rw [ih t₂ hp.cons_inv (List.pairwise_cons.mp h₁).2
            (List.pairwise_cons.mp h₂).2]

/-- With distinct keys, property lookup is insertion-order independent. -/
theorem lookupStr_perm {l₁ l₂ : List (String × Val)} (hp : List.Perm l₁ l₂)
    (hnd : (l₁.map Prod.fst).Nodup) (k : String) :
    lookupStr l₁ k = lookupStr l₂ k := by
  simp only [lookupStr]
  cases hf : l₁.find? (fun p => p.1 = k) with
  | none =>
      have hnone := List.find?_eq_none.mp hf
      rw [List.find?_eq_none.mpr (fun p hpmem => hnone p (hp.mem_iff.mpr hpmem))]
  | some p =>
      have hpmem : p ∈ l₁ := List.mem_of_find?_eq_some hf
      have hpk : p.1 = k := by
        have h := List.find?_some hf
        simpa using h
      cases hf2 : l₂.find? (fun p => p.1 = k) with
      | none =>
          exact absurd (decide_eq_true hpk)
            (List.find?_eq_none.mp hf2 p (hp.mem_iff.mp hpmem))
      | some q =>
          have hqmem : q ∈ l₂ := List.mem_of_find?_eq_some hf2
          have hqk : q.1 = k := by
            have h := List.find?_some hf2
            simpa using h
          have hq1 : q ∈ l₁ := hp.mem_iff.mpr hqmem
          have hpq : p = q :=
            List.inj_on_of_nodup_map hnd hpmem hq1 (by rw [hpk, hqk])
          rw [hpq]

/-- With distinct keys, the sorted entry list of a map does not depend on
the insertion order of the entries. -/
theorem sortedEntries_eq_of_perm {l₁ l₂ : List (String × Val)}
    (hp : List.Perm l₁ l₂) (hnd : (l₁.map Prod.fst).Nodup) :
    sortEntries (jsEntriesOrder l₁) = sortEntries (jsEntriesOrder l₂) := by
  have hperm : List.Perm (sortEntries (jsEntriesOrder l₁))
      (sortEntries (jsEntriesOrder l₂)) :=
    ((sortEntries_perm _).trans (jsEntriesOrder_perm _)).trans
      (hp.trans (((sortEntries_perm _).trans (jsEntriesOrder_perm _)).symm))
  have hnd₁ : ((sortEntries (jsEntriesOrder l₁)).map Prod.fst).Nodup :=
    (((sortEntries_perm _).trans (jsEntriesOrder_perm _)).map Prod.fst).nodup_iff.mpr hnd
  have hnd₂ : ((sortEntries (jsEntriesOrder l₂)).map Prod.fst).Nodup :=
    (hperm.map Prod.fst).nodup_iff.mp hnd₁
  exact perm_pairwise_strict_eq (fun a b h h' => jsStrLt_asymm h h') _ _ hperm
    (pairwise_strict_of_nodup (sortEntries_sorted _) hnd₁)
    (pairwise_strict_of_nodup (sortEntries_sorted _) hnd₂)

/-- With distinct keys, the encoding of a map does not depend on the
insertion order of the entries. -/
theorem encodeValue_map_perm {l₁ l₂ : List (String × Val)}
    (hnd : (l₁.map Prod.fst).Nodup) (hp : List.Perm l₁ l₂) :
    encodeValue (.map l₁) = encodeValue (.map l₂) := by
  have hlook := lookupStr_perm hp hnd
  have hbody : encodeMapBody l₁ = encodeMapBody l₂ := by
    simp only [encodeMapBody]
    have hlen : (jsEntriesOrder l₁).length = (jsEntriesOrder l₂).length := by
      rw [(jsEntriesOrder_perm l₁).length_eq, (jsEntriesOrder_perm l₂).length_eq,
        hp.length_eq]
    rw [hlen, sortedEntries_eq_of_perm hp hnd]
  have hv₁ : encodeValue (.map l₁) =
      (match lookupStr l₁ "tag", lookupStr l₁ "value" with
       | some (.num j), some inner => encodeTagged j inner
       | _, _ => encodeMapBody l₁) := encodeValue_unfold (Val.map l₁)
  have hv₂ : encodeValue (.map l₂) =
      (match lookupStr l₂ "tag", lookupStr l₂ "value" with
       | some (.num j), some inner => encodeTagged j inner
       | _, _ => encodeMapBody l₂) := encodeValue_unfold (Val.map l₂)
  rw [hv₁, hv₂, ← hlook "tag", ← hlook "value"]
  cases htag : lookupStr l₁ "tag" with
  | none => exact hbody
  | some tv =>
      cases hval : lookupStr l₁ "value" with
      | none => cases tv <;> exact hbody
      | some inner =>
          cases tv with
          | num j => rfl
          | bytes bb => exact hbody
          | text ss => exact hbody
          | arr aa => exact hbody
          | map mm => exact hbody
          | tag tt vv => exact hbody
          | bool blb => exact hbody
          | null => exact hbody
          | undef => exact hbody

/-- C3: on encode, map entries are emitted sorted by the JavaScript
string order of their key strings (integer keys having become their
decimal string forms as object keys): the entry list the encoder walks,
`sortEntries (jsEntriesOrder l)`, is sorted by the comparator
`(a, b) => a < b ? -1 : a > b ? 1 : 0`; and with distinct keys the
encoding is deterministic — two maps holding the same entries in any
insertion order produce byte-identical `encode` output. -/
theorem c3_theorem :
    (∀ l : List (String × Val),
      List.Pairwise (fun p q => jsStrLt q.1 p.1 = false)
        (sortEntries (jsEntriesOrder l))) ∧
    (∀ l₁ l₂ : List (String × Val), (l₁.map Prod.fst).Nodup →
      List.Perm l₁ l₂ → encode (.map l₁) = encode (.map l₂)) := by
  refine ⟨fun l => sortEntries_sorted _, fun l₁ l₂ hnd hp => ?_⟩
  simp only [encode]
  rw [encodeValue_map_perm hnd hp]

/-- The C3 theorem at concrete inputs: the two-entry map is emitted
sorted, and the two insertion orders of the same entries encode
identically. -/
theorem c3_witness :
    List.Pairwise (fun p q => jsStrLt q.1 p.1 = false)
      (sortEntries (jsEntriesOrder [("b", Val.bool true), ("a", Val.bool false)])) ∧
    ([("b", Val.bool true), ("a", Val.bool false)].map Prod.fst).Nodup ∧
    encode (.map [("b", Val.bool true), ("a", Val.bool false)]) =
      encode (.map [("a", Val.bool false), ("b", Val.bool true)]) :=
  ⟨c3_theorem.1 _, by decide,
    c3_theorem.2 _ _ (by decide) (List.Perm.swap _ _ _)⟩

/-! ### Decoding what the encoder wrote

Positional lemmas describing each decoder helper on a buffer of the form
`(pre ++ bytes) ++ post`, where `bytes` is the output of an encoder
helper; the round-trip theorem for claim C1 is assembled from these. -/

theorem byteAt_pos : ∀ (pre : List Nat) (x : Nat) (rest : List Nat),
    byteAt (pre ++ x :: rest) pre.length = x := by
  intro pre
  induction pre with
  | nil => intro x rest; rfl
  | cons a p ih =>
      intro x rest
      simp only [List.cons_append, List.length_cons, byteAt, List.getD_cons_succ]
      exact ih x rest

theorem slice_exact (pre body post : List Nat) :
    (((pre ++ body) ++ post).drop pre.length).take body.length = body := by
  rw [List.append_assoc, List.drop_left, List.take_left]

theorem beBytes_length : ∀ (k v : Nat), (beBytes k v).length = k := by
  intro k
  induction k with
  | zero => intro v; rfl
  | succ m ih =>
      intro v
      simp only [beBytes, List.length_append, List.length_cons, List.length_nil, ih]

theorem foldl_beBytes : ∀ (k v a : Nat), v < 256 ^ k →
    (beBytes k v).foldl (fun acc b => acc * 256 + b) a = a * 256 ^ k + v := by
  intro k
  induction k with
  | zero =>
      intro v a hv
      simp only [beBytes, List.foldl_nil, pow_zero]
      omega
  | succ m ih =>
      intro v a hv
      have hdiv : v / 256 < 256 ^ m :=
        Nat.div_lt_of_lt_mul (by rw [Nat.mul_comm, ← pow_succ]; exact hv)
      simp only [beBytes, List.foldl_append, List.foldl_cons, List.foldl_nil]
      rw [ih (v / 256) a hdiv]
      have hmod := Nat.div_add_mod v 256
      have hcalc : (a * 256 ^ m + v / 256) * 256 + v % 256 =
          a * (256 ^ m * 256) + (256 * (v / 256) + v % 256) := by ring
      rw [hcalc, hmod, pow_succ]

theorem readBE_beBytes {k v : Nat} (hv : v < 256 ^ k) (pre post : List Nat) :
    readBE ((pre ++ beBytes k v) ++ post) pre.length k = v := by
  simp only [readBE]
  rw [show (((pre ++ beBytes k v) ++ post).drop pre.length).take k =
      (((pre ++ beBytes k v) ++ post).drop pre.length).take (beBytes k v).length
    from by rw [beBytes_length]]
  rw [slice_exact]
  have hf := foldl_beBytes k v 0 hv
  simpa using hf

theorem readLength_small {buf : List Nat} {off ai : Nat} (h : ai ≤ 23) :
    readLength buf off ai = .ok (ai, off) := by
  simp only [readLength]
  rw [if_pos h]

theorem readLength_ai24 {buf : List Nat} {off : Nat} (h : off + 1 ≤ buf.length) :
    readLength buf off 24 = .ok (byteAt buf off, off + 1) := by
  simp only [readLength]
  norm_num
  rw [ensureBytes_le h, except_ok_bind]

theorem readLength_ai25 {buf : List Nat} {off : Nat} (h : off + 2 ≤ buf.length) :
    readLength buf off 25 = .ok (readBE buf off 2, off + 2) := by
  simp only [readLength]
  norm_num
  rw [ensureBytes_le h, except_ok_bind]

theorem readLength_ai26 {buf : List Nat} {off : Nat} (h : off + 4 ≤ buf.length) :
    readLength buf off 26 = .ok (readBE buf off 4, off + 4) := by
  simp only [readLength]
  norm_num
  rw [ensureBytes_le h, except_ok_bind]

theorem readLength_ai27 {buf : List Nat} {off : Nat} (h : off + 8 ≤ buf.length) :
    readLength buf off 27 = .ok (jsU64 (readBE buf off 8), off + 8) := by
  simp only [readLength]
  norm_num
  rw [ensureBytes_le h, except_ok_bind]

/-- Inverting a length header: the first byte dispatches to major type
`mt`, and `readLength` recovers the encoded length, leaving the offset at
the end of the header. -/
theorem header_decode {mt len : Nat} {hd : List Nat} (hmt : mt < 8)
    (h : encodeLength mt len = .ok hd) (pre rest : List Nat) :
    1 ≤ hd.length ∧
    byteAt ((pre ++ hd) ++ rest) pre.length / 32 = mt ∧
    readLength ((pre ++ hd) ++ rest) (pre.length + 1)
      (byteAt ((pre ++ hd) ++ rest) pre.length % 32) =
      .ok (len, pre.length + hd.length) := by
  simp only [encodeLength] at h
  split_ifs at h with h23 h255 h65535 h4G
  · have hhd : hd = [mt * 32 + len] := by simpa using h.symm
    subst hhd
    have hb : byteAt ((pre ++ [mt * 32 + len]) ++ rest) pre.length =
        mt * 32 + len := by
      rw [List.append_assoc, List.singleton_append]
      exact byteAt_pos pre _ rest
    refine ⟨by simp, by rw [hb]; omega, ?_⟩
    rw [hb, show (mt * 32 + len) % 32 = len by omega, readLength_small h23]
    simp
  · have hhd : hd = [mt * 32 + 24, len] := by simpa using h.symm
    subst hhd
    have hb : byteAt ((pre ++ [mt * 32 + 24, len]) ++ rest) pre.length =
        mt * 32 + 24 := by
      rw [List.append_assoc, show ([mt * 32 + 24, len] : List Nat) ++ rest =
        (mt * 32 + 24) :: (len :: rest) from rfl]
      exact byteAt_pos pre _ _
    have hb1 : byteAt ((pre ++ [mt * 32 + 24, len]) ++ rest) (pre.length + 1) =
        len := by
      rw [show (pre ++ [mt * 32 + 24, len]) ++ rest =
        (pre ++ [mt * 32 + 24]) ++ len :: rest from by simp,
        show pre.length + 1 = (pre ++ [mt * 32 + 24]).length from by simp]
      exact byteAt_pos _ _ _
    refine ⟨by simp, by rw [hb]; omega, ?_⟩
    rw [hb, show (mt * 32 + 24) % 32 = 24 by omega,
      readLength_ai24 (by simp [List.length_append]; omega), hb1]
    simp
  · have hhd : hd = (mt * 32 + 25) :: beBytes 2 len := by simpa using h.symm
    subst hhd
    have hb : byteAt ((pre ++ (mt * 32 + 25) :: beBytes 2 len) ++ rest) pre.length =
        mt * 32 + 25 := by
      rw [List.append_assoc, List.cons_append]
      exact byteAt_pos pre _ _
    have hbe : readBE ((pre ++ (mt * 32 + 25) :: beBytes 2 len) ++ rest)
        (pre.length + 1) 2 = len := by
      have hh := readBE_beBytes (k := 2) (v := len) (by omega)
        (pre ++ [mt * 32 + 25]) rest
      rw [show ((pre ++ [mt * 32 + 25]) ++ beBytes 2 len) ++ rest =
        (pre ++ (mt * 32 + 25) :: beBytes 2 len) ++ rest from by simp,
        show (pre ++ [mt * 32 + 25]).length = pre.length + 1 from by simp] at hh
      exact hh
    refine ⟨by simp, by rw [hb]; omega, ?_⟩
    rw [hb, show (mt * 32 + 25) % 32 = 25 by omega,
      readLength_ai25 (by simp [List.length_append, beBytes_length]; omega), hbe]
    simp [beBytes_length]
  · have hhd : hd = (mt * 32 + 26) :: beBytes 4 len := by simpa using h.symm
    subst hhd
    have hb : byteAt ((pre ++ (mt * 32 + 26) :: beBytes 4 len) ++ rest) pre.length =
        mt * 32 + 26 := by
      rw [List.append_assoc, List.cons_append]
      exact byteAt_pos pre _ _
    have hbe : readBE ((pre ++ (mt * 32 + 26) :: beBytes 4 len) ++ rest)
        (pre.length + 1) 4 = len := by
      have hh := readBE_beBytes (k := 4) (v := len) (by omega)
        (pre ++ [mt * 32 + 26]) rest
      rw [show ((pre ++ [mt * 32 + 26]) ++ beBytes 4 len) ++ rest =
        (pre ++ (mt * 32 + 26) :: beBytes 4 len) ++ rest from by simp,
        show (pre ++ [mt * 32 + 26]).length = pre.length + 1 from by simp] at hh
      exact hh
    refine ⟨by simp, by rw [hb]; omega, ?_⟩
    rw [hb, show (mt * 32 + 26) % 32 = 26 by omega,
      readLength_ai26 (by simp [List.length_append, beBytes_length]; omega), hbe]
    simp [beBytes_length]

/-! ### UTF-8 round trip -/

theorem utf8EncodeChar_ne_nil (c : Char) : utf8EncodeChar c ≠ [] := by
  simp only [utf8EncodeChar]
  split_ifs <;> simp

/-- Decoding one scalar from its own encoding recovers the scalar and the
remaining bytes. -/
theorem utf8DecodeOne_encode (c : Char) (rest : List Nat) :
    utf8DecodeOne (utf8EncodeChar c ++ rest) = some (c, rest) := by
  have hv := char_valid c
  simp only [utf8EncodeChar]
  by_cases h1 : c.toNat < 0x80
  · rw [if_pos h1]
    simp only [List.cons_append, List.nil_append, utf8DecodeOne]
    rw [if_pos h1, Char.ofNat_toNat]
  · rw [if_neg h1]
    by_cases h2 : c.toNat < 0x800
    · rw [if_pos h2]
      simp only [List.cons_append, List.nil_append, utf8DecodeOne]
      rw [if_neg (by omega), if_neg (by omega), if_pos (by omega)]
      rw [if_pos (by simp only [isCont, decide_eq_true_eq]; omega)]
      rw [show (0xC0 + c.toNat / 64 - 0xC0) * 64 + (0x80 + c.toNat % 64 - 0x80) =
        c.toNat by omega, Char.ofNat_toNat]
    · rw [if_neg h2]
      by_cases h3 : c.toNat < 0x10000
      · rw [if_pos h3]
        simp only [List.cons_append, List.nil_append, utf8DecodeOne]
        rw [if_neg (by omega), if_neg (by omega), if_neg (by omega),
          if_pos (by omega)]
        rw [if_pos (by
          constructor <;> simp only [isCont, decide_eq_true_eq] <;> omega)]
        rw [show (0xE0 + c.toNat / 4096 - 0xE0) * 4096 +
            (0x80 + c.toNat / 64 % 64 - 0x80) * 64 + (0x80 + c.toNat % 64 - 0x80) =
          c.toNat by omega]
        rw [if_neg (by omega), Char.ofNat_toNat]
      · rw [if_neg h3]
        simp only [List.cons_append, List.nil_append, utf8DecodeOne]
        rw [if_neg (by omega), if_neg (by omega), if_neg (by omega),
          if_neg (by omega), if_pos (by omega)]
        rw [if_pos (by
          refine ⟨?_, ?_, ?_⟩ <;> simp only [isCont, decide_eq_true_eq] <;> omega)]
        rw [show (0xF0 + c.toNat / 262144 - 0xF0) * 262144 +
            (0x80 + c.toNat / 4096 % 64 - 0x80) * 4096 +
            (0x80 + c.toNat / 64 % 64 - 0x80) * 64 + (0x80 + c.toNat % 64 - 0x80) =
          c.toNat by omega]
        rw [if_neg (by omega), Char.ofNat_toNat]

/-- Decoding the encoding of a character list recovers the list (any fuel
beyond the byte count suffices). -/
theorem utf8DecodeCharsF_encode :
    ∀ (cs : List Char) (f : Nat),
    (List.foldr (fun c acc => utf8EncodeChar c ++ acc) [] cs).length < f →
    utf8DecodeCharsF f (List.foldr (fun c acc => utf8EncodeChar c ++ acc) [] cs) =
      some cs := by
  intro cs
  induction cs with
  | nil =>
      intro f hf
      obtain ⟨g, rfl⟩ : ∃ g, f = g + 1 := ⟨f - 1, by omega⟩
      simp [utf8DecodeCharsF]
  | cons c t ih =>
      intro f hf
      obtain ⟨g, rfl⟩ : ∃ g, f = g + 1 := ⟨f - 1, by omega⟩
      simp only [List.foldr] at hf ⊢
      have hne : utf8EncodeChar c ++
          List.foldr (fun c acc => utf8EncodeChar c ++ acc) [] t ≠ [] := by
        cases hu : utf8EncodeChar c with
        | nil => exact absurd hu (utf8EncodeChar_ne_nil c)
        | cons a u => simp
      simp only [utf8DecodeCharsF]
      have hlen : 1 ≤ (utf8EncodeChar c).length := by
        cases hu : utf8EncodeChar c with
        | nil => exact absurd hu (utf8EncodeChar_ne_nil c)
        | cons a u => simp
      rw [if_neg hne, utf8DecodeOne_encode]
      dsimp only
      rw [ih g (by rw [List.length_append] at hf; omega)]

/-- `TextDecoder` inverts `TextEncoder` on every string. -/
theorem utf8Decode_encode (s : String) :
    utf8Decode (utf8Encode s) = some s := by
  simp only [utf8Decode, utf8DecodeChars, utf8Encode]
  rw [utf8DecodeCharsF_encode s.data _ (by omega)]
  cases s with
  | mk d => rfl

/-! ### The round-trip invariant

`RtOk` captures the values the data format represents faithfully: safe
integers, finite non-integral doubles, text, bytes, arrays and tagged
values of such, and maps whose entries are listed in the enumeration
order the encoder emits (sorted, with distinct, canonically-spelled
keys) and which do not collide with the tagged-object shape. -/

/-- A number survives the encode/decode round trip: a safe integer, or a
double pattern that classifies back to itself (finite non-integral, an
infinity, or a NaN pattern). -/
def numOk : JSNum → Bool
  | .int n => decide (-(2 ^ 53 - 1) ≤ n) && decide (n ≤ 2 ^ 53 - 1)
  | .flt b =>
      decide (b < 2 ^ 64) &&
        (match classifyBits b with
         | .flt b2 => b2 == b
         | _ => false)

/-- A map key survives the round trip: either it does not look numeric,
or it is the canonical string of a round-trippable number. -/
def keyOk (k : String) : Bool :=
  match jsStringToNumber k with
  | none => true
  | some j => numOk j && (jsNumToString j == k)

/-- Values faithfully representable by the CBOR data format (see the
section comment): safe numbers, distinct canonically spelled map keys, and
`{tag, value}`-shaped maps only with a non-negative integer tag and no
further keys (the encoder drops every other key of such an object). -/
inductive RtOk : Val → Prop where
  | num : ∀ j, numOk j = true → RtOk (.num j)
  | bytes : ∀ bs, RtOk (.bytes bs)
  | text : ∀ s, RtOk (.text s)
  | arr : ∀ xs, (∀ x ∈ xs, RtOk x) → RtOk (.arr xs)
  | map : ∀ l,
      (match lookupStr l "tag", lookupStr l "value" with
       | some (.num (.int n)), some _ => 0 ≤ n ∧ l.length = 2
       | some (.num (.flt _)), some _ => False
       | _, _ => True) →
      (l.map Prod.fst).Nodup →
      (∀ p ∈ l, keyOk p.1 = true) →
      (∀ p ∈ l, RtOk p.2) →
      RtOk (.map l)
  | tag : ∀ t v, RtOk v → RtOk (.tag t v)
  | bool : ∀ b, RtOk (.bool b)
  | null : RtOk .null
  | undef : RtOk .undef

theorem roundNat_small {n : Nat} (h : n < 2 ^ 53) :
    roundNatToDoubleNat n = n := by
  simp only [roundNatToDoubleNat]
  rw [if_pos h]

/-! Major-type dispatch of `decodeItem` under a known first byte. -/

theorem decodeItem_case0 {g : Nat} {buf : List Nat} {off : Nat}
    (hoff : off < buf.length) (h : byteAt buf off / 32 = 0) :
    decodeItem (g + 1) buf off =
      decodeUnsignedInteger buf (off + 1) (byteAt buf off % 32) := by
  simp only [decodeItem]
  rw [if_neg (by omega), h, if_pos rfl]

theorem decodeItem_case1 {g : Nat} {buf : List Nat} {off : Nat}
    (hoff : off < buf.length) (h : byteAt buf off / 32 = 1) :
    decodeItem (g + 1) buf off =
      decodeNegativeInteger buf (off + 1) (byteAt buf off % 32) := by
  simp only [decodeItem]
  rw [if_neg (by omega), h, if_neg (by omega), if_pos rfl]

theorem decodeItem_case2 {g : Nat} {buf : List Nat} {off : Nat}
    (hoff : off < buf.length) (h : byteAt buf off / 32 = 2) :
    decodeItem (g + 1) buf off =
      decodeByteString buf (off + 1) (byteAt buf off % 32) := by
  simp only [decodeItem]
  rw [if_neg (by omega), h, if_neg (by omega), if_neg (by omega), if_pos rfl]

theorem decodeItem_case3 {g : Nat} {buf : List Nat} {off : Nat}
    (hoff : off < buf.length) (h : byteAt buf off / 32 = 3) :
    decodeItem (g + 1) buf off =
      decodeTextString buf (off + 1) (byteAt buf off % 32) := by
  simp only [decodeItem]
  rw [if_neg (by omega), h, if_neg (by omega), if_neg (by omega),
    if_neg (by omega), if_pos rfl]

theorem decodeItem_case4 {g : Nat} {buf : List Nat} {off : Nat}
    (hoff : off < buf.length) (h : byteAt buf off / 32 = 4) :
    decodeItem (g + 1) buf off =
      decodeArray (decodeItem g buf) buf (off + 1) (byteAt buf off % 32) := by
  simp only [decodeItem]
  rw [if_neg (by omega), h, if_neg (by omega), if_neg (by omega),
    if_neg (by omega), if_neg (by omega), if_pos rfl]

theorem decodeItem_case5 {g : Nat} {buf : List Nat} {off : Nat}
    (hoff : off < buf.length) (h : byteAt buf off / 32 = 5) :
    decodeItem (g + 1) buf off =
      decodeMap (decodeItem g buf) buf (off + 1) (byteAt buf off % 32) := by
  simp only [decodeItem]
  rw [if_neg (by omega), h, if_neg (by omega), if_neg (by omega),
    if_neg (by omega), if_neg (by omega), if_neg (by omega), if_pos rfl]

theorem decodeItem_case6 {g : Nat} {buf : List Nat} {off : Nat}
    (hoff : off < buf.length) (h : byteAt buf off / 32 = 6) :
    decodeItem (g + 1) buf off =
      decodeTag (decodeItem g buf) buf (off + 1) (byteAt buf off % 32) := by
  simp only [decodeItem]
  rw [if_neg (by omega), h, if_neg (by omega), if_neg (by omega),
    if_neg (by omega), if_neg (by omega), if_neg (by omega), if_neg (by omega),
    if_pos rfl]

theorem decodeItem_case7 {g : Nat} {buf : List Nat} {off : Nat}
    (hoff : off < buf.length) (h : byteAt buf off / 32 = 7) :
    decodeItem (g + 1) buf off =
      decodeSpecial buf (off + 1) (byteAt buf off % 32) := by
  simp only [decodeItem]
  rw [if_neg (by omega), h, if_neg (by omega), if_neg (by omega),
    if_neg (by omega), if_neg (by omega), if_neg (by omega), if_neg (by omega),
    if_neg (by omega), if_pos rfl]

/-! Evaluating the integer decoders at each additional-info value. -/

theorem decodeUnsigned_small {buf : List Nat} {off ai : Nat} (h : ai ≤ 23) :
    decodeUnsignedInteger buf off ai = .ok (.num (.int ai), off) := by
  simp only [decodeUnsignedInteger]
  rw [if_pos h]

theorem decodeUnsigned_ai24 {buf : List Nat} {off : Nat}
    (h : off + 1 ≤ buf.length) :
    decodeUnsignedInteger buf off 24 =
      .ok (.num (.int (byteAt buf off)), off + 1) := by
  simp only [decodeUnsignedInteger]
  norm_num
  rw [ensureBytes_le h, except_ok_bind]

theorem decodeUnsigned_ai25 {buf : List Nat} {off : Nat}
    (h : off + 2 ≤ buf.length) :
    decodeUnsignedInteger buf off 25 =
      .ok (.num (.int (readBE buf off 2)), off + 2) := by
  simp only [decodeUnsignedInteger]
  norm_num
  rw [ensureBytes_le h, except_ok_bind]

theorem decodeUnsigned_ai26 {buf : List Nat} {off : Nat}
    (h : off + 4 ≤ buf.length) :
    decodeUnsignedInteger buf off 26 =
      .ok (.num (.int (readBE buf off 4)), off + 4) := by
  simp only [decodeUnsignedInteger]
  norm_num
  rw [ensureBytes_le h, except_ok_bind]

theorem decodeUnsigned_ai27 {buf : List Nat} {off : Nat}
    (h : off + 8 ≤ buf.length) :
    decodeUnsignedInteger buf off 27 =
      .ok (.num (.int (jsU64 (readBE buf off 8))), off + 8) := by
  simp only [decodeUnsignedInteger]
  norm_num
  rw [ensureBytes_le h, except_ok_bind]

theorem decodeNeg_small {buf : List Nat} {off ai : Nat} (h : ai ≤ 23) :
    decodeNegativeInteger buf off ai = .ok (.num (.int (-1 - ai)), off) := by
  simp only [decodeNegativeInteger]
  rw [if_pos h]

theorem decodeNeg_ai24 {buf : List Nat} {off : Nat}
    (h : off + 1 ≤ buf.length) :
    decodeNegativeInteger buf off 24 =
      .ok (.num (.int (-1 - (byteAt buf off : Int))), off + 1) := by
  simp only [decodeNegativeInteger]
  norm_num
  rw [ensureBytes_le h, except_ok_bind]

theorem decodeNeg_ai25 {buf : List Nat} {off : Nat}
    (h : off + 2 ≤ buf.length) :
    decodeNegativeInteger buf off 25 =
      .ok (.num (.int (-1 - (readBE buf off 2 : Int))), off + 2) := by
  simp only [decodeNegativeInteger]
  norm_num
  rw [ensureBytes_le h, except_ok_bind]

theorem decodeNeg_ai26 {buf : List Nat} {off : Nat}
    (h : off + 4 ≤ buf.length) :
    decodeNegativeInteger buf off 26 =
      .ok (.num (.int (-1 - (readBE buf off 4 : Int))), off + 4) := by
  simp only [decodeNegativeInteger]
  norm_num
  rw [ensureBytes_le h, except_ok_bind]

theorem decodeNeg_ai27 {buf : List Nat} {off : Nat}
    (h : off + 8 ≤ buf.length) :
    decodeNegativeInteger buf off 27 =
      .ok (.num (.int (-(roundNatToDoubleNat (jsU64 (readBE buf off 8) + 1) : Int))),
        off + 8) := by
  simp only [decodeNegativeInteger]
  norm_num
  rw [ensureBytes_le h, except_ok_bind]

theorem decodeSpecial_ai27 {buf : List Nat} {off : Nat}
    (h : off + 8 ≤ buf.length) :
    decodeSpecial buf off 27 =
      .ok (.num (classifyBits (readBE buf off 8)), off + 8) := by
  simp only [decodeSpecial]
  norm_num
  rw [ensureBytes_le h, except_ok_bind]

/-- Decoding the encoding of a round-trippable number recovers it
exactly. -/
theorem decode_encodeNumber {j : JSNum} {bytes : List Nat}
    (h : encodeNumber j = .ok bytes) (hok : numOk j = true)
    (pre post : List Nat) (g : Nat) :
    decodeItem (g + 1) ((pre ++ bytes) ++ post) pre.length =
      .ok (.num j, pre.length + bytes.length) := by
  cases j with
  | int n =>
      simp only [numOk, Bool.and_eq_true, decide_eq_true_eq] at hok
      obtain ⟨hlo, hhi⟩ := hok
      simp only [encodeNumber] at h
      by_cases hn : 0 ≤ n
      · rw [if_pos hn] at h
        simp only [encodeUnsignedInteger] at h
        rw [if_neg (by omega)] at h
        split_ifs at h with h23 h255 h65535 h4G h53
        · have hb : bytes = [n.toNat] := by simpa using h.symm
          subst hb
          have hbyte : byteAt ((pre ++ [n.toNat]) ++ post) pre.length = n.toNat := by
            rw [List.append_assoc, List.singleton_append]
            exact byteAt_pos _ _ _
          rw [decodeItem_case0 (by simp; try omega) (by rw [hbyte]; omega),
            show byteAt ((pre ++ [n.toNat]) ++ post) pre.length % 32 = n.toNat
              from by rw [hbyte]; omega,
            decodeUnsigned_small (by omega),
            show ((n.toNat : Int)) = n from by omega]
          simp [beBytes_length]
        · have hb : bytes = [0x18, n.toNat] := by simpa using h.symm
          subst hb
          have hbyte : byteAt ((pre ++ [0x18, n.toNat]) ++ post) pre.length = 0x18 := by
            rw [List.append_assoc,
              show ([0x18, n.toNat] : List Nat) ++ post = 0x18 :: (n.toNat :: post)
                from rfl]
            exact byteAt_pos _ _ _
          have hbyte1 : byteAt ((pre ++ [0x18, n.toNat]) ++ post) (pre.length + 1) =
              n.toNat := by
            rw [show (pre ++ [0x18, n.toNat]) ++ post =
              (pre ++ [0x18]) ++ n.toNat :: post from by simp,
              show pre.length + 1 = (pre ++ [0x18]).length from by simp]
            exact byteAt_pos _ _ _
          rw [decodeItem_case0 (by simp; try omega) (by rw [hbyte]),
            show byteAt ((pre ++ [0x18, n.toNat]) ++ post) pre.length % 32 = 24
              from by rw [hbyte],
            decodeUnsigned_ai24 (by simp [List.length_append]; omega), hbyte1,
            show ((n.toNat : Int)) = n from by omega]
          simp [beBytes_length]
        · have hb : bytes = 0x19 :: beBytes 2 n.toNat := by simpa using h.symm
          subst hb
          have hbyte : byteAt ((pre ++ 0x19 :: beBytes 2 n.toNat) ++ post) pre.length =
              0x19 := by
            rw [List.append_assoc, List.cons_append]
            exact byteAt_pos _ _ _
          have hbe : readBE ((pre ++ 0x19 :: beBytes 2 n.toNat) ++ post)
              (pre.length + 1) 2 = n.toNat := by
            have hh := readBE_beBytes (k := 2) (v := n.toNat) (by omega)
              (pre ++ [0x19]) post
            rw [show ((pre ++ [0x19]) ++ beBytes 2 n.toNat) ++ post =
              (pre ++ 0x19 :: beBytes 2 n.toNat) ++ post from by simp] at hh
            simpa using hh
          rw [decodeItem_case0 (by simp; try omega) (by rw [hbyte]),
            show byteAt ((pre ++ 0x19 :: beBytes 2 n.toNat) ++ post) pre.length % 32 = 25
              from by rw [hbyte],
            decodeUnsigned_ai25 (by simp [List.length_append, beBytes_length]; omega),
            hbe, show ((n.toNat : Int)) = n from by omega]
          simp [beBytes_length]
        · have hb : bytes = 0x1a :: beBytes 4 n.toNat := by simpa using h.symm
          subst hb
          have hbyte : byteAt ((pre ++ 0x1a :: beBytes 4 n.toNat) ++ post) pre.length =
              0x1a := by
            rw [List.append_assoc, List.cons_append]
            exact byteAt_pos _ _ _
          have hbe : readBE ((pre ++ 0x1a :: beBytes 4 n.toNat) ++ post)
              (pre.length + 1) 4 = n.toNat := by
            have hh := readBE_beBytes (k := 4) (v := n.toNat) (by omega)
              (pre ++ [0x1a]) post
            rw [show ((pre ++ [0x1a]) ++ beBytes 4 n.toNat) ++ post =
              (pre ++ 0x1a :: beBytes 4 n.toNat) ++ post from by simp] at hh
            simpa using hh
          rw [decodeItem_case0 (by simp; try omega) (by rw [hbyte]),
            show byteAt ((pre ++ 0x1a :: beBytes 4 n.toNat) ++ post) pre.length % 32 = 26
              from by rw [hbyte],
            decodeUnsigned_ai26 (by simp [List.length_append, beBytes_length]; omega),
            hbe, show ((n.toNat : Int)) = n from by omega]
          simp [beBytes_length]
        · have hb : bytes = 0x1b :: beBytes 8 n.toNat := by simpa using h.symm
          subst hb
          have hbyte : byteAt ((pre ++ 0x1b :: beBytes 8 n.toNat) ++ post) pre.length =
              0x1b := by
            rw [List.append_assoc, List.cons_append]
            exact byteAt_pos _ _ _
          have hbe : readBE ((pre ++ 0x1b :: beBytes 8 n.toNat) ++ post)
              (pre.length + 1) 8 = n.toNat := by
            have hpow : (256 : Nat) ^ 8 = 2 ^ 64 := by norm_num
            have hh := readBE_beBytes (k := 8) (v := n.toNat) (by omega)
              (pre ++ [0x1b]) post
            rw [show ((pre ++ [0x1b]) ++ beBytes 8 n.toNat) ++ post =
              (pre ++ 0x1b :: beBytes 8 n.toNat) ++ post from by simp] at hh
            simpa using hh
          rw [decodeItem_case0 (by simp; try omega) (by rw [hbyte]),
            show byteAt ((pre ++ 0x1b :: beBytes 8 n.toNat) ++ post) pre.length % 32 = 27
              from by rw [hbyte],
            decodeUnsigned_ai27 (by simp [List.length_append, beBytes_length]; omega),
            hbe, show jsU64 n.toNat = n.toNat from roundNat_small (by omega),
            show ((n.toNat : Int)) = n from by omega]
          simp [beBytes_length]
      · rw [if_neg hn] at h
        simp only [encodeNegativeInteger] at h
        rw [if_neg (by omega)] at h
        split_ifs at h with h23 h255 h65535 h4G h53
        · have hb : bytes = [0x20 + ((-n).toNat - 1)] := by simpa using h.symm
          subst hb
          have hbyte : byteAt ((pre ++ [0x20 + ((-n).toNat - 1)]) ++ post) pre.length =
              0x20 + ((-n).toNat - 1) := by
            rw [List.append_assoc, List.singleton_append]
            exact byteAt_pos _ _ _
          rw [decodeItem_case1 (by simp; try omega) (by rw [hbyte]; omega),
            show byteAt ((pre ++ [0x20 + ((-n).toNat - 1)]) ++ post) pre.length % 32 =
              (-n).toNat - 1 from by rw [hbyte]; omega,
            decodeNeg_small (by omega),
            show (-1 - (((-n).toNat - 1 : Nat) : Int)) = n from by omega]
          simp [beBytes_length]
        · have hb : bytes = [0x38, (-n).toNat - 1] := by simpa using h.symm
          subst hb
          have hbyte : byteAt ((pre ++ [0x38, (-n).toNat - 1]) ++ post) pre.length =
              0x38 := by
            rw [List.append_assoc,
              show ([0x38, (-n).toNat - 1] : List Nat) ++ post =
                0x38 :: (((-n).toNat - 1) :: post) from rfl]
            exact byteAt_pos _ _ _
          have hbyte1 : byteAt ((pre ++ [0x38, (-n).toNat - 1]) ++ post)
              (pre.length + 1) = (-n).toNat - 1 := by
            rw [show (pre ++ [0x38, (-n).toNat - 1]) ++ post =
              (pre ++ [0x38]) ++ ((-n).toNat - 1) :: post from by simp,
              show pre.length + 1 = (pre ++ [0x38]).length from by simp]
            exact byteAt_pos _ _ _
          rw [decodeItem_case1 (by simp; try omega) (by rw [hbyte]),
            show byteAt ((pre ++ [0x38, (-n).toNat - 1]) ++ post) pre.length % 32 = 24
              from by rw [hbyte],
            decodeNeg_ai24 (by simp [List.length_append]; omega), hbyte1,
            show (-1 - (((-n).toNat - 1 : Nat) : Int)) = n from by omega]
          simp [beBytes_length]
        · have hb : bytes = 0x39 :: beBytes 2 ((-n).toNat - 1) := by simpa using h.symm
          subst hb
          have hbyte : byteAt ((pre ++ 0x39 :: beBytes 2 ((-n).toNat - 1)) ++ post)
              pre.length = 0x39 := by
            rw [List.append_assoc, List.cons_append]
            exact byteAt_pos _ _ _
          have hbe : readBE ((pre ++ 0x39 :: beBytes 2 ((-n).toNat - 1)) ++ post)
              (pre.length + 1) 2 = (-n).toNat - 1 := by
            have hh := readBE_beBytes (k := 2) (v := (-n).toNat - 1) (by omega)
              (pre ++ [0x39]) post
            rw [show ((pre ++ [0x39]) ++ beBytes 2 ((-n).toNat - 1)) ++ post =
              (pre ++ 0x39 :: beBytes 2 ((-n).toNat - 1)) ++ post from by simp] at hh
            simpa using hh
          rw [decodeItem_case1 (by simp; try omega) (by rw [hbyte]),
            show byteAt ((pre ++ 0x39 :: beBytes 2 ((-n).toNat - 1)) ++ post)
              pre.length % 32 = 25 from by rw [hbyte],
            decodeNeg_ai25 (by simp [List.length_append, beBytes_length]; omega),
            hbe, show (-1 - (((-n).toNat - 1 : Nat) : Int)) = n from by omega]
          simp [beBytes_length]
        · have hb : bytes = 0x3a :: beBytes 4 ((-n).toNat - 1) := by simpa using h.symm
          subst hb
          have hbyte : byteAt ((pre ++ 0x3a :: beBytes 4 ((-n).toNat - 1)) ++ post)
              pre.length = 0x3a := by
            rw [List.append_assoc, List.cons_append]
            exact byteAt_pos _ _ _
          have hbe : readBE ((pre ++ 0x3a :: beBytes 4 ((-n).toNat - 1)) ++ post)
              (pre.length + 1) 4 = (-n).toNat - 1 := by
            have hh := readBE_beBytes (k := 4) (v := (-n).toNat - 1) (by omega)
              (pre ++ [0x3a]) post
            rw [show ((pre ++ [0x3a]) ++ beBytes 4 ((-n).toNat - 1)) ++ post =
              (pre ++ 0x3a :: beBytes 4 ((-n).toNat - 1)) ++ post from by simp] at hh
            simpa using hh
          rw [decodeItem_case1 (by simp; try omega) (by rw [hbyte]),
            show byteAt ((pre ++ 0x3a :: beBytes 4 ((-n).toNat - 1)) ++ post)
              pre.length % 32 = 26 from by rw [hbyte],
            decodeNeg_ai26 (by simp [List.length_append, beBytes_length]; omega),
            hbe, show (-1 - (((-n).toNat - 1 : Nat) : Int)) = n from by omega]
          simp [beBytes_length]
        · have hb : bytes = 0x3b :: beBytes 8 ((-n).toNat - 1) := by simpa using h.symm
          subst hb
          have hbyte : byteAt ((pre ++ 0x3b :: beBytes 8 ((-n).toNat - 1)) ++ post)
              pre.length = 0x3b := by
            rw [List.append_assoc, List.cons_append]
            exact byteAt_pos _ _ _
          have hbe : readBE ((pre ++ 0x3b :: beBytes 8 ((-n).toNat - 1)) ++ post)
              (pre.length + 1) 8 = (-n).toNat - 1 := by
            have hh := readBE_beBytes (k := 8) (v := (-n).toNat - 1) (by omega)
              (pre ++ [0x3b]) post
            rw [show ((pre ++ [0x3b]) ++ beBytes 8 ((-n).toNat - 1)) ++ post =
              (pre ++ 0x3b :: beBytes 8 ((-n).toNat - 1)) ++ post from by simp] at hh
            simpa using hh
          rw [decodeItem_case1 (by simp; try omega) (by rw [hbyte]),
            show byteAt ((pre ++ 0x3b :: beBytes 8 ((-n).toNat - 1)) ++ post)
              pre.length % 32 = 27 from by rw [hbyte],
            decodeNeg_ai27 (by simp [List.length_append, beBytes_length]; omega),
            hbe, show jsU64 ((-n).toNat - 1) = (-n).toNat - 1 from
              roundNat_small (by omega),
            show roundNatToDoubleNat ((-n).toNat - 1 + 1) = (-n).toNat - 1 + 1 from
              roundNat_small (by omega),
            show (-((((-n).toNat - 1 + 1 : Nat)) : Int)) = n from by omega]
          simp [beBytes_length]
  | flt b =>
      simp only [numOk, Bool.and_eq_true, decide_eq_true_eq] at hok
      obtain ⟨hb64, hcl⟩ := hok
      have hcb : classifyBits b = .flt b := by
        cases hc : classifyBits b with
        | flt b2 =>
            rw [hc] at hcl
            simp only [Nat.beq_eq_true_eq] at hcl
            rw [hcl]
        | int m =>
            rw [hc] at hcl
            exact absurd hcl (by simp)
      simp only [encodeNumber, encodeFloat] at h
      have hbytes : bytes = 0xfb :: beBytes 8 b := by simpa using h.symm
      subst hbytes
      have hbyte : byteAt ((pre ++ 0xfb :: beBytes 8 b) ++ post) pre.length = 0xfb := by
        rw [List.append_assoc, List.cons_append]
        exact byteAt_pos _ _ _
      have hbe : readBE ((pre ++ 0xfb :: beBytes 8 b) ++ post) (pre.length + 1) 8 =
          b := by
        have hpow : (256 : Nat) ^ 8 = 2 ^ 64 := by norm_num
        have hh := readBE_beBytes (k := 8) (v := b) (by omega) (pre ++ [0xfb]) post
        rw [show ((pre ++ [0xfb]) ++ beBytes 8 b) ++ post =
          (pre ++ 0xfb :: beBytes 8 b) ++ post from by simp] at hh
        simpa using hh
      rw [decodeItem_case7 (by simp; try omega) (by rw [hbyte]),
        show byteAt ((pre ++ 0xfb :: beBytes 8 b) ++ post) pre.length % 32 = 27
          from by rw [hbyte],
        decodeSpecial_ai27 (by simp [List.length_append, beBytes_length]; omega),
        hbe, hcb]
      simp [beBytes_length]

/-- Decoding the encoding of a byte string recovers it by content. -/
theorem decode_encodeByteString {bs bytes : List Nat}
    (h : encodeByteString bs = .ok bytes) (pre post : List Nat) (g : Nat) :
    decodeItem (g + 1) ((pre ++ bytes) ++ post) pre.length =
      .ok (.bytes bs, pre.length + bytes.length) := by
  simp only [encodeByteString] at h
  cases hL : encodeLength 2 bs.length with
  | error e =>
      rw [hL, except_error_bind] at h
      exact absurd h (by simp)
  | ok hd =>
      rw [hL, except_ok_bind] at h
      have hb : bytes = hd ++ bs := by simpa using h.symm
      subst hb
      obtain ⟨hhd1, hmt, hrl⟩ := header_decode (by omega) hL pre (bs ++ post)
      have hbuf : (pre ++ (hd ++ bs)) ++ post = (pre ++ hd) ++ (bs ++ post) := by
        simp
      rw [hbuf]
      rw [decodeItem_case2 (by simp [List.length_append]; omega) hmt]
      simp only [decodeByteString]
      rw [hrl, except_ok_bind]
      dsimp only
      rw [ensureBytes_le (by simp [List.length_append]; omega), except_ok_bind]
      have hsl : (((pre ++ hd) ++ (bs ++ post)).drop (pre.length + hd.length)).take
          bs.length = bs := by
        have hh := slice_exact (pre ++ hd) bs post
        rw [show ((pre ++ hd) ++ bs) ++ post = (pre ++ hd) ++ (bs ++ post)
          from by simp, List.length_append] at hh
        exact hh
      rw [hsl]
      simp [List.length_append]
      omega

/-- Decoding the encoding of a text string recovers it exactly. -/
theorem decode_encodeTextString {s : String} {bytes : List Nat}
    (h : encodeTextString s = .ok bytes) (pre post : List Nat) (g : Nat) :
    decodeItem (g + 1) ((pre ++ bytes) ++ post) pre.length =
      .ok (.text s, pre.length + bytes.length) := by
  simp only [encodeTextString] at h
  cases hL : encodeLength 3 (utf8Encode s).length with
  | error e =>
      rw [hL, except_error_bind] at h
      exact absurd h (by simp)
  | ok hd =>
      rw [hL, except_ok_bind] at h
      have hb : bytes = hd ++ utf8Encode s := by simpa using h.symm
      subst hb
      obtain ⟨hhd1, hmt, hrl⟩ := header_decode (by omega) hL pre (utf8Encode s ++ post)
      have hbuf : (pre ++ (hd ++ utf8Encode s)) ++ post =
          (pre ++ hd) ++ (utf8Encode s ++ post) := by simp
      rw [hbuf]
      rw [decodeItem_case3 (by simp [List.length_append]; omega) hmt]
      simp only [decodeTextString]
      rw [hrl, except_ok_bind]
      dsimp only
      rw [ensureBytes_le (by simp [List.length_append]; omega), except_ok_bind]
      have hsl : (((pre ++ hd) ++ (utf8Encode s ++ post)).drop
          (pre.length + hd.length)).take (utf8Encode s).length = utf8Encode s := by
        have hh := slice_exact (pre ++ hd) (utf8Encode s) post
        rw [show ((pre ++ hd) ++ utf8Encode s) ++ post =
          (pre ++ hd) ++ (utf8Encode s ++ post) from by simp,
          List.length_append] at hh
        exact hh
      rw [hsl, utf8Decode_encode]
      dsimp only
      simp [List.length_append]
      omega

theorem encodeLength_ne_nil {mt len : Nat} {hd : List Nat}
    (h : encodeLength mt len = .ok hd) : 1 ≤ hd.length := by
  simp only [encodeLength] at h
  split_ifs at h
  all_goals cases h
  all_goals simp only [List.length_cons]
  all_goals omega

theorem encodeNumber_ne_nil {j : JSNum} {bytes : List Nat}
    (h : encodeNumber j = .ok bytes) : 1 ≤ bytes.length := by
  cases bytes with
  | cons a t => simp
  | nil =>
      exfalso
      cases j with
      | int n =>
          simp only [encodeNumber, encodeUnsignedInteger,
            encodeNegativeInteger] at h
          split_ifs at h <;> simp at h
      | flt b =>
          simp only [encodeNumber, encodeFloat] at h
          simp at h

theorem encodeTextString_ne_nil {s : String} {bytes : List Nat}
    (h : encodeTextString s = .ok bytes) : 1 ≤ bytes.length := by
  simp only [encodeTextString] at h
  cases hL : encodeLength 3 (utf8Encode s).length with
  | error e =>
      rw [hL, except_error_bind] at h
      cases h
  | ok hd =>
      rw [hL, except_ok_bind] at h
      obtain rfl := Except.ok.inj h
      have := encodeLength_ne_nil hL
      simp
      omega

theorem hasKeyStr_false {acc : List (String × Val)} {k : String}
    (h : k ∉ acc.map Prod.fst) : hasKeyStr acc k = false := by
  simp only [hasKeyStr, List.any_eq_false]
  intro p hp
  simp only [decide_eq_true_eq]
  intro heq
  exact h (List.mem_map.mpr ⟨p, hp, heq⟩)

theorem jsObjSet_fresh {acc : List (String × Val)} {k : String} {v : Val}
    (h : k ∉ acc.map Prod.fst) : jsObjSet acc k v = acc ++ [(k, v)] := by
  simp only [jsObjSet]
  rw [hasKeyStr_false h]
  simp

/-- A permutation with the same key sequence and distinct keys is the
identity. -/
theorem entries_eq_of_keys_eq :
    ∀ {l li : List (String × Val)}, List.Perm li l →
    li.map Prod.fst = l.map Prod.fst → (l.map Prod.fst).Nodup → li = l := by
  intro l
  induction l with
  | nil =>
      intro li hp _ _
      exact hp.symm.nil_eq.symm
  | cons e t iht =>
      intro li hp hk hnd
      cases li with
      | nil =>
          have := hp.length_eq
          simp at this
      | cons e2 t2 =>
          simp only [List.map_cons, List.cons.injEq] at hk
          have he : e2 = e := by
            have h2 : e2 ∈ e :: t := hp.mem_iff.mp (List.mem_cons_self e2 t2)
            exact List.inj_on_of_nodup_map hnd h2 (List.mem_cons_self e t) hk.1
          subst he
          rw [iht hp.cons_inv hk.2 (by
            simp only [List.map_cons, List.nodup_cons] at hnd
            exact hnd.2)]

/-- Without a numeric-`tag`/`value` pair, a map encodes as a plain map. -/
theorem encodeValue_map_plain {l : List (String × Val)}
    (htag : ¬ ∃ j inner, lookupStr l "tag" = some (.num j) ∧
      lookupStr l "value" = some inner) :
    encodeValue (Val.map l) = encodeMapBody l := by
  have hv0 : encodeValue (Val.map l) =
      (match lookupStr l "tag", lookupStr l "value" with
       | some (.num j), some inner => encodeTagged j inner
       | _, _ => encodeMapBody l) := encodeValue_unfold (Val.map l)
  cases hltag : lookupStr l "tag" with
  | none => rw [hltag] at hv0; exact hv0
  | some tv =>
      cases hlval : lookupStr l "value" with
      | none =>
          rw [hltag, hlval] at hv0
          cases tv <;> exact hv0
      | some inner =>
          cases tv with
          | num j => exact absurd ⟨j, inner, hltag, hlval⟩ htag
          | bytes bb => rw [hltag, hlval] at hv0; exact hv0
          | text ss => rw [hltag, hlval] at hv0; exact hv0
          | arr aa => rw [hltag, hlval] at hv0; exact hv0
          | map mm => rw [hltag, hlval] at hv0; exact hv0
          | tag tt vv => rw [hltag, hlval] at hv0; exact hv0
          | bool blb => rw [hltag, hlval] at hv0; exact hv0
          | null => rw [hltag, hlval] at hv0; exact hv0
          | undef => rw [hltag, hlval] at hv0; exact hv0

/-- With a numeric `tag` and a `value`, a map encodes as a tagged value. -/
theorem encodeValue_map_tagged {l : List (String × Val)} {j : JSNum}
    {inner : Val} (hltag : lookupStr l "tag" = some (.num j))
    (hlval : lookupStr l "value" = some inner) :
    encodeValue (Val.map l) = encodeTagged j inner := by
  have hv0 : encodeValue (Val.map l) =
      (match lookupStr l "tag", lookupStr l "value" with
       | some (.num j2), some inner2 => encodeTagged j2 inner2
       | _, _ => encodeMapBody l) := encodeValue_unfold (Val.map l)
  rw [hltag, hlval] at hv0
  exact hv0

theorem decodeSpecial_ai20 {buf : List Nat} {off : Nat} :
    decodeSpecial buf off 20 = .ok (.bool false, off) := rfl

theorem decodeSpecial_ai21 {buf : List Nat} {off : Nat} :
    decodeSpecial buf off 21 = .ok (.bool true, off) := rfl

theorem decodeSpecial_ai22 {buf : List Nat} {off : Nat} :
    decodeSpecial buf off 22 = .ok (.null, off) := rfl

theorem decodeSpecial_ai23 {buf : List Nat} {off : Nat} :
    decodeSpecial buf off 23 = .ok (.undef, off) := rfl

/-- The round-trip induction: decoding starts where the encoder wrote and
returns exactly the round-trip image of the encoded value, at any offset,
with any trailing bytes, and with any sufficient fuel. -/
theorem decode_encode_main : ∀ n : Nat,
    (∀ v : Val, sizeOf v ≤ n → ∀ bytes : List Nat, encodeValue v = .ok bytes →
      RtOk v → ∀ (pre post : List Nat) (f : Nat), bytes.length ≤ f →
      decodeItem f ((pre ++ bytes) ++ post) pre.length =
        .ok (canon v, pre.length + bytes.length)) ∧
    (∀ l : List (String × Val), sizeOf l ≤ n → ∀ bytes : List Nat,
      encodeEntryList l = .ok bytes →
      (∀ p ∈ l, keyOk p.1 = true) → (∀ p ∈ l, RtOk p.2) →
      ∀ (pre post : List Nat) (f : Nat) (acc : List (String × Val)),
      bytes.length ≤ f →
      (acc.map Prod.fst ++ l.map Prod.fst).Nodup →
      decodePairsN (decodeItem f ((pre ++ bytes) ++ post)) l.length pre.length acc =
        .ok (acc ++ canonEntryList l, pre.length + bytes.length)) ∧
    (∀ xs : List Val, sizeOf xs ≤ n → ∀ bytes : List Nat,
      encodeValueList xs = .ok bytes → (∀ x ∈ xs, RtOk x) →
      ∀ (pre post : List Nat) (f : Nat), bytes.length ≤ f →
      decodeSeqN (decodeItem f ((pre ++ bytes) ++ post)) xs.length pre.length =
        .ok (canonValueList xs, pre.length + bytes.length)) := by
  intro n
  induction n using Nat.strong_induction_on with
  | _ n ih =>
    refine ⟨?_, ?_, ?_⟩
    · intro v hn bytes henc hr pre post f hf
      cases hr with
      | num j hok =>
          rw [show canon (Val.num j) = Val.num j from canon_unfold (Val.num j)]
          have hb : encodeNumber j = .ok bytes := by
            rw [← show encodeValue (.num j) = encodeNumber j from
              encodeValue_unfold (Val.num j)]
            exact henc
          obtain ⟨g, rfl⟩ : ∃ g, f = g + 1 :=
            ⟨f - 1, by have := encodeNumber_ne_nil hb; omega⟩
          exact decode_encodeNumber hb hok pre post g
      | bytes bs =>
          rw [show canon (Val.bytes bs) = Val.bytes bs from
            canon_unfold (Val.bytes bs)]
          have hb : encodeByteString bs = .ok bytes := by
            rw [← show encodeValue (.bytes bs) = encodeByteString bs from
              encodeValue_unfold (Val.bytes bs)]
            exact henc
          have hne : 1 ≤ bytes.length := by
            simp only [encodeByteString] at hb
            cases hL : encodeLength 2 bs.length with
            | error e => rw [hL, except_error_bind] at hb; cases hb
            | ok hd =>
                rw [hL, except_ok_bind] at hb
                obtain rfl := Except.ok.inj hb
                have := encodeLength_ne_nil hL
                simp only [List.length_append]
                omega
          obtain ⟨g, rfl⟩ : ∃ g, f = g + 1 := ⟨f - 1, by omega⟩
          exact decode_encodeByteString hb pre post g
      | text s =>
          rw [show canon (Val.text s) = Val.text s from canon_unfold (Val.text s)]
          have hb : encodeTextString s = .ok bytes := by
            rw [← show encodeValue (.text s) = encodeTextString s from
              encodeValue_unfold (Val.text s)]
            exact henc
          obtain ⟨g, rfl⟩ : ∃ g, f = g + 1 :=
            ⟨f - 1, by have := encodeTextString_ne_nil hb; omega⟩
          exact decode_encodeTextString hb pre post g
      | bool b =>
          cases b with
          | false =>
              rw [show canon (Val.bool false) = Val.bool false from
                canon_unfold (Val.bool false)]
              have hb : (Except.ok [0xf4] : Except String (List Nat)) =
                  .ok bytes := by
                rw [← show encodeValue (Val.bool false) = Except.ok [0xf4] from
                  encodeValue_unfold (Val.bool false)]
                exact henc
              obtain rfl := Except.ok.inj hb
              obtain ⟨g, rfl⟩ : ∃ g, f = g + 1 := ⟨f - 1, by simp at hf; omega⟩
              have hbyte : byteAt ((pre ++ [0xf4]) ++ post) pre.length = 0xf4 := by
                rw [List.append_assoc, List.singleton_append]
                exact byteAt_pos _ _ _
              rw [decodeItem_case7 (by simp; try omega) (by rw [hbyte]),
                show byteAt ((pre ++ [0xf4]) ++ post) pre.length % 32 = 20
                  from by rw [hbyte],
                decodeSpecial_ai20]
              simp
          | true =>
              rw [show canon (Val.bool true) = Val.bool true from
                canon_unfold (Val.bool true)]
              have hb : (Except.ok [0xf5] : Except String (List Nat)) =
                  .ok bytes := by
                rw [← show encodeValue (Val.bool true) = Except.ok [0xf5] from
                  encodeValue_unfold (Val.bool true)]
                exact henc
              obtain rfl := Except.ok.inj hb
              obtain ⟨g, rfl⟩ : ∃ g, f = g + 1 := ⟨f - 1, by simp at hf; omega⟩
              have hbyte : byteAt ((pre ++ [0xf5]) ++ post) pre.length = 0xf5 := by
                rw [List.append_assoc, List.singleton_append]
                exact byteAt_pos _ _ _
              rw [decodeItem_case7 (by simp; try omega) (by rw [hbyte]),
                show byteAt ((pre ++ [0xf5]) ++ post) pre.length % 32 = 21
                  from by rw [hbyte],
                decodeSpecial_ai21]
              simp
      | null =>
          rw [show canon Val.null = Val.null from canon_unfold Val.null]
          have hb : (Except.ok [0xf6] : Except String (List Nat)) = .ok bytes := by
            rw [← show encodeValue Val.null = Except.ok [0xf6] from
              encodeValue_unfold Val.null]
            exact henc
          obtain rfl := Except.ok.inj hb
          obtain ⟨g, rfl⟩ : ∃ g, f = g + 1 := ⟨f - 1, by simp at hf; omega⟩
          have hbyte : byteAt ((pre ++ [0xf6]) ++ post) pre.length = 0xf6 := by
            rw [List.append_assoc, List.singleton_append]
            exact byteAt_pos _ _ _
          rw [decodeItem_case7 (by simp; try omega) (by rw [hbyte]),
            show byteAt ((pre ++ [0xf6]) ++ post) pre.length % 32 = 22
              from by rw [hbyte],
            decodeSpecial_ai22]
          simp
      | undef =>
          rw [show canon Val.undef = Val.undef from canon_unfold Val.undef]
          have hb : (Except.ok [0xf7] : Except String (List Nat)) = .ok bytes := by
            rw [← show encodeValue Val.undef = Except.ok [0xf7] from
              encodeValue_unfold Val.undef]
            exact henc
          obtain rfl := Except.ok.inj hb
          obtain ⟨g, rfl⟩ : ∃ g, f = g + 1 := ⟨f - 1, by simp at hf; omega⟩
          have hbyte : byteAt ((pre ++ [0xf7]) ++ post) pre.length = 0xf7 := by
            rw [List.append_assoc, List.singleton_append]
            exact byteAt_pos _ _ _
          rw [decodeItem_case7 (by simp; try omega) (by rw [hbyte]),
            show byteAt ((pre ++ [0xf7]) ++ post) pre.length % 32 = 23
              from by rw [hbyte],
            decodeSpecial_ai23]
          simp
      | arr xs hxs =>
          rw [show canon (Val.arr xs) = Val.arr (canonValueList xs) from
            canon_unfold (Val.arr xs)]
          have hu : encodeValue (.arr xs) =
              (if 10000 < xs.length then
                Except.error "Array length exceeds reasonable limit"
              else do
                let header ← encodeLength 4 xs.length
                let body ← encodeValueList xs
                Except.ok (header ++ body)) := encodeValue_unfold (Val.arr xs)
          rw [hu] at henc
          split at henc
          · exact absurd henc (by simp)
          · rename_i hcap
            rcases except_bind_ok.mp henc with ⟨hd, hhd, h2⟩
            rcases except_bind_ok.mp h2 with ⟨body, hbody, h3⟩
            obtain rfl := Except.ok.inj h3
            obtain ⟨hhd1, hmt, hrl⟩ := header_decode (by omega) hhd pre (body ++ post)
            obtain ⟨g, rfl⟩ : ∃ g, f = g + 1 :=
              ⟨f - 1, by simp only [List.length_append] at hf; omega⟩
            have hbuf : (pre ++ (hd ++ body)) ++ post =
                (pre ++ hd) ++ (body ++ post) := by simp
            rw [hbuf, decodeItem_case4 (by simp [List.length_append]; try omega) hmt]
            simp only [decodeArray]
            rw [hrl, except_ok_bind]
            dsimp only
            rw [if_neg hcap]
            have hs : sizeOf (Val.arr xs) = 1 + sizeOf xs := by simp
            have hseq := (ih (sizeOf xs) (by omega)).2.2 xs le_rfl body hbody hxs
              (pre ++ hd) post g (by simp only [List.length_append] at hf; omega)
            rw [show ((pre ++ hd) ++ body) ++ post = (pre ++ hd) ++ (body ++ post)
              from by simp, List.length_append] at hseq
            rw [hseq, except_ok_bind]
            dsimp only
            simp [List.length_append]
            try omega
      | map l hshape hnd hkok hrv =>
          have hs : sizeOf (Val.map l) = 1 + sizeOf l := by simp
          by_cases htag : ∃ j inner, lookupStr l "tag" = some (.num j) ∧
              lookupStr l "value" = some inner
          · obtain ⟨j, inner, hltag, hlval⟩ := htag
            rw [hltag, hlval] at hshape
            cases j with
            | flt bb => exact (hshape : False).elim
            | int m =>
                obtain ⟨hm0, hlen2⟩ := (hshape : 0 ≤ m ∧ l.length = 2)
                rw [canon_map_tagged hltag hlval hm0]
                rw [encodeValue_map_tagged hltag hlval] at henc
                simp only [encodeTagged] at henc
                rw [if_neg (by omega)] at henc
                rcases except_bind_ok.mp henc with ⟨hd, hhd, h2⟩
                rcases except_bind_ok.mp h2 with ⟨body, hbody, h3⟩
                obtain rfl := Except.ok.inj h3
                obtain ⟨hhd1, hmt, hrl⟩ := header_decode (by omega) hhd pre
                  (body ++ post)
                obtain ⟨g, rfl⟩ : ∃ g, f = g + 1 :=
                  ⟨f - 1, by simp only [List.length_append] at hf; omega⟩
                have hbuf : (pre ++ (hd ++ body)) ++ post =
                    (pre ++ hd) ++ (body ++ post) := by simp
                rw [hbuf, decodeItem_case6 (by simp [List.length_append]; try omega)
                  hmt]
                simp only [decodeTag]
                rw [hrl, except_ok_bind]
                dsimp only
                have hinner : sizeOf inner < sizeOf l := lookupStr_sizeOf hlval
                have hri : RtOk inner := hrv _ (lookupStr_mem hlval)
                have hv := (ih (sizeOf inner) (by omega)).1 inner le_rfl body hbody
                  hri (pre ++ hd) post g
                  (by simp only [List.length_append] at hf; omega)
                rw [show ((pre ++ hd) ++ body) ++ post = (pre ++ hd) ++ (body ++ post)
                  from by simp, List.length_append] at hv
                rw [hv, except_ok_bind]
                dsimp only
                simp [List.length_append]
                try omega
          · rw [canon_map_plain htag]
            rw [encodeValue_map_plain htag] at henc
            simp only [encodeMapBody] at henc
            split at henc
            · exact absurd henc (by simp)
            · rename_i hcap
              rcases except_bind_ok.mp henc with ⟨hd, hhd, h2⟩
              rcases except_bind_ok.mp h2 with ⟨body, hbody, h3⟩
              obtain rfl := Except.ok.inj h3
              obtain ⟨hhd1, hmt, hrl⟩ := header_decode (by omega) hhd pre
                (body ++ post)
              obtain ⟨g, rfl⟩ : ∃ g, f = g + 1 :=
                ⟨f - 1, by simp only [List.length_append] at hf; omega⟩
              have hbuf : (pre ++ (hd ++ body)) ++ post =
                  (pre ++ hd) ++ (body ++ post) := by simp
              rw [hbuf, decodeItem_case5 (by simp [List.length_append]; try omega)
                hmt]
              simp only [decodeMap]
              rw [hrl, except_ok_bind]
              dsimp only
              rw [if_neg hcap]
              have hperm : List.Perm (sortEntries (jsEntriesOrder l)) l :=
                (sortEntries_perm _).trans (jsEntriesOrder_perm _)
              have hszL : sizeOf (sortEntries (jsEntriesOrder l)) = sizeOf l :=
                perm_sizeOf hperm
              have hndL : ((sortEntries (jsEntriesOrder l)).map Prod.fst).Nodup :=
                (hperm.map Prod.fst).nodup_iff.mpr hnd
              have hlenL : (jsEntriesOrder l).length =
                  (sortEntries (jsEntriesOrder l)).length :=
                ((sortEntries_perm (jsEntriesOrder l)).length_eq).symm
              have hpairs := (ih (sizeOf l) (by omega)).2.1
                (sortEntries (jsEntriesOrder l)) (by omega) body hbody
                (fun p hp => hkok p (hperm.mem_iff.mp hp))
                (fun p hp => hrv p (hperm.mem_iff.mp hp))
                (pre ++ hd) post g []
                (by simp only [List.length_append] at hf; omega)
                (by simpa using hndL)
              rw [show ((pre ++ hd) ++ body) ++ post = (pre ++ hd) ++ (body ++ post)
                from by simp, List.length_append] at hpairs
              rw [hlenL, hpairs, except_ok_bind]
              dsimp only
              simp [List.length_append]
              try omega
      | tag t v2 hrv2 =>
          rw [show canon (Val.tag t v2) = Val.tag t (canon v2) from
            canon_unfold (Val.tag t v2)]
          have hu : encodeValue (.tag t v2) = encodeTagged (.int (t : Int)) v2 :=
            encodeValue_unfold (Val.tag t v2)
          rw [hu] at henc
          simp only [encodeTagged] at henc
          rw [if_neg (by omega), show ((t : Int)).toNat = t from by omega] at henc
          rcases except_bind_ok.mp henc with ⟨hd, hhd, h2⟩
          rcases except_bind_ok.mp h2 with ⟨body, hbody, h3⟩
          obtain rfl := Except.ok.inj h3
          obtain ⟨hhd1, hmt, hrl⟩ := header_decode (by omega) hhd pre (body ++ post)
          obtain ⟨g, rfl⟩ : ∃ g, f = g + 1 :=
            ⟨f - 1, by simp only [List.length_append] at hf; omega⟩
          have hbuf : (pre ++ (hd ++ body)) ++ post =
              (pre ++ hd) ++ (body ++ post) := by simp
          rw [hbuf, decodeItem_case6 (by simp [List.length_append]; try omega) hmt]
          simp only [decodeTag]
          rw [hrl, except_ok_bind]
          dsimp only
          have hs : sizeOf (Val.tag t v2) = 1 + sizeOf t + sizeOf v2 := by simp
          have hst : sizeOf t = t := rfl
          have hv := (ih (sizeOf v2) (by omega)).1 v2 le_rfl body hbody hrv2
            (pre ++ hd) post g (by simp only [List.length_append] at hf; omega)
          rw [show ((pre ++ hd) ++ body) ++ post = (pre ++ hd) ++ (body ++ post)
            from by simp, List.length_append] at hv
          rw [hv, except_ok_bind]
          dsimp only
          simp [List.length_append]
          try omega
    · intro l hn bytes henc hkok hrok pre post f acc hf hnd
      cases l with
      | nil =>
          rw [encodeEntryList_nil] at henc
          obtain rfl := Except.ok.inj henc
          simp [decodePairsN, canonEntryList_nil]
      | cons p rest =>
          obtain ⟨k, v⟩ := p
          rw [encodeEntryList_cons] at henc
          have hkey := hkok (k, v) (List.mem_cons_self _ _)
          simp only [List.map_cons] at hnd
          have hknotin : k ∉ acc.map Prod.fst := by
            rw [List.nodup_append] at hnd
            exact fun hk => hnd.2.2 hk (List.mem_cons_self _ _)
          have hs : sizeOf ((k, v) :: rest) =
              1 + (1 + sizeOf k + sizeOf v) + sizeOf rest := by
            simp
            try omega
          have hndrec : ((acc ++ [(k, canon v)]).map Prod.fst ++
              rest.map Prod.fst).Nodup := by
            simpa [List.append_assoc] using hnd
          cases hjs : jsStringToNumber k with
          | some nk =>
              rw [hjs] at henc
              dsimp only at henc
              rcases except_bind_ok.mp henc with ⟨kb, hkb, h2⟩
              rcases except_bind_ok.mp h2 with ⟨vb, hvb, h3⟩
              rcases except_bind_ok.mp h3 with ⟨rb, hrb, h4⟩
              obtain rfl := Except.ok.inj h4
              simp only [keyOk, hjs, Bool.and_eq_true] at hkey
              obtain ⟨hnum, hcanonb⟩ := hkey
              have hcanon : jsNumToString nk = k := by simpa using hcanonb
              obtain ⟨g, rfl⟩ : ∃ g, f = g + 1 :=
                ⟨f - 1, by
                  have := encodeNumber_ne_nil hkb
                  simp only [List.length_append] at hf
                  omega⟩
              simp only [decodePairsN]
              rw [canonEntryList_cons]
              have hkdec := decode_encodeNumber hkb hnum pre ((vb ++ rb) ++ post) g
              rw [show (pre ++ kb) ++ ((vb ++ rb) ++ post) =
                (pre ++ (kb ++ vb ++ rb)) ++ post from by simp] at hkdec
              refine except_bind_ok.mpr ⟨(.num nk, pre.length + kb.length), hkdec, ?_⟩
              dsimp only
              rw [except_ok_bind]
              have hvdec := (ih (sizeOf v) (by omega)).1 v le_rfl vb hvb
                (hrok (k, v) (List.mem_cons_self _ _)) (pre ++ kb) (rb ++ post)
                (g + 1) (by simp only [List.length_append] at hf; omega)
              rw [show ((pre ++ kb) ++ vb) ++ (rb ++ post) =
                (pre ++ (kb ++ vb ++ rb)) ++ post from by simp,
                List.length_append] at hvdec
              refine except_bind_ok.mpr
                ⟨(canon v, pre.length + kb.length + vb.length), hvdec, ?_⟩
              dsimp only
              rw [hcanon, jsObjSet_fresh hknotin]
              have hrdec := (ih (sizeOf rest) (by omega)).2.1 rest le_rfl rb hrb
                (fun p hp => hkok p (List.mem_cons_of_mem _ hp))
                (fun p hp => hrok p (List.mem_cons_of_mem _ hp))
                (pre ++ kb ++ vb) post (g + 1) (acc ++ [(k, canon v)])
                (by simp only [List.length_append] at hf ⊢; omega) hndrec
              rw [show ((pre ++ kb ++ vb) ++ rb) ++ post =
                (pre ++ (kb ++ vb ++ rb)) ++ post from by simp,
                show (pre ++ kb ++ vb).length =
                  pre.length + kb.length + vb.length from by
                  simp [List.length_append]
                  omega] at hrdec
              rw [hrdec]
              simp [List.length_append, List.append_assoc]
              try omega
          | none =>
              rw [hjs] at henc
              dsimp only at henc
              rcases except_bind_ok.mp henc with ⟨kb, hkb, h2⟩
              rcases except_bind_ok.mp h2 with ⟨vb, hvb, h3⟩
              rcases except_bind_ok.mp h3 with ⟨rb, hrb, h4⟩
              obtain rfl := Except.ok.inj h4
              obtain ⟨g, rfl⟩ : ∃ g, f = g + 1 :=
                ⟨f - 1, by
                  have := encodeTextString_ne_nil hkb
                  simp only [List.length_append] at hf
                  omega⟩
              simp only [decodePairsN]
              rw [canonEntryList_cons]
              have hkdec := decode_encodeTextString hkb pre ((vb ++ rb) ++ post) g
              rw [show (pre ++ kb) ++ ((vb ++ rb) ++ post) =
                (pre ++ (kb ++ vb ++ rb)) ++ post from by simp] at hkdec
              refine except_bind_ok.mpr ⟨(.text k, pre.length + kb.length), hkdec, ?_⟩
              dsimp only
              rw [except_ok_bind]
              have hvdec := (ih (sizeOf v) (by omega)).1 v le_rfl vb hvb
                (hrok (k, v) (List.mem_cons_self _ _)) (pre ++ kb) (rb ++ post)
                (g + 1) (by simp only [List.length_append] at hf; omega)
              rw [show ((pre ++ kb) ++ vb) ++ (rb ++ post) =
                (pre ++ (kb ++ vb ++ rb)) ++ post from by simp,
                List.length_append] at hvdec
              refine except_bind_ok.mpr
                ⟨(canon v, pre.length + kb.length + vb.length), hvdec, ?_⟩
              dsimp only
              rw [jsObjSet_fresh hknotin]
              have hrdec := (ih (sizeOf rest) (by omega)).2.1 rest le_rfl rb hrb
                (fun p hp => hkok p (List.mem_cons_of_mem _ hp))
                (fun p hp => hrok p (List.mem_cons_of_mem _ hp))
                (pre ++ kb ++ vb) post (g + 1) (acc ++ [(k, canon v)])
                (by simp only [List.length_append] at hf ⊢; omega) hndrec
              rw [show ((pre ++ kb ++ vb) ++ rb) ++ post =
                (pre ++ (kb ++ vb ++ rb)) ++ post from by simp,
                show (pre ++ kb ++ vb).length =
                  pre.length + kb.length + vb.length from by
                  simp [List.length_append]
                  omega] at hrdec
              rw [hrdec]
              simp [List.length_append, List.append_assoc]
              try omega
    · intro xs hn bytes henc hxs pre post f hf
      cases xs with
      | nil =>
          rw [encodeValueList_nil] at henc
          obtain rfl := Except.ok.inj henc
          simp [decodeSeqN, canonValueList_nil]
      | cons x rest =>
          rw [encodeValueList_cons] at henc
          rcases except_bind_ok.mp henc with ⟨e, he, h2⟩
          rcases except_bind_ok.mp h2 with ⟨rb, hrb, h3⟩
          obtain rfl := Except.ok.inj h3
          have hs : sizeOf (x :: rest) = 1 + sizeOf x + sizeOf rest := by simp
          simp only [decodeSeqN]
          rw [canonValueList_cons]
          have hxdec := (ih (sizeOf x) (by omega)).1 x le_rfl e he
            (hxs x (List.mem_cons_self _ _)) pre (rb ++ post) f
            (by simp only [List.length_append] at hf; omega)
          rw [show ((pre ++ e) ++ (rb ++ post)) =
            (pre ++ (e ++ rb)) ++ post from by simp] at hxdec
          refine except_bind_ok.mpr ⟨(canon x, pre.length + e.length), hxdec, ?_⟩
          dsimp only
          have hrdec := (ih (sizeOf rest) (by omega)).2.2 rest le_rfl rb hrb
            (fun y hy => hxs y (List.mem_cons_of_mem _ hy)) (pre ++ e) post f
            (by simp only [List.length_append] at hf; omega)
          rw [show ((pre ++ e) ++ rb) ++ post = (pre ++ (e ++ rb)) ++ post
            from by simp, List.length_append] at hrdec
          refine except_bind_ok.mpr
            ⟨(canonValueList rest, pre.length + e.length + rb.length), hrdec, ?_⟩
          dsimp only
          simp [List.length_append]
          try omega

/-- Sortedness of an entry list depends only on its key sequence. -/
theorem pairwise_keys_of_map_eq {la lb : List (String × Val)}
    (hk : la.map Prod.fst = lb.map Prod.fst)
    (hs : List.Pairwise (fun p q => jsStrLt q.1 p.1 = false) lb) :
    List.Pairwise (fun p q => jsStrLt q.1 p.1 = false) la := by
  have hb : List.Pairwise (fun a b => jsStrLt b a = false) (lb.map Prod.fst) :=
    List.pairwise_map.mpr hs
  rw [← hk] at hb
  exact List.pairwise_map.mp hb

/-- A comparator-sorted entry list with distinct keys is its own sort. -/
theorem sortEntries_of_sorted {l : List (String × Val)}
    (hs : List.Pairwise (fun p q => jsStrLt q.1 p.1 = false) l)
    (hnd : (l.map Prod.fst).Nodup) : sortEntries l = l := by
  exact perm_pairwise_strict_eq (fun a b h h' => jsStrLt_asymm h h') _ _
    (sortEntries_perm l)
    (pairwise_strict_of_nodup (sortEntries_sorted l)
      (((sortEntries_perm l).map Prod.fst).nodup_iff.mpr hnd))
    (pairwise_strict_of_nodup hs hnd)

/-- The round-trip image of a faithfully representable value is deeply
equal to the value: the mutual induction, with explicit fuel. -/
theorem structEqb_canon_main : ∀ n : Nat,
    (∀ v : Val, sizeOf v ≤ n → RtOk v → ∀ f : Nat, sizeOf (canon v) ≤ f →
      structEqbF f (canon v) v = true) ∧
    (∀ l : List (String × Val), sizeOf l ≤ n → (∀ p ∈ l, RtOk p.2) →
      ∀ f : Nat, sizeOf (canonEntryList l) ≤ f →
      structEqbEntriesF f (canonEntryList l) l = true) ∧
    (∀ xs : List Val, sizeOf xs ≤ n → (∀ x ∈ xs, RtOk x) →
      ∀ f : Nat, sizeOf (canonValueList xs) ≤ f →
      structEqbListF f (canonValueList xs) xs = true) := by
  intro n
  induction n using Nat.strong_induction_on with
  | _ n ih =>
    refine ⟨?_, ?_, ?_⟩
    · intro v hn hr f hf
      cases hr with
      | num j hok =>
          rw [show canon (Val.num j) = Val.num j from
            canon_unfold (Val.num j)] at hf ⊢
          obtain ⟨g, rfl⟩ : ∃ g, f = g + 1 :=
            ⟨f - 1, by have := val_sizeOf_pos (Val.num j); omega⟩
          simp only [structEqbF]
          simp
      | bytes bs =>
          rw [show canon (Val.bytes bs) = Val.bytes bs from
            canon_unfold (Val.bytes bs)] at hf ⊢
          obtain ⟨g, rfl⟩ : ∃ g, f = g + 1 :=
            ⟨f - 1, by have := val_sizeOf_pos (Val.bytes bs); omega⟩
          simp only [structEqbF]
          simp
      | text s =>
          rw [show canon (Val.text s) = Val.text s from
            canon_unfold (Val.text s)] at hf ⊢
          obtain ⟨g, rfl⟩ : ∃ g, f = g + 1 :=
            ⟨f - 1, by have := val_sizeOf_pos (Val.text s); omega⟩
          simp only [structEqbF]
          simp
      | bool b =>
          rw [show canon (Val.bool b) = Val.bool b from
            canon_unfold (Val.bool b)] at hf ⊢
          obtain ⟨g, rfl⟩ : ∃ g, f = g + 1 :=
            ⟨f - 1, by have := val_sizeOf_pos (Val.bool b); omega⟩
          simp only [structEqbF]
          simp
      | null =>
          rw [show canon Val.null = Val.null from canon_unfold Val.null] at hf ⊢
          obtain ⟨g, rfl⟩ : ∃ g, f = g + 1 :=
            ⟨f - 1, by have := val_sizeOf_pos Val.null; omega⟩
          simp only [structEqbF]
      | undef =>
          rw [show canon Val.undef = Val.undef from
            canon_unfold Val.undef] at hf ⊢
          obtain ⟨g, rfl⟩ : ∃ g, f = g + 1 :=
            ⟨f - 1, by have := val_sizeOf_pos Val.undef; omega⟩
          simp only [structEqbF]
      | arr xs hxs =>
          rw [show canon (Val.arr xs) = Val.arr (canonValueList xs) from
            canon_unfold (Val.arr xs)] at hf ⊢
          have hsA : sizeOf (Val.arr (canonValueList xs)) =
              1 + sizeOf (canonValueList xs) := by simp
          have hs : sizeOf (Val.arr xs) = 1 + sizeOf xs := by simp
          obtain ⟨g, rfl⟩ : ∃ g, f = g + 1 := ⟨f - 1, by omega⟩
          simp only [structEqbF]
          exact (ih (sizeOf xs) (by omega)).2.2 xs le_rfl hxs g (by omega)
      | tag t w hrw =>
          rw [show canon (Val.tag t w) = Val.tag t (canon w) from
            canon_unfold (Val.tag t w)] at hf ⊢
          have hsA : sizeOf (Val.tag t (canon w)) =
              1 + sizeOf t + sizeOf (canon w) := by simp
          have hst : sizeOf t = t := rfl
          have hs : sizeOf (Val.tag t w) = 1 + sizeOf t + sizeOf w := by simp
          have h1 : 1 ≤ sizeOf (canon w) := val_sizeOf_pos _
          obtain ⟨g, rfl⟩ : ∃ g, f = g + 1 := ⟨f - 1, by omega⟩
          simp only [structEqbF]
          rw [(ih (sizeOf w) (by omega)).1 w le_rfl hrw g (by omega)]
          simp
      | map l hshape hnd hkok hrv =>
          have hs : sizeOf (Val.map l) = 1 + sizeOf l := by simp
          by_cases htag : ∃ j inner, lookupStr l "tag" = some (.num j) ∧
              lookupStr l "value" = some inner
          · obtain ⟨j, inner, hltag, hlval⟩ := htag
            rw [hltag, hlval] at hshape
            cases j with
            | flt bb => exact (hshape : False).elim
            | int m =>
                obtain ⟨hm0, hlen2⟩ := (hshape : 0 ≤ m ∧ l.length = 2)
                rw [canon_map_tagged hltag hlval hm0] at hf ⊢
                have hinner : sizeOf inner < sizeOf l := lookupStr_sizeOf hlval
                have hri : RtOk inner := hrv _ (lookupStr_mem hlval)
                have hsA : sizeOf (Val.tag m.toNat (canon inner)) =
                    1 + m.toNat + sizeOf (canon inner) := by simp
                have h1 : 1 ≤ sizeOf (canon inner) := val_sizeOf_pos _
                obtain ⟨g, rfl⟩ : ∃ g, f = g + 1 := ⟨f - 1, by omega⟩
                simp only [structEqbF]
                rw [hltag, hlval]
                show (((m.toNat : Int) == m) && structEqbF g (canon inner) inner &&
                  (l.length == 2)) = true
                rw [Int.toNat_of_nonneg hm0,
                  (ih (sizeOf inner) (by omega)).1 inner le_rfl hri g (by omega),
                  hlen2]
                simp
          · rw [canon_map_plain htag] at hf ⊢
            have hperm : List.Perm (sortEntries (jsEntriesOrder l)) l :=
              (sortEntries_perm _).trans (jsEntriesOrder_perm _)
            have hszL : sizeOf (sortEntries (jsEntriesOrder l)) = sizeOf l :=
              perm_sizeOf hperm
            have hndL : ((sortEntries (jsEntriesOrder l)).map Prod.fst).Nodup :=
              (hperm.map Prod.fst).nodup_iff.mpr hnd
            have hkeys : (canonEntryList (sortEntries (jsEntriesOrder l))).map
                Prod.fst = (sortEntries (jsEntriesOrder l)).map Prod.fst :=
              canonEntryList_keys _
            have hndA : ((canonEntryList (sortEntries (jsEntriesOrder l))).map
                Prod.fst).Nodup := by rw [hkeys]; exact hndL
            have hsortA : sortEntries (canonEntryList
                (sortEntries (jsEntriesOrder l))) =
                canonEntryList (sortEntries (jsEntriesOrder l)) :=
              sortEntries_of_sorted
                (pairwise_keys_of_map_eq hkeys (sortEntries_sorted _)) hndA
            have hsortl : sortEntries l = sortEntries (jsEntriesOrder l) := by
              exact perm_pairwise_strict_eq (fun a b h h' => jsStrLt_asymm h h')
                _ _ ((sortEntries_perm l).trans hperm.symm)
                (pairwise_strict_of_nodup (sortEntries_sorted l)
                  (((sortEntries_perm l).map Prod.fst).nodup_iff.mpr hnd))
                (pairwise_strict_of_nodup (sortEntries_sorted _) hndL)
            have hsA : sizeOf (Val.map (canonEntryList
                (sortEntries (jsEntriesOrder l)))) =
                1 + sizeOf (canonEntryList (sortEntries (jsEntriesOrder l))) := by
              simp
            obtain ⟨g, rfl⟩ : ∃ g, f = g + 1 := ⟨f - 1, by omega⟩
            simp only [structEqbF]
            rw [hsortA, hsortl]
            exact (ih (sizeOf l) (by omega)).2.1 (sortEntries (jsEntriesOrder l))
              (by omega) (fun p hp => hrv p (hperm.mem_iff.mp hp)) g (by omega)
    · intro l hn hrv f hf
      cases l with
      | nil =>
          rw [canonEntryList_nil] at hf ⊢
          obtain ⟨g, rfl⟩ : ∃ g, f = g + 1 :=
            ⟨f - 1, by have := sizeOf_list_pos ([] : List (String × Val)); omega⟩
          simp only [structEqbEntriesF]
      | cons p rest =>
          obtain ⟨k, v⟩ := p
          rw [canonEntryList_cons] at hf ⊢
          have hs : sizeOf ((k, v) :: rest) =
              1 + (1 + sizeOf k + sizeOf v) + sizeOf rest := by
            simp
            try omega
          have hsA : sizeOf ((k, canon v) :: canonEntryList rest) =
              1 + (1 + sizeOf k + sizeOf (canon v)) +
                sizeOf (canonEntryList rest) := by
            simp
            try omega
          have h1 : 1 ≤ sizeOf (canon v) := val_sizeOf_pos _
          have h2 : 1 ≤ sizeOf (canonEntryList rest) := sizeOf_list_pos _
          obtain ⟨g, rfl⟩ : ∃ g, f = g + 1 := ⟨f - 1, by omega⟩
          simp only [structEqbEntriesF]
          rw [(ih (sizeOf v) (by omega)).1 v le_rfl
            (hrv _ (List.mem_cons_self _ _)) g (by omega),
            (ih (sizeOf rest) (by omega)).2.1 rest le_rfl
              (fun p hp => hrv p (List.mem_cons_of_mem _ hp)) g (by omega)]
          simp
    · intro xs hn hxs f hf
      cases xs with
      | nil =>
          rw [canonValueList_nil] at hf ⊢
          obtain ⟨g, rfl⟩ : ∃ g, f = g + 1 :=
            ⟨f - 1, by have := sizeOf_list_pos ([] : List Val); omega⟩
          simp only [structEqbListF]
      | cons x rest =>
          rw [canonValueList_cons] at hf ⊢
          have hs : sizeOf (x :: rest) = 1 + sizeOf x + sizeOf rest := by simp
          have hsA : sizeOf (canon x :: canonValueList rest) =
              1 + sizeOf (canon x) + sizeOf (canonValueList rest) := by simp
          have h1 : 1 ≤ sizeOf (canon x) := val_sizeOf_pos _
          have h2 : 1 ≤ sizeOf (canonValueList rest) := sizeOf_list_pos _
          obtain ⟨g, rfl⟩ : ∃ g, f = g + 1 := ⟨f - 1, by omega⟩
          simp only [structEqbListF]
          rw [(ih (sizeOf x) (by omega)).1 x le_rfl
            (hxs _ (List.mem_cons_self _ _)) g (by omega),
            (ih (sizeOf rest) (by omega)).2.2 rest le_rfl
              (fun y hy => hxs y (List.mem_cons_of_mem _ hy)) g (by omega)]
          simp

/-- The round-trip image of a faithfully representable value is deeply
equal to the value. -/
theorem structEqb_canon {v : Val} (hr : RtOk v) :
    structEqb (canon v) v = true :=
  (structEqb_canon_main (sizeOf v)).1 v le_rfl hr
    (2 * sizeOf (canon v) + 1) (by omega)

/-- C1 counterexample: the map `{"1e3": 0}` is a supported value (a map
with a text key), yet the round trip returns `{"1000": 0}` — the key is
coerced to a number on the wire and returns in its canonical spelling, a
different value that is not even deeply equal to the input; likewise a
`{tag, value}`-shaped object carrying an extra key loses that key on the
round trip. -/
theorem c1_counterexample :
    ((encode (.map [("1e3", .num (.int 0))])).bind decode =
        .ok (.map [("1000", .num (.int 0))]) ∧
      structEqb (.map [("1000", .num (.int 0))])
        (.map [("1e3", .num (.int 0))]) = false ∧
      Val.map [("1000", .num (.int 0))] ≠ Val.map [("1e3", .num (.int 0))]) ∧
    ((encode (.map [("tag", .num (.int 1)), ("value", .num (.int 2)),
        ("x", .num (.int 3))])).bind decode = .ok (.tag 1 (.num (.int 2))) ∧
      structEqb (.tag 1 (.num (.int 2)))
        (.map [("tag", .num (.int 1)), ("value", .num (.int 2)),
          ("x", .num (.int 3))]) = false) :=
  ⟨⟨rfl, rfl, by simp⟩, ⟨rfl, rfl⟩⟩

/-- C1 (amended): `decode (encode V)` returns the round-trip image
`canon V` — the same value with every map rebuilt in the encoder's
emission order and every `{tag, value}`-shaped object rebuilt as a tagged
value — and `canon V` is deeply equal (`structEqb`, the `toEqual` of the
source's tests) to `V`, for every value `V` that the data format
represents faithfully (`RtOk`): safe integers, doubles that classify back
to their own bit pattern, text, bytes, arrays and tags of such values,
maps in any insertion order whose keys are distinct and canonically
spelled, and `{tag, value}`-shaped maps with a non-negative integer tag
and no extra key — whenever `encode` succeeds.  Outside `RtOk` the round
trip can change the value beyond deep equality (see the counterexample,
and C9 for key coercion). -/
theorem c1_theorem (v : Val) (out : List Nat) (hr : RtOk v)
    (henc : encode v = .ok out) :
    decode out = .ok (canon v) ∧ structEqb (canon v) v = true := by
  refine ⟨?_, structEqb_canon hr⟩
  simp only [encode] at henc
  rcases except_bind_ok.mp henc with ⟨buffers, hbuf, h2⟩
  split at h2
  · exact absurd h2 (by simp)
  · rename_i hlen
    obtain rfl := Except.ok.inj h2
    simp only [decode]
    rw [if_neg hlen]
    have hmain := (decode_encode_main (sizeOf v)).1 v le_rfl buffers hbuf hr
      [] [] (buffers.length + 1) (by omega)
    rw [show (([] : List Nat) ++ buffers) ++ [] = buffers from by simp] at hmain
    simp only [List.length_nil, Nat.zero_add] at hmain
    simp only [decodeFirstItem]
    rw [hmain]
    rfl

/-- The C1 theorem at a concrete input: a two-entry map written in reverse
key order, and a `{tag, value}` object: both satisfy the round-trip
invariant, and their decodes are the canonical images, deeply equal to the
inputs. -/
theorem c1_witness :
    RtOk (Val.map [("b", Val.num (.int 2)), ("a", Val.num (.int 1))]) ∧
    encode (Val.map [("b", Val.num (.int 2)), ("a", Val.num (.int 1))]) =
      .ok [0xa2, 0x61, 0x61, 0x01, 0x61, 0x62, 0x02] ∧
    canon (Val.map [("b", Val.num (.int 2)), ("a", Val.num (.int 1))]) =
      Val.map [("a", Val.num (.int 1)), ("b", Val.num (.int 2))] ∧
    decode [0xa2, 0x61, 0x61, 0x01, 0x61, 0x62, 0x02] =
      .ok (canon (Val.map [("b", Val.num (.int 2)), ("a", Val.num (.int 1))])) ∧
    structEqb (canon (Val.map [("b", Val.num (.int 2)), ("a", Val.num (.int 1))]))
      (Val.map [("b", Val.num (.int 2)), ("a", Val.num (.int 1))]) = true ∧
    RtOk (Val.map [("tag", Val.num (.int 1)), ("value", Val.null)]) ∧
    encode (Val.map [("tag", Val.num (.int 1)), ("value", Val.null)]) =
      .ok [0xc1, 0xf6] ∧
    decode [0xc1, 0xf6] =
      .ok (canon (Val.map [("tag", Val.num (.int 1)), ("value", Val.null)])) ∧
    canon (Val.map [("tag", Val.num (.int 1)), ("value", Val.null)]) =
      Val.tag 1 Val.null ∧
    structEqb (canon (Val.map [("tag", Val.num (.int 1)), ("value", Val.null)]))
      (Val.map [("tag", Val.num (.int 1)), ("value", Val.null)]) = true := by
  have hr : RtOk (Val.map [("b", Val.num (.int 2)), ("a", Val.num (.int 1))]) := by
    refine RtOk.map _ trivial (by decide) ?_ ?_
    · intro p hp
      rcases List.mem_cons.mp hp with rfl | hp
      · rfl
      · rcases List.mem_cons.mp hp with rfl | hp
        · rfl
        · simp at hp
    · intro p hp
      rcases List.mem_cons.mp hp with rfl | hp
      · exact RtOk.num _ (by decide)
      · rcases List.mem_cons.mp hp with rfl | hp
        · exact RtOk.num _ (by decide)
        · simp at hp
  have hr2 : RtOk (Val.map [("tag", Val.num (.int 1)), ("value", Val.null)]) := by
    refine RtOk.map _ (by exact ⟨by decide, rfl⟩) (by decide) ?_ ?_
    · intro p hp
      rcases List.mem_cons.mp hp with rfl | hp
      · rfl
      · rcases List.mem_cons.mp hp with rfl | hp
        · rfl
        · simp at hp
    · intro p hp
      rcases List.mem_cons.mp hp with rfl | hp
      · exact RtOk.num _ (by decide)
      · rcases List.mem_cons.mp hp with rfl | hp
        · exact RtOk.null
        · simp at hp
  have hc := c1_theorem _ _ hr rfl
  have hc2 := c1_theorem _ _ hr2 rfl
  exact ⟨hr, rfl, rfl, hc.1, hc.2, hr2, rfl, hc2.1, rfl, hc2.2⟩

end CborCose
